import Mathlib

/-!
Verification development for the storage core of a small relational engine:
a row codec (rowfmt.py), a slotted-page heap file (heapfile.py), a
sequential-file index with main/aux regions (lowlevel.py), and a thin
executor (executor.py).  Python code is shallowly embedded: bytes are Nat
values (< 256 by construction), machine integers are Nat/Int with explicit
modular arithmetic, dynamic rows are association lists over a tagged value
type, and fallible code returns Option (none corresponds to a raised
exception or non-termination).
-/

/-- Row identifier: a (page, slot) pair, mirroring model.base RID. -/
structure RID where
  page : Nat
  slot : Nat
deriving DecidableEq, Repr

/-- Bytes are modelled as natural numbers (each < 256 by construction). -/
abbrev Byte := Nat

/-- Column types of the codec.  The source stores them as strings
("INT", "FLOAT", "VARCHAR(n)", "DATE"); unknown type strings raise in the
source and have no counterpart in this inductive. -/
inductive ColType where
  | cint
  | cfloat
  | cvarchar (n : Nat)
  | cdate
deriving DecidableEq, Repr

/-- Dynamic Python values stored in a row.  Floats are modelled by their
raw IEEE-754 bit pattern (struct.pack/unpack move the 8 bytes verbatim);
Python str values are modelled by their UTF-8 byte sequences (encode and
decode are inverse on them and are modelled as the identity); vrid models
the plain dict {page, slot} the heap attaches under the key written with
an underscore then rid.  Numeric and string coercions of values of a
different shape (int(), float(), str() applied cross-type) are not
modelled: encodeVal returns none for them. -/
inductive Value where
  | vnull
  | vint (n : Int)
  | vfloat (bits : Nat)
  | vstr (bytes : List Byte)
  | vrid (page slot : Nat)
deriving DecidableEq, Repr

/-- Rows are Python dicts from column name to value, modelled as
association lists with unique keys maintained by dictInsert. -/
abbrev Row := List (String × Value)

/-- Schemas are ordered lists of (column name, column type). -/
abbrev Schema := List (String × ColType)

/-- row.get(name, None) returning None is modelled as Option.none. -/
def rowGet (row : Row) (name : String) : Option Value :=
  (row.find? (fun kv => kv.1 == name)).map (fun kv => kv.2)

/-- Python dict assignment out[name] = v: overwrite an existing key or
append a new one. -/
def dictInsert (row : Row) (name : String) (v : Value) : Row :=
  if row.any (fun kv => kv.1 == name) then
    row.map (fun kv => if kv.1 == name then (kv.1, v) else kv)
  else row ++ [(name, v)]

/-- rowfmt._nullmap_size: bytes of the NULL bitmap. -/
def nullmapSize (n : Nat) : Nat := (n + 7) / 8

/-- rowfmt._set_null: set bit i%8 of byte i/8 of the bitmap. -/
def setNullBit (bm : List Byte) (i : Nat) : List Byte :=
  bm.set (i / 8) (bm.getD (i / 8) 0 ||| (1 <<< (i % 8)))

/-- rowfmt._varchar_max: the N of VARCHAR(N), clamped into [0, 65535]. -/
def varcharMax (n : Nat) : Nat := min n 65535

/-- struct.pack of an unsigned 16-bit little-endian value. -/
def u16le (n : Nat) : List Byte := [n % 256, n / 256 % 256]

/-- Little-endian bytes of a 32-bit unsigned value. -/
def u32le (u : Nat) : List Byte :=
  [u % 256, u / 256 % 256, u / 65536 % 256, u / 16777216 % 256]

/-- struct.pack "<i": little-endian signed 32-bit; raises (none) when the
value does not fit. -/
def i32le (n : Int) : Option (List Byte) :=
  if -(2 ^ 31) ≤ n ∧ n < 2 ^ 31 then some (u32le (n % 2 ^ 32).toNat) else none

/-- struct.pack "<d": the 8 bytes of the IEEE-754 bit pattern,
little-endian.  Patterns are well-formed when below 2^64. -/
def u64le (bits : Nat) : List Byte :=
  [bits % 256, bits / 2 ^ 8 % 256, bits / 2 ^ 16 % 256, bits / 2 ^ 24 % 256,
   bits / 2 ^ 32 % 256, bits / 2 ^ 40 % 256, bits / 2 ^ 48 % 256, bits / 2 ^ 56 % 256]

/-- Encoding of one non-null column value, per the type rules of
pack_row: INT is 4 bytes LE (range-checked by struct), FLOAT 8 bytes,
VARCHAR length-prefixed with truncation to the declared maximum, DATE
length-prefixed failing beyond 255 bytes. -/
def encodeVal (typ : ColType) (v : Value) : Option (List Byte) :=
  match typ, v with
  | .cint, .vint n => i32le n
  | .cfloat, .vfloat bits => if bits < 2 ^ 64 then some (u64le bits) else none
  | .cvarchar n, .vstr bs =>
      let b := bs.take (varcharMax n)
      some (u16le b.length ++ b)
  | .cdate, .vstr bs => if bs.length > 255 then none else some (u16le bs.length ++ bs)
  | _, _ => none

/-- A column value pack_row treats as NULL: absent or the null marker. -/
def isNullVal : Option Value → Bool
  | none => true
  | some .vnull => true
  | _ => false

/-- The column loop of pack_row: walks the schema with the running column
index, threading the null bitmap and collecting the payload parts.
val is None (absent column or explicit null) marks the bit and emits
nothing; otherwise the value is encoded per its type. -/
def packCols (row : Row) : Schema → Nat → List Byte → Option (List Byte × List Byte)
  | [], _, bm => some (bm, [])
  | (name, typ) :: rest, i, bm =>
    let val := rowGet row name
    if isNullVal val then packCols row rest (i + 1) (setNullBit bm i)
    else
      match encodeVal typ (val.getD .vnull) with
      | none => none
      | some payload =>
        match packCols row rest (i + 1) bm with
        | none => none
        | some (bm', tail) => some (bm', payload ++ tail)

/-- rowfmt.pack_row: [ncols:u16][nullmap][payloads].  struct.pack "<H"
fails when the column count exceeds 65535. -/
def pack_row (row : Row) (schema : Schema) : Option (List Byte) :=
  let n := schema.length
  if n > 65535 then none
  else do
    let (bm, payload) ← packCols row schema 0 (List.replicate (nullmapSize n) 0)
    some (u16le n ++ bm ++ payload)

/-- struct.unpack_from "<H": requires 2 bytes available at the offset. -/
def unpackFrom2 (buf : List Byte) (off : Nat) : Option Nat :=
  if off + 2 ≤ buf.length then some (buf.getD off 0 + 256 * buf.getD (off + 1) 0)
  else none

/-- struct.unpack_from "<i" as the raw unsigned 32-bit value. -/
def unpackFrom4 (buf : List Byte) (off : Nat) : Option Nat :=
  if off + 4 ≤ buf.length then
    some (buf.getD off 0 + 256 * buf.getD (off + 1) 0 + 65536 * buf.getD (off + 2) 0 +
          16777216 * buf.getD (off + 3) 0)
  else none

/-- struct.unpack_from "<d" as the raw 64-bit pattern. -/
def unpackFrom8 (buf : List Byte) (off : Nat) : Option Nat :=
  if off + 8 ≤ buf.length then
    some (buf.getD off 0 + 2 ^ 8 * buf.getD (off + 1) 0 + 2 ^ 16 * buf.getD (off + 2) 0 +
          2 ^ 24 * buf.getD (off + 3) 0 + 2 ^ 32 * buf.getD (off + 4) 0 +
          2 ^ 40 * buf.getD (off + 5) 0 + 2 ^ 48 * buf.getD (off + 6) 0 +
          2 ^ 56 * buf.getD (off + 7) 0)
  else none

/-- Two's-complement reading of a raw 32-bit value. -/
def decodeI32 (u : Nat) : Int :=
  if u < 2 ^ 31 then (u : Int) else (u : Int) - 2 ^ 32

/-- The column loop of unpack_row: checks the null bit (IndexError when
the bitmap slice is too short is none), then decodes fixed-width fields
with struct.unpack_from (which checks bounds) or a length-prefixed string
whose payload is taken by Python slicing (which silently truncates). -/
def unpackCols (buf : List Byte) (bm : List Byte) :
    Schema → Nat → Nat → Row → Option (Row × Nat)
  | [], _, off, out => some (out, off)
  | (name, typ) :: rest, i, off, out =>
    (bm.get? (i / 8)).bind fun b =>
      if (b >>> (i % 8)) &&& 1 = 1 then
        unpackCols buf bm rest (i + 1) off (dictInsert out name .vnull)
      else
        match typ with
        | .cint => do
            let u ← unpackFrom4 buf off
            unpackCols buf bm rest (i + 1) (off + 4) (dictInsert out name (.vint (decodeI32 u)))
        | .cfloat => do
            let u ← unpackFrom8 buf off
            unpackCols buf bm rest (i + 1) (off + 8) (dictInsert out name (.vfloat u))
        | .cvarchar _ => do
            let ln ← unpackFrom2 buf off
            let bs := (buf.drop (off + 2)).take ln
            unpackCols buf bm rest (i + 1) (off + 2 + ln) (dictInsert out name (.vstr bs))
        | .cdate => do
            let ln ← unpackFrom2 buf off
            let bs := (buf.drop (off + 2)).take ln
            unpackCols buf bm rest (i + 1) (off + 2 + ln) (dictInsert out name (.vstr bs))

/-- rowfmt.unpack_row: read ncols, compare with the schema, slice the
bitmap, then decode the columns. -/
def unpack_row (buf : List Byte) (schema : Schema) : Option Row := do
  let n ← unpackFrom2 buf 0
  if n ≠ schema.length then none
  else
    let bmSize := nullmapSize n
    let bm := (buf.drop 2).take bmSize
    (unpackCols buf bm schema 0 (2 + bmSize) []).map (fun r => r.1)

/-!
Heap file (heapfile.py).  A page is modelled by the fields its 4096-byte
image determines: the slot directory (nslots is its length), data_end,
and the byte region holding row payloads, kept as an association list
from write offset to the blob written there (insert only ever writes at
fresh, strictly decreasing offsets of a page, so chunks never overlap;
reads of regions that are not exactly a previously written chunk - which
the API never performs - are modelled as failure).  A heap state is the
list of its pages; an empty file has zero pages.
-/

def PAGE_SIZE : Nat := 4096

/-- struct.calcsize of the "<HH" page header (nslots, data_end). -/
def HEAP_HDR_SIZE : Nat := 4

/-- struct.calcsize of the "<HH" slot entry (off, len). -/
def SLOT_SIZE : Nat := 4

/-- One slotted page: directory, data_end and written payload chunks. -/
structure Page where
  slots : List (Nat × Nat)
  data_end : Nat
  blobs : List (Nat × List Byte)
deriving DecidableEq, Repr

/-- Heap file state: the list of pages. -/
structure HeapState where
  pages : List Page
deriving DecidableEq, Repr

/-- A freshly allocated page: _ensure_page zero-fills it and writes the
header (0, PAGE_SIZE). -/
def freshPage : Page := ⟨[], PAGE_SIZE, []⟩

/-- HeapFile._find_free_slot: first slot with len == 0, if any. -/
def findFreeSlot (slots : List (Nat × Nat)) : Option Nat :=
  slots.findIdx? (fun sl => sl.2 = 0)

/-- HeapFile._free_bytes: data_end minus the directory end (one more
slot is reserved when no free slot is reused); max(0, _) is natural
subtraction. -/
def freeBytes (nslots data_end : Nat) (reuse : Bool) : Nat :=
  data_end - (HEAP_HDR_SIZE + (nslots + (if reuse then 0 else 1)) * SLOT_SIZE)

/-- One placement attempt of HeapFile.insert on a single page (the body
of the for-loop): find a free slot, check free bytes, then write the blob
at the decremented data_end and fill the slot.  Returns the updated page
and the chosen slot index, or none when the blob does not fit. -/
def tryPlace (pg : Page) (blob : List Byte) : Option (Page × Nat) :=
  let nslots := pg.slots.length
  let sFree := findFreeSlot pg.slots
  if freeBytes nslots pg.data_end sFree.isSome ≥ blob.length then
    let s := sFree.getD nslots
    let de := pg.data_end - blob.length
    let slots' := if s < pg.slots.length then pg.slots.set s (de, blob.length)
                  else pg.slots ++ [(de, blob.length)]
    some ({ slots := slots', data_end := de, blobs := (de, blob) :: pg.blobs }, s)
  else none

/-- HeapFile.insert after pack_row: the size check against a page's
usable area, then at most two placement attempts - the last page, then a
freshly allocated one.  The final RuntimeError branch is none. -/
def heapInsertBlob (st : HeapState) (blob : List Byte) : Option (HeapState × RID) :=
  if blob.length + HEAP_HDR_SIZE + SLOT_SIZE > PAGE_SIZE then none
  else
    let pages0 := if st.pages.length = 0 then st.pages ++ [freshPage] else st.pages
    let p0 := pages0.length - 1
    match tryPlace (pages0.getD p0 freshPage) blob with
    | some (pg, s) => some (⟨pages0.set p0 pg⟩, ⟨p0, s⟩)
    | none =>
      let p1 := pages0.length
      let pages1 := pages0 ++ [freshPage]
      match tryPlace (pages1.getD p1 freshPage) blob with
      | some (pg, s) => some (⟨pages1.set p1 pg⟩, ⟨p1, s⟩)
      | none => none

/-- HeapFile.insert: pack the row, then place the blob. -/
def heapInsert (st : HeapState) (schema : Schema) (row : Row) : Option (HeapState × RID) := do
  let blob ← pack_row row schema
  heapInsertBlob st blob

/-- HeapFile.delete: reading the header of a page at or beyond the file
end feeds struct.unpack an empty read and raises (none); an out-of-range
or already-free slot returns false; a live slot has its len zeroed
(off untouched) and returns true. -/
def heapDelete (st : HeapState) (rid : RID) : Option (HeapState × Bool) :=
  match st.pages.get? rid.page with
  | none => none
  | some pg =>
    if rid.slot ≥ pg.slots.length then some (st, false)
    else
      let sl := pg.slots.getD rid.slot (0, 0)
      if sl.2 = 0 then some (st, false)
      else
        some (⟨st.pages.set rid.page { pg with slots := pg.slots.set rid.slot (sl.1, 0) }⟩, true)

/-- HeapFile.read: bounds-check the slot (KeyError is none), reject a
freed slot, read exactly len bytes at the slot's offset, unpack, and
attach the embedded RID dict. -/
def heapRead (st : HeapState) (schema : Schema) (rid : RID) : Option Row :=
  match st.pages.get? rid.page with
  | none => none
  | some pg =>
    if rid.slot ≥ pg.slots.length then none
    else
      let sl := pg.slots.getD rid.slot (0, 0)
      if sl.2 = 0 then none
      else
        match pg.blobs.lookup sl.1 with
        | none => none
        | some bs =>
          if bs.length = sl.2 then
            (unpack_row bs schema).map (fun row => dictInsert row "_rid" (.vrid rid.page rid.slot))
          else none

/-- The slot loop of iter_rids on one page p: yield (p, s) for each slot
with len different from 0, in slot order. -/
def pageRids (p : Nat) : List (Nat × Nat) → Nat → List RID
  | [], _ => []
  | sl :: rest, s => if sl.2 ≠ 0 then ⟨p, s⟩ :: pageRids p rest (s + 1) else pageRids p rest (s + 1)

/-- The page loop of HeapFile.iter_rids. -/
def iterRidsFrom : List Page → Nat → List RID
  | [], _ => []
  | pg :: rest, p => pageRids p pg.slots 0 ++ iterRidsFrom rest (p + 1)

/-- HeapFile.iter_rids: all live RIDs in page order, slot order. -/
def heapIterRids (st : HeapState) : List RID := iterRidsFrom st.pages 0

/-!
Sequential-file index (lowlevel.py).  The file is a header
(main_count, aux_count, head_ptr) followed by main_count entries of
region D and aux_count entries of region A.  The state keeps the two
counted regions as lists (main_count and aux_count are their lengths) and
the head pointer.  Stale bytes beyond the counted regions are never read
by any operation (every access goes through an index bounded by the
counts, and the one write beyond the counted A region - the append of a
new entry at index aux_count+1 - is modelled as a list append), so the
counted-region state determines all observable behaviour.  Pointer
encoding: 0 = end of list, -1 = tombstone, p > 0 = D[p] (1-based),
p < -1 = A[-p-1] (1-based).  Integer fields are modelled unbounded; the
on-disk encoding restricts keys to signed 32 bits, which no claim
exercises.  Walks that the source runs without a bound take a fuel
argument instantiated with more steps than any well-formed chain can
have; running out of fuel (none) corresponds to non-termination on a
corrupt file.
-/

/-- SFEntry: key, RID and pointer to the next entry. -/
structure SFEntry where
  key : Int
  rid : RID
  next_ptr : Int
deriving DecidableEq, Repr

/-- SFEntry.deleted: a tombstone has next_ptr == -1 (DELETED). -/
def SFEntry.deleted (e : SFEntry) : Bool := e.next_ptr = -1

/-- Index file state: counted regions D and A plus head_ptr. -/
structure SFState where
  D : List SFEntry
  A : List SFEntry
  head : Int
deriving DecidableEq, Repr

/-- The freshly created index file: header (0, 0, 0). -/
def sfEmpty : SFState := ⟨[], [], 0⟩

/-- Placeholder entry for reads the source never reaches (binary search
midpoints are always in range). -/
def dfl : SFEntry := ⟨0, ⟨0, 0⟩, 0⟩

/-- loc followed by _read: dereference a pointer.  loc raises on 0 and
-1; an index beyond the counted region reads garbage or past the file
end, both modelled as none. -/
def readPtr (st : SFState) (p : Int) : Option SFEntry :=
  if p > 0 then st.D.get? (p - 1).toNat
  else if p < -1 then st.A.get? (-p - 2).toNat
  else none

/-- loc followed by _write: overwrite the entry a valid in-range pointer
denotes. -/
def writePtr (st : SFState) (p : Int) (e : SFEntry) : Option SFState :=
  if p > 0 then
    if (p - 1).toNat < st.D.length then some { st with D := st.D.set (p - 1).toNat e }
    else none
  else if p < -1 then
    if (-p - 2).toNat < st.A.length then some { st with A := st.A.set (-p - 2).toNat e }
    else none
  else none

/-- The binary search loop of _lb over D[l..r] (1-based), with ans the
best index found so far.  Midpoint reads are always in range when r is at
most the region length; getD dfl stands for that in-range read.  The
source always runs with l at least 1 (it starts at 1 and only grows);
the guard makes that explicit so the midpoint arithmetic is 1-based. -/
def lbAux (D : List SFEntry) (key : Int) (l r ans : Nat) : Nat :=
  if _h : 1 ≤ l ∧ l ≤ r then
    let mid := (l + r) / 2
    let e := D.getD (mid - 1) dfl
    if e.key ≥ key then lbAux D key l (mid - 1) mid
    else lbAux D key (mid + 1) r ans
  else ans
termination_by r + 1 - l
decreasing_by
  · omega
  · omega

/-- _lb: first 1-based index of D whose key is at least key, or
main_count + 1 when there is none. -/
def lb (st : SFState) (key : Int) : Nat :=
  lbAux st.D key 1 st.D.length (st.D.length + 1)

/-- The backward scan over D shared by insert, search, delete_key:
starting at j, step down past tombstones to the nearest live entry;
0 when none remains. -/
def scanBack (D : List SFEntry) : Nat → Nat
  | 0 => 0
  | j + 1 =>
    match D.get? j with
    | some e => if e.deleted then scanBack D j else j + 1
    | none => 0

/-- The forward walk of insert step 5: advance cur past tombstones and
keys below the new key, tracking prev only across live nodes, until the
end or a key at least the new key.  A tombstone sets cur to its next_ptr
(-1), which the following dereference rejects, exactly as loc does in the
source. -/
def insWalk (st : SFState) (key : Int) : Nat → Int → Int → Option (Int × Int)
  | 0, _, _ => none
  | fuel + 1, prev, cur =>
    if cur = 0 then some (prev, cur)
    else
      match readPtr st cur with
      | none => none
      | some node =>
        if node.deleted then insWalk st key fuel prev node.next_ptr
        else if node.key < key then insWalk st key fuel cur node.next_ptr
        else some (prev, cur)

/-- Fuel sufficient for any walk over a well-formed file: one more step
than the total number of entries. -/
def sfFuel (st : SFState) : Nat := st.D.length + st.A.length + 1

/-- Nat.log2 models int(math.log2(max(1, m + 1))); float rounding of
log2 only diverges from the exact floor beyond roughly 2^48 entries. -/
def reorgThreshold (m : Nat) : Nat := Nat.log2 (max 1 (m + 1))

/-- The logical-list walk of reorganize, bounded by the anti-cycle cap:
collect the non-tombstone entries in chain order. -/
def reorgLoop (st : SFState) (cap : Nat) (cur : Int) (seen : Nat) (acc : List SFEntry) :
    Option (List SFEntry) :=
  if cur = 0 then some acc
  else if seen ≥ cap then some acc
  else
    match readPtr st cur with
    | none => none
    | some e =>
      reorgLoop st cap e.next_ptr (seen + 1) (if e.deleted then acc else acc ++ [e])
termination_by cap - seen
decreasing_by omega

/-- Rechain a list of entries as D[1] to D[newm] with next pointers
D[2], ..., D[newm], 0. -/
def relink (ents : List SFEntry) : List SFEntry :=
  (List.range ents.length).zipWith
    (fun i e => { e with next_ptr := if i + 1 < ents.length then (i + 2 : Int) else 0 })
    ents

/-- reorganize: empty list resets the header; otherwise walk the logical
list (cap = m + a + 8), overwrite D positionally with the collected
entries rechained in file order, and set the header to
(newm, 0, dptr 1 or 0). -/
def reorganize (st : SFState) : Option SFState :=
  if st.head = 0 then some ⟨[], [], 0⟩
  else do
    let out ← reorgLoop st (st.D.length + st.A.length + 8) st.head 0 []
    some ⟨relink out, [], if out.length ≥ 1 then 1 else 0⟩

/-- _maybe_reorg: reorganize when aux_count exceeds the log2 threshold. -/
def maybeReorg (st : SFState) : Option SFState :=
  if st.A.length > reorgThreshold st.D.length then reorganize st else some st

/-- The suffix of insert from step 5 on: walk to the splice point, set
the new entry's next_ptr, then link prev (or the header) to it and write
the header with the original head when prev is a real node. -/
def insertLinkFrom (st1 : SFState) (key : Int) (r : RID) (newp : Int) (prev0 cur0 : Int) :
    Option SFState := do
  let (prev, cur) ← insWalk st1 key (sfFuel st1) prev0 cur0
  let st2 ← writePtr st1 newp ⟨key, r, cur⟩
  if prev = 0 then maybeReorg { st2 with head := newp }
  else do
    let pe ← readPtr st2 prev
    let st3 ← writePtr st2 prev { pe with next_ptr := newp }
    maybeReorg st3

/-- LowLevelSequentialFile.insert: append to A (the write at index
aux_count + 1 grows the counted region), then chain the new node into the
logical list in key order and maybe reorganize. -/
def sfInsert (st : SFState) (key : Int) (r : RID) : Option SFState :=
  let m := st.D.length
  let a := st.A.length
  let h := st.head
  let st1 : SFState := { st with A := st.A ++ [⟨key, r, 0⟩] }
  let newp : Int := -((a : Int) + 2)
  if h = 0 then maybeReorg { st1 with head := newp }
  else
    let lbv := lb st1 key
    let j := scanBack st1.D (min (lbv - 1) m)
    if j ≥ 1 then
      insertLinkFrom st1 key r newp (j : Int) (st1.D.getD (j - 1) dfl).next_ptr
    else
      match readPtr st1 h with
      | none => none
      | some headE =>
        if key ≤ headE.key then do
          let st2 ← writePtr st1 newp ⟨key, r, h⟩
          maybeReorg { st2 with head := newp }
        else insertLinkFrom st1 key r newp 0 h

/-- The collection walk of the slow path of search: skip tombstones,
stop past key, collect matching RIDs. -/
def searchWalk (st : SFState) (key : Int) : Nat → Int → List RID → Option (List RID)
  | 0, _, _ => none
  | fuel + 1, cur, acc =>
    if cur = 0 then some acc
    else
      match readPtr st cur with
      | none => none
      | some node =>
        if node.deleted then searchWalk st key fuel node.next_ptr acc
        else if node.key > key then some acc
        else if node.key = key then searchWalk st key fuel node.next_ptr (acc ++ [node.rid])
        else searchWalk st key fuel node.next_ptr acc

/-- LowLevelSequentialFile.search: the direct D hit returns a single RID;
otherwise walk from the live D-predecessor's successor, or from head. -/
def sfSearch (st : SFState) (key : Int) : Option (List RID) :=
  let m := st.D.length
  let h := st.head
  if h = 0 then some []
  else
    let lbv := lb st key
    let fast : Option (List RID) :=
      if 1 ≤ lbv ∧ lbv ≤ m then
        match st.D.get? (lbv - 1) with
        | some e => if ¬e.deleted ∧ e.key = key then some [e.rid] else none
        | none => none
      else none
    match fast with
    | some out => some out
    | none =>
      let j := scanBack st.D (min (lbv - 1) m)
      let start := if j ≥ 1 then (st.D.getD (j - 1) dfl).next_ptr else h
      searchWalk st key (sfFuel st) start []

/-- The RID filter of delete_key: no RID given matches any node, a given
RID must equal the node's (page, slot). -/
def ridMatch (rid? : Option RID) (node : SFEntry) : Bool :=
  match rid? with
  | none => true
  | some r => node.rid.page == r.page && node.rid.slot == r.slot

/-- The walk of delete_key: splice out each live node matching the key
(and RID when given), tombstone it, and keep prev fixed across a removal.
Carries the pending head value h, written to the header at the end. -/
def delWalk (st : SFState) (key : Int) (rid? : Option RID) :
    Nat → Int → Int → Int → Nat → Option (SFState × Int × Nat)
  | 0, _, _, _, _ => none
  | fuel + 1, prev, cur, h, removed =>
    if cur = 0 then some (st, h, removed)
    else
      match readPtr st cur with
      | none => none
      | some node =>
        if node.key > key then some (st, h, removed)
        else
          if node.key = key ∧ ridMatch rid? node then do
            let nxt := node.next_ptr
            let (st', h') ←
              if prev = 0 then some (st, nxt)
              else do
                let pe ← readPtr st prev
                let stw ← writePtr st prev { pe with next_ptr := nxt }
                some (stw, h)
            let st'' ← writePtr st' cur { node with next_ptr := -1 }
            if rid?.isSome then some (st'', h', removed + 1)
            else delWalk st'' key rid? fuel prev nxt h' (removed + 1)
          else delWalk st key rid? fuel cur node.next_ptr h removed

/-- LowLevelSequentialFile.delete_key: locate the start exactly as insert
does (without the head special case), walk and splice, then write the
header with the final head.  Returns the new state and the count
removed. -/
def sfDeleteKey (st : SFState) (key : Int) (rid? : Option RID) : Option (SFState × Nat) :=
  let m := st.D.length
  let h := st.head
  if h = 0 then some (st, 0)
  else
    let lbv := lb st key
    let j := scanBack st.D (min (lbv - 1) m)
    let prev0 : Int := if j ≥ 1 then (j : Int) else 0
    let cur0 : Int := if j ≥ 1 then (st.D.getD (j - 1) dfl).next_ptr else h
    match delWalk st key rid? (sfFuel st) prev0 cur0 h 0 with
    | none => none
    | some (st', h', removed) => some ({ st' with head := h' }, removed)

/-!
Executor (executor.py) over one heap and an ordered list of indexes.
Each index adaptor (index.py) holds a key column name and a sequential
file; idx.insert coerces the key with int().  Only coercion of values
that are already integers is modelled; int() of floats or numeric strings
does not occur in any claim and maps to none (an unmodelled crash).
-/

/-- One registered index: the adaptor's key column and its file state. -/
structure IndexSt where
  key_col : String
  sf : SFState
deriving DecidableEq, Repr

/-- Executor state: the heap and the registered indexes. -/
structure ExecState where
  heap : HeapState
  indexes : List IndexSt
deriving DecidableEq, Repr

/-- int(key) for keys that are already integers. -/
def coerceKey : Value → Option Int
  | .vint n => some n
  | _ => none

/-- The index loop of Executor.insert: row[idx.key_col] raising KeyError
is re-raised as the missing-indexed-column ValueError, leaving the
remaining indexes untouched; the returned flag records whether that
happened. -/
def execInsertIdx (row : Row) (rid : RID) : List IndexSt → Option (List IndexSt × Bool)
  | [] => some ([], false)
  | idx :: rest =>
    match rowGet row idx.key_col with
    | none => some (idx :: rest, true)
    | some v => do
        let k ← coerceKey v
        let sf' ← sfInsert idx.sf k rid
        let (rest', err) ← execInsertIdx row rid rest
        some ({ idx with sf := sf' } :: rest', err)

/-- Executor.insert: heap.insert first, then update every index in
order; a row lacking an indexed column raises after the heap write, with
no rollback.  The error case carries the partially updated state. -/
def execInsert (es : ExecState) (schema : Schema) (row : Row) :
    Option (ExecState × Except Unit RID) := do
  let (h', rid) ← heapInsert es.heap schema row
  let (idxs', err) ← execInsertIdx row rid es.indexes
  some (⟨h', idxs'⟩, if err then .error () else .ok rid)

/-!
Derived predicates used by the theorems below.
-/

/-- A RID names a live slot: its page exists and the slot has nonzero
len. -/
def slotLive (st : HeapState) (rid : RID) : Bool :=
  match st.pages.get? rid.page with
  | none => false
  | some pg => rid.slot < pg.slots.length && (pg.slots.getD rid.slot (0, 0)).2 != 0

/-- Free bytes of a page as insert computes them for it, accounting for
whether a free slot would be reused. -/
def lastFree (pg : Page) : Nat :=
  freeBytes pg.slots.length pg.data_end (findFreeSlot pg.slots).isSome


/-- The null-bit read of _is_null through get? (IndexError is none). -/
def bmTest (bm : List Byte) (t : Nat) : Option Bool :=
  (bm.get? (t / 8)).map (fun b => (b >>> (t % 8)) &&& 1 == 1)

/-- Total null-bit read (missing bytes read as 0). -/
def bitAt (bm : List Byte) (t : Nat) : Bool := (bm.getD (t / 8) 0 >>> (t % 8)) &&& 1 == 1

/-- Normalization of a row value: absent and null collapse to vnull. -/
def normVal (v : Option Value) : Value :=
  match v with
  | none => .vnull
  | some .vnull => .vnull
  | some v => v

/-- The value unpack recovers for an encoded value: identical except for
VARCHAR byte truncation to the declared maximum. -/
def decodedVal (typ : ColType) (v : Value) : Value :=
  match typ, v with
  | .cvarchar mx, .vstr bs => .vstr (bs.take (varcharMax mx))
  | _, _ => v

/-- The value a decoded column contributes for one schema column. -/
def colResult (row : Row) (nm : String) (ty : ColType) : Value :=
  if isNullVal (rowGet row nm) then .vnull
  else decodedVal ty ((rowGet row nm).getD .vnull)

/-- The lookup function after folding the decoded columns of a schema
over a starting lookup. -/
def expectedUpd (row : Row) : Schema → (String → Option Value) → String → Option Value
  | [], f, name => f name
  | (nm, ty) :: rest, f, name =>
      expectedUpd row rest (fun x => if x = nm then some (colResult row nm ty) else f x) name

/-- Whether bit t of the null bitmap is claimed by a null column of the
schema fragment starting at column index i. -/
def nullsFrom (row : Row) : Schema → Nat → Nat → Bool
  | [], _, _ => false
  | (nm, _) :: rest, i, t => (t == i && isNullVal (rowGet row nm)) || nullsFrom row rest (i + 1) t

/-- Every VARCHAR value of the row fits its declared maximum, so that
truncation is the identity. -/
def varcharFits (row : Row) (schema : Schema) : Prop :=
  ∀ p ∈ schema, ∀ mx bs, p.2 = ColType.cvarchar mx → rowGet row p.1 = some (.vstr bs) →
    bs.length ≤ varcharMax mx

/-- A schema of fixed-width (INT / FLOAT) columns only. -/
def fixedWidth (schema : Schema) : Prop :=
  ∀ p ∈ schema, p.2 = ColType.cint ∨ p.2 = ColType.cfloat


/-- Follow next pointers from p, recording the pointers visited, until
the end marker 0.  Fails on an invalid pointer, on a tombstone (whose
next_ptr -1 fails at the following dereference exactly as loc does) and
on fuel exhaustion (a cycle). -/
def chainList (st : SFState) : Nat → Int → Option (List Int)
  | fuel, p =>
    if p = 0 then some []
    else
      match fuel with
      | 0 => none
      | fuel + 1 =>
        match readPtr st p with
        | none => none
        | some e => (chainList st fuel e.next_ptr).map (fun ps => p :: ps)

/-- Boolean path predicate: starting at p, the pointers ps are visited
in order and the walk ends pointing at q. -/
def isPathB (st : SFState) : Int → List Int → Int → Bool
  | p, [], q => p == q
  | p, x :: xs, q =>
    p == x &&
      match readPtr st p with
      | none => false
      | some e => isPathB st e.next_ptr xs q

/-- The keys of the entries a pointer list denotes. -/
def keysOf (st : SFState) (ps : List Int) : List Int :=
  ps.filterMap (fun p => (readPtr st p).map (fun e => e.key))

/-- The entries a pointer list denotes. -/
def entriesOf (st : SFState) (ps : List Int) : List SFEntry :=
  ps.filterMap (fun p => readPtr st p)

/-- All pointers into the counted regions: D pointers 1..m and A
pointers -2..-(a+1). -/
def validPtrs (st : SFState) : List Int :=
  (List.range st.D.length).map (fun i : Nat => ((i : Int) + 1)) ++
    (List.range st.A.length).map (fun i : Nat => (-(i : Int) - 2))

/-- A pointer denoting a tombstone entry. -/
def isTomb (st : SFState) (p : Int) : Bool :=
  match readPtr st p with
  | some e => e.next_ptr == -1
  | none => false

/-- A pointer denoting a live (non-tombstone) entry. -/
def isLivePtr (st : SFState) (p : Int) : Bool :=
  match readPtr st p with
  | some e => e.next_ptr != -1
  | none => false

/-- The chain invariant with an explicit pointer list: the logical list
from head_ptr visits ps and ends at 0, its keys are non-decreasing, and
every counted entry outside it is a tombstone. -/
def ChainInv (st : SFState) (ps : List Int) : Prop :=
  isPathB st st.head ps 0 = true ∧
  List.Pairwise (fun x y => x ≤ y) (keysOf st ps) ∧
  (∀ p ∈ validPtrs st, p ∉ ps → isTomb st p = true)

/-- The full index invariant: some chain satisfies ChainInv and region D
is positionally non-decreasing in key (tombstones keep their keys). -/
def INV (st : SFState) : Prop :=
  (∃ ps, ChainInv st ps) ∧ List.Pairwise (fun x y => x ≤ y) (st.D.map (fun e => e.key))

/-- States reachable from a fresh index file by the three mutating
operations. -/
inductive Reachable : SFState → Prop where
  | empty : Reachable sfEmpty
  | ins : ∀ (st : SFState) (k : Int) (r : RID) (st' : SFState), Reachable st →
      sfInsert st k r = some st' → Reachable st'
  | del : ∀ (st : SFState) (k : Int) (rid? : Option RID) (st' : SFState) (n : Nat),
      Reachable st → sfDeleteKey st k rid? = some (st', n) → Reachable st'
  | reorg : ∀ (st st' : SFState), Reachable st → reorganize st = some st' → Reachable st'

/-- The logical pointer list of a state, computed with enough fuel for
any well-formed chain. -/
def logicalPtrs (st : SFState) : Option (List Int) :=
  chainList st (st.D.length + st.A.length) st.head

/-- The live entries in logical order. -/
def logicalEntries (st : SFState) : List SFEntry :=
  entriesOf st ((logicalPtrs st).getD [])

/-- The state reorganize produces from the collected live entries. -/
def canonState (ents : List SFEntry) : SFState :=
  ⟨relink ents, [], if ents.length ≥ 1 then 1 else 0⟩

/-- The pointer a pointer list starts at: its head, or the end marker. -/
def headPtr : List Int → Int
  | [] => 0
  | x :: _ => x

/-! END_OF_DEFINITIONS -/

/-!
Heap file theorems.
-/

/-- A fresh page accepts any blob within the usable area, at slot 0. -/
theorem tryPlace_fresh (blob : List Byte)
    (h : blob.length + HEAP_HDR_SIZE + SLOT_SIZE ≤ PAGE_SIZE) :
    tryPlace freshPage blob =
      some (⟨[(PAGE_SIZE - blob.length, blob.length)], PAGE_SIZE - blob.length,
             [(PAGE_SIZE - blob.length, blob)]⟩, 0) := by
  have hfb : freeBytes 0 PAGE_SIZE false = 4088 := by decide
  simp only [HEAP_HDR_SIZE, SLOT_SIZE, PAGE_SIZE] at h
  unfold tryPlace freshPage findFreeSlot
  simp only [List.findIdx?_nil, List.length_nil, Option.isSome_none, Bool.false_eq_true,
    if_false, hfb]
  rw [if_pos (by omega)]
  simp [PAGE_SIZE]

/-- C8: any blob passing the step-1 size check is placed by insert: the
second attempt on a fresh page always fits, so the final failure branch
is unreachable. -/
theorem claim_c8_insert_total (st : HeapState) (blob : List Byte)
    (h : blob.length + HEAP_HDR_SIZE + SLOT_SIZE ≤ PAGE_SIZE) :
    (heapInsertBlob st blob).isSome := by
  unfold heapInsertBlob
  rw [if_neg (by simp only [HEAP_HDR_SIZE, SLOT_SIZE, PAGE_SIZE] at h ⊢; omega)]
  set pages0 := if st.pages.length = 0 then st.pages ++ [freshPage] else st.pages with hpages0
  simp only [List.getD, List.get?_eq_getElem?]
  cases htry : tryPlace (pages0[pages0.length - 1]?.getD freshPage) blob with
  | some pr => cases pr with | mk pg s => simp [htry]
  | none =>
    have hgd : (pages0 ++ [freshPage])[pages0.length]?.getD freshPage = freshPage := by
      simp [List.getElem?_concat_length]
    simp only [htry, hgd, tryPlace_fresh blob h]
    simp

/-- Witness for C8: a one-byte row inserted into an empty heap. -/
theorem claim_c8_insert_total_witness :
    (heapInsertBlob ⟨[]⟩ [7]).isSome :=
  claim_c8_insert_total ⟨[]⟩ [7] (by decide)

/-- tryPlace succeeds exactly when the computed free bytes cover the
blob. -/
theorem tryPlace_isSome_of (pg : Page) (blob : List Byte) (hF : blob.length ≤ lastFree pg) :
    ∃ pg' s, tryPlace pg blob = some (pg', s) := by
  unfold tryPlace
  rw [if_pos (by unfold lastFree at hF; omega)]
  exact ⟨_, _, rfl⟩

/-- tryPlace fails when the blob exceeds the computed free bytes. -/
theorem tryPlace_eq_none_of (pg : Page) (blob : List Byte) (hF : lastFree pg < blob.length) :
    tryPlace pg blob = none := by
  unfold tryPlace
  rw [if_neg (by unfold lastFree at hF; omega)]

/-- C7: a blob exactly filling the last page's free bytes is placed on
that page; one byte more forces a fresh page whose index is the previous
page count. -/
theorem claim_c7_boundary_fit (st : HeapState) (blob : List Byte) (hne : st.pages ≠ [])
    (h : blob.length + HEAP_HDR_SIZE + SLOT_SIZE ≤ PAGE_SIZE) :
    (blob.length = lastFree (st.pages.getLast hne) →
      ∃ st' s, heapInsertBlob st blob = some (st', ⟨st.pages.length - 1, s⟩)) ∧
    (blob.length = lastFree (st.pages.getLast hne) + 1 →
      ∃ st' s, heapInsertBlob st blob = some (st', ⟨st.pages.length, s⟩) ∧
        st'.pages.length = st.pages.length + 1) := by
  have hlen : st.pages.length ≠ 0 := by
    intro h0; exact hne (List.length_eq_zero.mp h0)
  have hgl : st.pages[st.pages.length - 1]?.getD freshPage = st.pages.getLast hne := by
    rw [List.getElem?_eq_getElem (by omega), Option.getD_some, List.getLast_eq_getElem]
  unfold heapInsertBlob
  rw [if_neg (by simp only [HEAP_HDR_SIZE, SLOT_SIZE, PAGE_SIZE] at h ⊢; omega)]
  rw [if_neg hlen]
  simp only [List.getD, List.get?_eq_getElem?, hgl]
  constructor
  · intro hfit
    obtain ⟨pg', s, htry⟩ := tryPlace_isSome_of _ blob (le_of_eq hfit)
    rw [htry]
    exact ⟨_, s, rfl⟩
  · intro hover
    rw [tryPlace_eq_none_of _ blob (by omega)]
    have hgd : (st.pages ++ [freshPage])[st.pages.length]?.getD freshPage = freshPage := by
      simp [List.getElem?_concat_length]
    rw [hgd, tryPlace_fresh blob h]
    exact ⟨_, 0, rfl, by simp⟩

/-- Witness for C7: a page with 4078 free bytes receives a 4078-byte
blob in place. -/
theorem claim_c7_boundary_fit_witness :
    ∃ st' s, heapInsertBlob ⟨[⟨[(4090, 6)], 4090, []⟩]⟩ (List.replicate 4078 0) =
      some (st', ⟨0, s⟩) := by
  have h := (claim_c7_boundary_fit ⟨[⟨[(4090, 6)], 4090, []⟩]⟩ (List.replicate 4078 0)
    (List.cons_ne_nil _ _)
    (by rw [List.length_replicate]; decide)).1
    (by rw [List.length_replicate]; decide)
  simpa only [List.length_cons, List.length_nil] using h

/-- Freeing a slot leaves the RID dead. -/
theorem slotLive_after_free (pages : List Page) (page slot : Nat) (pg : Page) (x : Nat)
    (hpg : pages.get? page = some pg) (hs : slot < pg.slots.length) :
    slotLive ⟨pages.set page { pg with slots := pg.slots.set slot (x, 0) }⟩ ⟨page, slot⟩
      = false := by
  have hidx : page < pages.length := by
    by_contra hc
    rw [List.get?_eq_getElem?, List.getElem?_eq_none (by omega)] at hpg
    exact Option.noConfusion hpg
  unfold slotLive
  rw [List.get?_eq_getElem?, List.getElem?_set_self hidx]
  simp only [Bool.and_eq_false_iff, bne_eq_false_iff_eq]
  right
  rw [List.getD, List.get?_eq_getElem?, List.getElem?_set_self (by simpa using hs)]
  rfl

/-- C2 (amended): heap.delete raises on a page index at or beyond the
page count (the header read feeds struct.unpack an empty buffer); for an
existing page it returns false exactly on a dead RID (slot out of range
or already freed), leaving the state unchanged, and true exactly on a
live slot, which it frees. -/
theorem claim_c2_delete_spec (st : HeapState) (rid : RID) :
    (rid.page ≥ st.pages.length → heapDelete st rid = none) ∧
    (rid.page < st.pages.length →
      (slotLive st rid = false → heapDelete st rid = some (st, false)) ∧
      (slotLive st rid = true →
        ∃ st', heapDelete st rid = some (st', true) ∧ slotLive st' rid = false)) := by
  constructor
  · intro hge
    unfold heapDelete
    rw [List.get?_eq_getElem?, List.getElem?_eq_none (by omega)]
  · intro hlt
    have hpg : ∃ pg, st.pages.get? rid.page = some pg := by
      rw [List.get?_eq_getElem?, List.getElem?_eq_getElem hlt]
      exact ⟨_, rfl⟩
    obtain ⟨pg, hpg⟩ := hpg
    have hlive0 : slotLive st rid =
        (rid.slot < pg.slots.length && (pg.slots.getD rid.slot (0, 0)).2 != 0) := by
      unfold slotLive
      rw [hpg]
    constructor
    · intro hdead
      rw [hlive0] at hdead
      unfold heapDelete
      simp only [hpg]
      by_cases hs : rid.slot ≥ pg.slots.length
      · rw [if_pos hs]
      · rw [if_neg hs]
        simp only [Bool.and_eq_false_iff, decide_eq_false_iff_not, bne_eq_false_iff_eq] at hdead
        rcases hdead with hdead | hdead
        · omega
        · rw [if_pos hdead]
    · intro hlive
      rw [hlive0] at hlive
      simp only [Bool.and_eq_true, decide_eq_true_eq, bne_iff_ne] at hlive
      unfold heapDelete
      simp only [hpg]
      rw [if_neg (by omega), if_neg hlive.2]
      exact ⟨_, rfl, slotLive_after_free st.pages rid.page rid.slot pg _ hpg hlive.1⟩

/-- Witness for C2: deleting an already-free slot of an existing page
returns false and leaves the heap unchanged. -/
theorem claim_c2_delete_spec_witness :
    heapDelete ⟨[⟨[(100, 0)], 4096, []⟩]⟩ ⟨0, 0⟩ = some (⟨[⟨[(100, 0)], 4096, []⟩]⟩, false) :=
  ((claim_c2_delete_spec ⟨[⟨[(100, 0)], 4096, []⟩]⟩ ⟨0, 0⟩).2 (by decide)).1 (by decide)

/-- Counterexample for C2 as stated: deleting RID (0, 0) on an empty
(zero-page) heap raises (struct.error on the empty header read) instead
of returning false. -/
theorem claim_c2_counterexample : heapDelete ⟨[]⟩ ⟨0, 0⟩ = none := by decide

/-!
Sequential-file index theorems.
-/

/-- The reorganization threshold at main_count 0. -/
theorem reorgThreshold_zero : reorgThreshold 0 = 0 := by simp [reorgThreshold, Nat.log2]

/-- The reorganization threshold at main_count 1. -/
theorem reorgThreshold_one : reorgThreshold 1 = 1 := by simp [reorgThreshold, Nat.log2]

/-- Rechaining a single entry only ends its list. -/
theorem relink_singleton (e : SFEntry) : relink [e] = [{ e with next_ptr := 0 }] := by
  simp [relink, show List.range 1 = [0] from by decide]

/-- The first insert into an empty index lands in D after the automatic
reorganization. -/
theorem sfInsert_empty (k : Int) (r1 : RID) :
    sfInsert sfEmpty k r1 = some ⟨[⟨k, r1, 0⟩], [], 1⟩ := by
  simp [sfInsert, sfEmpty, maybeReorg, reorgThreshold_zero, reorganize, reorgLoop, readPtr,
    relink_singleton, SFEntry.deleted]

/-- A duplicate key inserted over a one-entry D goes to A, chained before
the head (most-recent-first in the logical list). -/
theorem sfInsert_dup (k : Int) (r1 r2 : RID) :
    sfInsert ⟨[⟨k, r1, 0⟩], [], 1⟩ k r2 = some ⟨[⟨k, r1, 0⟩], [⟨k, r2, 1⟩], -2⟩ := by
  simp [sfInsert, maybeReorg, reorgThreshold_one, readPtr, writePtr, lb, lbAux, scanBack,
    SFEntry.deleted]

/-- The fast path of search returns only the live D hit. -/
theorem sfSearch_dup (k : Int) (r1 r2 : RID) :
    sfSearch ⟨[⟨k, r1, 0⟩], [⟨k, r2, 1⟩], -2⟩ k = some [r1] := by
  simp [sfSearch, lb, lbAux, readPtr, scanBack, SFEntry.deleted]

/-- C1 (amended): inserting two entries with equal keys into an empty
index and then searching that key returns only the RID of the first
(older) entry: lower_bound lands on the live D copy and the fast path
returns that single RID, never reaching the newer duplicate in A. -/
theorem claim_c1_search_after_dup (k : Int) (r1 r2 : RID) :
    ((sfInsert sfEmpty k r1).bind (fun s1 => sfInsert s1 k r2)).bind
      (fun s2 => sfSearch s2 k) = some [r1] := by
  rw [sfInsert_empty, Option.some_bind, sfInsert_dup, Option.some_bind, sfSearch_dup]

/-- Counterexample for C1 as stated: after inserting key 5 with RIDs
(0,0) then (0,1), search 5 returns [(0,0)] - a single RID, the older
entry - instead of both RIDs newest first. -/
theorem claim_c1_counterexample :
    ((sfInsert sfEmpty 5 ⟨0, 0⟩).bind (fun s1 => sfInsert s1 5 ⟨0, 1⟩)).bind
        (fun s2 => sfSearch s2 5) = some [⟨0, 0⟩] ∧
      some [(⟨0, 0⟩ : RID)] ≠ some [⟨0, 1⟩, ⟨0, 0⟩] := by
  constructor
  · have h1 : sfInsert sfEmpty 5 ⟨0, 0⟩ = some ⟨[⟨5, ⟨0, 0⟩, 0⟩], [], 1⟩ := by
      simp [sfInsert, sfEmpty, maybeReorg, reorgThreshold_zero, reorganize, reorgLoop,
        readPtr, relink_singleton, SFEntry.deleted]
    have h2 : sfInsert ⟨[⟨5, ⟨0, 0⟩, 0⟩], [], 1⟩ 5 ⟨0, 1⟩ =
        some ⟨[⟨5, ⟨0, 0⟩, 0⟩], [⟨5, ⟨0, 1⟩, 1⟩], -2⟩ := by
      simp [sfInsert, maybeReorg, reorgThreshold_one, readPtr, writePtr, lb, lbAux, scanBack,
        SFEntry.deleted]
    have h3 : sfSearch ⟨[⟨5, ⟨0, 0⟩, 0⟩], [⟨5, ⟨0, 1⟩, 1⟩], -2⟩ 5 = some [⟨0, 0⟩] := by
      simp [sfSearch, lb, lbAux, readPtr, scanBack, SFEntry.deleted]
    rw [h1, Option.some_bind, h2, Option.some_bind, h3]
  · decide

/-!
Row codec theorems.
-/

theorem getD_drop (buf : List Byte) (off k : Nat) :
    (buf.drop off).getD k 0 = buf.getD (off + k) 0 := by
  simp [List.getD, List.getElem?_drop]

theorem getD_of_eq_append (buf l suffix : List Byte) (off k : Nat)
    (h : buf.drop off = l ++ suffix) (hk : k < l.length) :
    buf.getD (off + k) 0 = l.getD k 0 := by
  rw [← getD_drop, h]
  simp [List.getD, List.get?_eq_getElem?, List.getElem?_append, hk]

theorem u16_round (n : Nat) (h : n < 65536) :
    (u16le n).getD 0 0 + 256 * (u16le n).getD 1 0 = n := by
  show n % 256 + 256 * (n / 256 % 256) = n
  omega

theorem length_drop_of_append (buf l suffix : List Byte) (off : Nat)
    (h : buf.drop off = l ++ suffix) (hl : 0 < l.length) : off + l.length ≤ buf.length := by
  have := congrArg List.length h
  simp [List.length_drop] at this
  omega

theorem unpackFrom2_of_append (buf l suffix : List Byte) (off : Nat) (n : Nat)
    (h : buf.drop off = u16le n ++ (l ++ suffix)) (hn : n < 65536) :
    unpackFrom2 buf off = some n := by
  have hlen : off + 2 ≤ buf.length := by
    have := length_drop_of_append buf (u16le n) (l ++ suffix) off h (by simp [u16le])
    simp [u16le] at this
    omega
  have h0 : buf.getD (off + 0) 0 = (u16le n).getD 0 0 :=
    getD_of_eq_append buf (u16le n) (l ++ suffix) off 0 h (by simp [u16le])
  have h1 : buf.getD (off + 1) 0 = (u16le n).getD 1 0 :=
    getD_of_eq_append buf (u16le n) (l ++ suffix) off 1 h (by simp [u16le])
  unfold unpackFrom2
  rw [if_pos hlen]
  simp only [Nat.add_zero] at h0
  rw [h0, h1, u16_round n hn]

theorem unpackFrom4_of_append (buf suffix : List Byte) (off : Nat) (u : Nat)
    (h : buf.drop off = u32le u ++ suffix) (hu : u < 2 ^ 32) :
    unpackFrom4 buf off = some u := by
  have hlen : off + 4 ≤ buf.length := by
    have := length_drop_of_append buf (u32le u) suffix off h (by simp [u32le])
    simp [u32le] at this
    omega
  have h0 : buf.getD (off + 0) 0 = (u32le u).getD 0 0 :=
    getD_of_eq_append buf _ suffix off 0 h (by simp [u32le])
  have h1 : buf.getD (off + 1) 0 = (u32le u).getD 1 0 :=
    getD_of_eq_append buf _ suffix off 1 h (by simp [u32le])
  have h2 : buf.getD (off + 2) 0 = (u32le u).getD 2 0 :=
    getD_of_eq_append buf _ suffix off 2 h (by simp [u32le])
  have h3 : buf.getD (off + 3) 0 = (u32le u).getD 3 0 :=
    getD_of_eq_append buf _ suffix off 3 h (by simp [u32le])
  unfold unpackFrom4
  rw [if_pos hlen]
  simp only [Nat.add_zero] at h0
  rw [h0, h1, h2, h3]
  show some (u % 256 + 256 * (u / 256 % 256) + 65536 * (u / 65536 % 256) +
    16777216 * (u / 16777216 % 256)) = some u
  congr 1
  omega

theorem unpackFrom8_of_append (buf suffix : List Byte) (off : Nat) (u : Nat)
    (h : buf.drop off = u64le u ++ suffix) (hu : u < 2 ^ 64) :
    unpackFrom8 buf off = some u := by
  have hlen : off + 8 ≤ buf.length := by
    have := length_drop_of_append buf (u64le u) suffix off h (by simp [u64le])
    simp [u64le] at this
    omega
  have h0 : buf.getD (off + 0) 0 = (u64le u).getD 0 0 :=
    getD_of_eq_append buf _ suffix off 0 h (by simp [u64le])
  have h1 : buf.getD (off + 1) 0 = (u64le u).getD 1 0 :=
    getD_of_eq_append buf _ suffix off 1 h (by simp [u64le])
  have h2 : buf.getD (off + 2) 0 = (u64le u).getD 2 0 :=
    getD_of_eq_append buf _ suffix off 2 h (by simp [u64le])
  have h3 : buf.getD (off + 3) 0 = (u64le u).getD 3 0 :=
    getD_of_eq_append buf _ suffix off 3 h (by simp [u64le])
  have h4 : buf.getD (off + 4) 0 = (u64le u).getD 4 0 :=
    getD_of_eq_append buf _ suffix off 4 h (by simp [u64le])
  have h5 : buf.getD (off + 5) 0 = (u64le u).getD 5 0 :=
    getD_of_eq_append buf _ suffix off 5 h (by simp [u64le])
  have h6 : buf.getD (off + 6) 0 = (u64le u).getD 6 0 :=
    getD_of_eq_append buf _ suffix off 6 h (by simp [u64le])
  have h7 : buf.getD (off + 7) 0 = (u64le u).getD 7 0 :=
    getD_of_eq_append buf _ suffix off 7 h (by simp [u64le])
  unfold unpackFrom8
  rw [if_pos hlen]
  simp only [Nat.add_zero] at h0
  rw [h0, h1, h2, h3, h4, h5, h6, h7]
  show some (u % 256 + 2 ^ 8 * (u / 2 ^ 8 % 256) + 2 ^ 16 * (u / 2 ^ 16 % 256) +
    2 ^ 24 * (u / 2 ^ 24 % 256) + 2 ^ 32 * (u / 2 ^ 32 % 256) + 2 ^ 40 * (u / 2 ^ 40 % 256) +
    2 ^ 48 * (u / 2 ^ 48 % 256) + 2 ^ 56 * (u / 2 ^ 56 % 256)) = some u
  congr 1
  omega

theorem i32_round (n : Int) (hlo : -(2 ^ 31) ≤ n) (hhi : n < 2 ^ 31) :
    decodeI32 (n % 2 ^ 32).toNat = n := by
  unfold decodeI32
  rcases le_or_lt 0 n with hn | hn
  · have hmod : n % 2 ^ 32 = n := Int.emod_eq_of_lt hn (by omega)
    rw [hmod]
    rw [if_pos (by omega)]
    omega
  · have hmod : n % 2 ^ 32 = n + 2 ^ 32 := by
      have h2 : (n + 2 ^ 32) % 2 ^ 32 = n % 2 ^ 32 := by omega
      rw [← h2, Int.emod_eq_of_lt (by omega) (by omega)]
    rw [hmod]
    rw [if_neg (by omega)]
    omega

theorem bitAt_eq_testBit (bm : List Byte) (t : Nat) :
    bitAt bm t = (bm.getD (t / 8) 0).testBit (t % 8) := by
  unfold bitAt
  simp [Nat.testBit]

theorem setNullBit_length (bm : List Byte) (i : Nat) :
    (setNullBit bm i).length = bm.length := by
  simp [setNullBit]

theorem bitAt_setNullBit (bm : List Byte) (i t : Nat) (hi : i / 8 < bm.length) :
    bitAt (setNullBit bm i) t = (bitAt bm t || (t == i)) := by
  rw [bitAt_eq_testBit, bitAt_eq_testBit]
  unfold setNullBit
  by_cases hb : t / 8 = i / 8
  · rw [hb]
    have hset : (bm.set (i / 8) (bm.getD (i / 8) 0 ||| 1 <<< (i % 8))).getD (i / 8) 0
        = bm.getD (i / 8) 0 ||| 1 <<< (i % 8) := by
      rw [List.getD_eq_getElem?_getD, List.getElem?_set_self hi]
      rfl
    rw [hset, Nat.one_shiftLeft, Nat.testBit_lor, Nat.testBit_two_pow]
    by_cases hti : t = i
    · simp [hti]
    · have hmod : ¬ (i % 8 = t % 8) := by omega
      simp [hmod, hti]
  · have hset : (bm.set (i / 8) (bm.getD (i / 8) 0 ||| 1 <<< (i % 8))).getD (t / 8) 0
        = bm.getD (t / 8) 0 := by
      rw [List.getD_eq_getElem?_getD, List.getElem?_set_ne (by omega),
        ← List.getD_eq_getElem?_getD]
    rw [hset]
    have hti : ¬ t = i := by omega
    simp [hti]

theorem packCols_bm (row : Row) : ∀ (schema : Schema) (i : Nat) (bm0 bmf pay : List Byte),
    packCols row schema i bm0 = some (bmf, pay) →
    (∀ j, j < schema.length → (i + j) / 8 < bm0.length) →
    bmf.length = bm0.length ∧
    ∀ t, bitAt bmf t = (bitAt bm0 t || nullsFrom row schema i t)
  | [], i, bm0, bmf, pay, hp, _ => by
    simp only [packCols, Option.some_inj, Prod.mk.injEq] at hp
    obtain ⟨h1, _⟩ := hp
    subst h1
    simp [nullsFrom]
  | (nm, ty) :: rest, i, bm0, bmf, pay, hp, hwf => by
    have hi : i / 8 < bm0.length := by
      have := hwf 0 (by simp)
      simpa using this
    have hwftail : ∀ j, j < rest.length → (i + 1 + j) / 8 < bm0.length := by
      intro j hj
      have := hwf (j + 1) (by simp; omega)
      have heq : i + (j + 1) = i + 1 + j := by omega
      rw [heq] at this
      exact this
    rw [packCols] at hp
    by_cases hnull : isNullVal (rowGet row nm) = true
    · rw [if_pos (by simpa using hnull)] at hp
      obtain ⟨hlen, hbits⟩ := packCols_bm row rest (i + 1) (setNullBit bm0 i) bmf pay hp
        (by intro j hj; rw [setNullBit_length]; exact hwftail j hj)
      refine ⟨by rw [hlen, setNullBit_length], ?_⟩
      intro t
      rw [hbits t, bitAt_setNullBit bm0 i t hi, nullsFrom, hnull]
      cases htieq : (t == i) <;> simp [htieq]
    · rw [if_neg (by simpa using hnull)] at hp
      cases henc : encodeVal ty ((rowGet row nm).getD .vnull) with
      | none => rw [henc] at hp; exact absurd hp (by simp)
      | some enc =>
        rw [henc] at hp
        cases hrec : packCols row rest (i + 1) bm0 with
        | none => rw [hrec] at hp; exact absurd hp (by simp)
        | some pr =>
          obtain ⟨bm1, tl⟩ := pr
          rw [hrec] at hp
          simp only [Option.some_inj, Prod.mk.injEq] at hp
          obtain ⟨h1, _⟩ := hp
          subst h1
          obtain ⟨hlen, hbits⟩ := packCols_bm row rest (i + 1) bm0 _ tl hrec hwftail
          refine ⟨hlen, ?_⟩
          intro t
          rw [hbits t, nullsFrom]
          have hnn : isNullVal (rowGet row nm) = false := by
            cases hv : isNullVal (rowGet row nm)
            · rfl
            · exact absurd hv hnull
          rw [hnn]
          cases htieq : (t == i) <;> simp [htieq]

theorem rowGet_nil (x : String) : rowGet [] x = none := rfl

theorem rowGet_cons (k : String) (w : Value) (t : Row) (x : String) :
    rowGet ((k, w) :: t) x = if (k == x) = true then some w else rowGet t x := by
  simp only [rowGet, List.find?]
  cases hkk : (k == x)
  · simp [rowGet]
  · simp [rowGet]

theorem rowGet_map_upd (out : Row) (nm : String) (v : Value) (x : String) :
    rowGet (out.map (fun kv => if kv.1 == nm then (kv.1, v) else kv)) x =
      if x = nm then (if out.any (fun kv => kv.1 == nm) = true then some v else none)
      else rowGet out x := by
  induction out with
  | nil =>
    by_cases hx : x = nm <;> simp [hx, rowGet]
  | cons hd tl ih =>
    obtain ⟨k, w⟩ := hd
    simp only [List.map_cons, List.any_cons]
    by_cases hknm : (k == nm) = true
    · have hknm' : k = nm := by simpa using hknm
      simp only [if_pos hknm]
      rw [rowGet_cons, rowGet_cons]
      by_cases hkx : (k == x) = true
      · have hkx' : k = x := by simpa using hkx
        have hxnm : x = nm := by rw [← hkx', hknm']
        simp [hkx, hxnm, hknm]
      · have hkx' : ¬ k = x := by simpa using hkx
        have hxnm : ¬ x = nm := by
          intro hc
          exact hkx' (by rw [hknm', hc])
        simp only [if_neg hkx, ih]
        simp [hxnm]
    · simp only [if_neg hknm]
      rw [rowGet_cons, rowGet_cons]
      by_cases hkx : (k == x) = true
      · have hkx' : k = x := by simpa using hkx
        have hxnm : ¬ x = nm := by
          intro hc
          rw [hc] at hkx'
          exact hknm (by simpa using hkx')
        simp [hkx, hxnm]
      · simp only [if_neg hkx, ih]
        have hknm0 : (k == nm) = false := by simpa using hknm
        by_cases hx : x = nm
        · simp only [if_pos hx]
          by_cases ht : (tl.any fun kv => kv.1 == nm) = true
          · rw [if_pos ht, if_pos (by rw [hknm0, Bool.false_or]; exact ht)]
          · rw [if_neg ht, if_neg (by rw [hknm0, Bool.false_or]; exact ht)]
        · simp [hx]

theorem rowGet_append_single (out : Row) (nm : String) (v : Value) (x : String) :
    rowGet (out ++ [(nm, v)]) x =
      if rowGet out x = none then (if (nm == x) = true then some v else none)
      else rowGet out x := by
  induction out with
  | nil => simp [rowGet_cons, rowGet]
  | cons hd tl ih =>
    obtain ⟨k, w⟩ := hd
    rw [List.cons_append, rowGet_cons, rowGet_cons]
    cases hkx : (k == x)
    · simpa using ih
    · simp

theorem rowGet_dictInsert (out : Row) (nm : String) (v : Value) (x : String) :
    rowGet (dictInsert out nm v) x = if x = nm then some v else rowGet out x := by
  unfold dictInsert
  by_cases hany : out.any (fun kv => kv.1 == nm) = true
  · rw [if_pos hany, rowGet_map_upd]
    by_cases hx : x = nm <;> simp [hx, hany]
  · rw [if_neg hany, rowGet_append_single]
    by_cases hx : x = nm
    · subst hx
      have hnone : rowGet out x = none := by
        cases hfind : List.find? (fun kv => kv.1 == x) out with
        | none => simp [rowGet, hfind]
        | some kv =>
          exfalso
          apply hany
          have hmem := List.find?_some hfind
          have hmem2 := List.mem_of_find?_eq_some hfind
          rw [List.any_eq_true]
          exact ⟨kv, hmem2, hmem⟩
      simp [hnone]
    · have hnmx : (nm == x) = false := by
        rw [beq_eq_false_iff_ne]
        intro hc
        exact hx hc.symm
      cases hout : rowGet out x <;> simp [hnmx, hout, hx]

theorem encodeVal_cint_inv (v : Value) (enc : List Byte) (h : encodeVal .cint v = some enc) :
    ∃ n, v = .vint n ∧ -(2 ^ 31) ≤ n ∧ n < 2 ^ 31 ∧ enc = u32le (n % 2 ^ 32).toNat := by
  cases v with
  | vint n =>
    refine ⟨n, rfl, ?_⟩
    simp only [encodeVal, i32le] at h
    by_cases hr : -(2 ^ 31) ≤ n ∧ n < 2 ^ 31
    · rw [if_pos hr] at h
      exact ⟨hr.1, hr.2, by simpa using h.symm⟩
    · rw [if_neg hr] at h
      exact absurd h (by simp)
  | vnull => exact absurd h (by simp [encodeVal])
  | vfloat b => exact absurd h (by simp [encodeVal])
  | vstr b => exact absurd h (by simp [encodeVal])
  | vrid p s => exact absurd h (by simp [encodeVal])

theorem encodeVal_cfloat_inv (v : Value) (enc : List Byte) (h : encodeVal .cfloat v = some enc) :
    ∃ b, v = .vfloat b ∧ b < 2 ^ 64 ∧ enc = u64le b := by
  cases v with
  | vfloat b =>
    refine ⟨b, rfl, ?_⟩
    simp only [encodeVal] at h
    by_cases hr : b < 2 ^ 64
    · rw [if_pos hr] at h
      exact ⟨hr, by simpa using h.symm⟩
    · rw [if_neg hr] at h
      exact absurd h (by simp)
  | vnull => exact absurd h (by simp [encodeVal])
  | vint n => exact absurd h (by simp [encodeVal])
  | vstr b => exact absurd h (by simp [encodeVal])
  | vrid p s => exact absurd h (by simp [encodeVal])

theorem encodeVal_cvarchar_inv (mx : Nat) (v : Value) (enc : List Byte)
    (h : encodeVal (.cvarchar mx) v = some enc) :
    ∃ bs, v = .vstr bs ∧
      enc = u16le (bs.take (varcharMax mx)).length ++ bs.take (varcharMax mx) ∧
      (bs.take (varcharMax mx)).length < 65536 := by
  cases v with
  | vstr bs =>
    refine ⟨bs, rfl, ?_, ?_⟩
    · simp only [encodeVal] at h
      simpa using h.symm
    · have hle : (bs.take (varcharMax mx)).length ≤ varcharMax mx := by
        rw [List.length_take]
        exact min_le_left _ _
      have hmx : varcharMax mx ≤ 65535 := by
        unfold varcharMax
        exact min_le_right _ _
      omega
  | vnull => exact absurd h (by simp [encodeVal])
  | vint n => exact absurd h (by simp [encodeVal])
  | vfloat b => exact absurd h (by simp [encodeVal])
  | vrid p s => exact absurd h (by simp [encodeVal])

theorem encodeVal_cdate_inv (v : Value) (enc : List Byte) (h : encodeVal .cdate v = some enc) :
    ∃ bs, v = .vstr bs ∧ bs.length ≤ 255 ∧ enc = u16le bs.length ++ bs := by
  cases v with
  | vstr bs =>
    refine ⟨bs, rfl, ?_⟩
    simp only [encodeVal] at h
    by_cases hr : bs.length > 255
    · rw [if_pos hr] at h
      exact absurd h (by simp)
    · rw [if_neg hr] at h
      exact ⟨by omega, by simpa using h.symm⟩
  | vnull => exact absurd h (by simp [encodeVal])
  | vint n => exact absurd h (by simp [encodeVal])
  | vfloat b => exact absurd h (by simp [encodeVal])
  | vrid p s => exact absurd h (by simp [encodeVal])

theorem expectedUpd_congr (row : Row) : ∀ (schema : Schema) (f g : String → Option Value),
    (∀ x, f x = g x) → ∀ name, expectedUpd row schema f name = expectedUpd row schema g name
  | [], f, g, hfg, name => hfg name
  | (nm, ty) :: rest, f, g, hfg, name => by
    rw [expectedUpd, expectedUpd]
    exact expectedUpd_congr row rest _ _
      (fun x => by by_cases hx : x = nm <;> simp [hx, hfg x]) name

theorem drop_shift (buf l rest : List Byte) (off : Nat)
    (h : buf.drop off = l ++ rest) : buf.drop (off + l.length) = rest := by
  have h1 : buf.drop (off + l.length) = (buf.drop off).drop l.length := by
    rw [List.drop_drop, Nat.add_comm]
  rw [h1, h, List.drop_left]


theorem optBind_some {α β : Type} (v : α) (f : α → Option β) :
    ((some v : Option α) >>= f) = f v := rfl

theorem unpackCols_of_packCols (row : Row) (bm buf : List Byte) :
    ∀ (schema : Schema) (i off : Nat) (bm0 bmf pay suffix : List Byte) (out : Row),
    packCols row schema i bm0 = some (bmf, pay) →
    buf.drop off = pay ++ suffix →
    (∀ j, j < schema.length →
      bmTest bm (i + j) = some (isNullVal (rowGet row ((schema.getD j ("", .cint)).1)))) →
    ∃ out', unpackCols buf bm schema i off out = some (out', off + pay.length) ∧
      ∀ name, rowGet out' name = expectedUpd row schema (rowGet out) name
  | [], i, off, bm0, bmf, pay, suffix, out, hp, hbuf, hbm => by
    simp only [packCols, Option.some_inj, Prod.mk.injEq] at hp
    obtain ⟨_, h2⟩ := hp
    subst h2
    exact ⟨out, by simp [unpackCols], fun name => by rw [expectedUpd]⟩
  | (nm, ty) :: rest, i, off, bm0, bmf, pay, suffix, out, hp, hbuf, hbm => by
    have hbm0 := hbm 0 (by simp)
    simp only [Nat.add_zero, List.getD_cons_zero] at hbm0
    obtain ⟨b, hb, hbit⟩ : ∃ b, bm.get? (i / 8) = some b ∧
        ((b >>> (i % 8)) &&& 1 == 1) = isNullVal (rowGet row nm) := by
      unfold bmTest at hbm0
      cases hget : bm.get? (i / 8) with
      | none => rw [hget] at hbm0; exact absurd hbm0 (by simp)
      | some b =>
        rw [hget] at hbm0
        exact ⟨b, rfl, by simpa using hbm0⟩
    have hbmrest : ∀ j, j < rest.length →
        bmTest bm (i + 1 + j) = some (isNullVal (rowGet row ((rest.getD j ("", .cint)).1))) := by
      intro j hj
      have := hbm (j + 1) (by simp; omega)
      have heq : i + (j + 1) = i + 1 + j := by omega
      rw [heq] at this
      simpa using this
    rw [unpackCols.eq_def]
    simp only [hb, Option.some_bind]
    rw [packCols] at hp
    by_cases hnull : isNullVal (rowGet row nm) = true
    · rw [if_pos (by simpa using hnull)] at hp
      rw [if_pos (by rw [← beq_iff_eq (a := (b >>> (i % 8)) &&& 1) (b := 1)]; rw [hbit, hnull])]
      obtain ⟨out', hrec, hlook⟩ := unpackCols_of_packCols row bm buf rest (i + 1) off
        (setNullBit bm0 i) bmf pay suffix (dictInsert out nm .vnull) hp hbuf hbmrest
      refine ⟨out', hrec, fun name => ?_⟩
      rw [hlook name, expectedUpd]
      refine (expectedUpd_congr row rest _ _ (fun x => ?_) name).symm
      rw [rowGet_dictInsert]
      by_cases hx : x = nm
      · rw [if_pos hx, if_pos hx]
        unfold colResult
        rw [hnull]
        rfl
      · rw [if_neg hx, if_neg hx]
    · have hnull' : isNullVal (rowGet row nm) = false := by
        cases hv : isNullVal (rowGet row nm)
        · rfl
        · exact absurd hv hnull
      rw [if_neg (by simpa using hnull)] at hp
      rw [if_neg (by rw [← beq_iff_eq (a := (b >>> (i % 8)) &&& 1) (b := 1)]; rw [hbit, hnull']; simp)]
      cases henc : encodeVal ty ((rowGet row nm).getD .vnull) with
      | none => rw [henc] at hp; exact absurd hp (by simp)
      | some enc =>
        rw [henc] at hp
        cases hrec0 : packCols row rest (i + 1) bm0 with
        | none => rw [hrec0] at hp; exact absurd hp (by simp)
        | some pr =>
          obtain ⟨bm1, tl⟩ := pr
          rw [hrec0] at hp
          simp only [Option.some_inj, Prod.mk.injEq] at hp
          obtain ⟨hp1, hp2⟩ := hp
          subst hp2
          subst hp1
          have hbuf' : buf.drop off = enc ++ (tl ++ suffix) := by
            rw [hbuf, List.append_assoc]
          have hcol : ∀ (v' : Value), decodedVal ty ((rowGet row nm).getD .vnull) = v' →
              ∀ out₁, (∀ name, rowGet out₁ name =
                  expectedUpd row rest (rowGet (dictInsert out nm v')) name) →
              ∀ name, rowGet out₁ name =
                expectedUpd row ((nm, ty) :: rest) (rowGet out) name := by
            intro v' hv' out₁ hlook name
            rw [hlook name, expectedUpd]
            refine (expectedUpd_congr row rest _ _ (fun x => ?_) name).symm
            rw [rowGet_dictInsert]
            by_cases hx : x = nm
            · rw [if_pos hx, if_pos hx]
              unfold colResult
              rw [hnull', hv']
              simp
            · rw [if_neg hx, if_neg hx]
          cases ty with
          | cint =>
            obtain ⟨n, hv, hlo, hhi, hencval⟩ := encodeVal_cint_inv _ enc henc
            have hu : (n % 2 ^ 32).toNat < 2 ^ 32 := by
              have h1 : 0 ≤ n % 2 ^ 32 := Int.emod_nonneg n (by norm_num)
              have h2 : n % 2 ^ 32 < 2 ^ 32 := Int.emod_lt_of_pos n (by norm_num)
              omega
            have hread : unpackFrom4 buf off = some (n % 2 ^ 32).toNat :=
              unpackFrom4_of_append buf (tl ++ suffix) off _
                (by rw [← hencval]; exact hbuf') hu
            rw [hread]
            simp only [optBind_some]
            have hdrop : buf.drop (off + 4) = tl ++ suffix := by
              have := drop_shift buf enc (tl ++ suffix) off hbuf'
              rw [hencval] at this
              simpa [u32le] using this
            obtain ⟨out', hrec, hlook⟩ := unpackCols_of_packCols row bm buf rest (i + 1)
              (off + 4) bm0 _ tl suffix
              (dictInsert out nm (.vint (decodeI32 (n % 2 ^ 32).toNat))) hrec0 hdrop hbmrest
            refine ⟨out', ?_, ?_⟩
            · rw [hrec]
              congr 1
              rw [hencval]
              simp [u32le]
              omega
            · have hdec : decodeI32 (n % 2 ^ 32).toNat = n := i32_round n hlo hhi
              apply hcol (.vint (decodeI32 (n % 2 ^ 32).toNat))
              · rw [hv]
                have hred : decodedVal .cint (.vint n) = .vint n := rfl
                rw [hred, hdec]
              · exact hlook
          | cfloat =>
            obtain ⟨fb, hv, hfb, hencval⟩ := encodeVal_cfloat_inv _ enc henc
            have hread : unpackFrom8 buf off = some fb :=
              unpackFrom8_of_append buf (tl ++ suffix) off _
                (by rw [← hencval]; exact hbuf') hfb
            rw [hread]
            simp only [optBind_some]
            have hdrop : buf.drop (off + 8) = tl ++ suffix := by
              have := drop_shift buf enc (tl ++ suffix) off hbuf'
              rw [hencval] at this
              simpa [u64le] using this
            obtain ⟨out', hrec, hlook⟩ := unpackCols_of_packCols row bm buf rest (i + 1)
              (off + 8) bm0 _ tl suffix (dictInsert out nm (.vfloat fb)) hrec0 hdrop hbmrest
            refine ⟨out', ?_, ?_⟩
            · rw [hrec]
              congr 1
              rw [hencval]
              simp [u64le]
              omega
            · apply hcol (.vfloat fb)
              · rw [hv]
                simp [decodedVal]
              · exact hlook
          | cvarchar mx =>
            obtain ⟨bs, hv, hencval, hln⟩ := encodeVal_cvarchar_inv mx _ enc henc
            set b' := bs.take (varcharMax mx) with hb'
            have hbuf2 : buf.drop off = u16le b'.length ++ (b' ++ (tl ++ suffix)) := by
              rw [hbuf', hencval, List.append_assoc]
            have hread : unpackFrom2 buf off = some b'.length :=
              unpackFrom2_of_append buf (b' ++ tl) suffix off b'.length
                (by rw [hbuf2, List.append_assoc]) hln
            rw [hread]
            simp only [optBind_some]
            have hdropstr : buf.drop (off + 2) = b' ++ (tl ++ suffix) := by
              have := drop_shift buf (u16le b'.length) (b' ++ (tl ++ suffix)) off hbuf2
              simpa [u16le] using this
            have hslice : (buf.drop (off + 2)).take b'.length = b' := by
              rw [hdropstr, List.take_left]
            rw [hslice]
            have hdrop : buf.drop (off + 2 + b'.length) = tl ++ suffix := by
              have h1 : buf.drop (off + 2 + b'.length) = (buf.drop (off + 2)).drop b'.length := by
                rw [List.drop_drop]
              rw [h1, hdropstr, List.drop_left]
            obtain ⟨out', hrec, hlook⟩ := unpackCols_of_packCols row bm buf rest (i + 1)
              (off + 2 + b'.length) bm0 _ tl suffix (dictInsert out nm (.vstr b')) hrec0
              hdrop hbmrest
            refine ⟨out', ?_, ?_⟩
            · rw [hrec]
              congr 1
              rw [hencval]
              simp [u16le]
              omega
            · apply hcol (.vstr b')
              · rw [hv]
                simp [decodedVal, hb']
              · exact hlook
          | cdate =>
            obtain ⟨bs, hv, hlen, hencval⟩ := encodeVal_cdate_inv _ enc henc
            have hbuf2 : buf.drop off = u16le bs.length ++ (bs ++ (tl ++ suffix)) := by
              rw [hbuf', hencval, List.append_assoc]
            have hread : unpackFrom2 buf off = some bs.length :=
              unpackFrom2_of_append buf (bs ++ tl) suffix off bs.length
                (by rw [hbuf2, List.append_assoc]) (by omega)
            rw [hread]
            simp only [optBind_some]
            have hdropstr : buf.drop (off + 2) = bs ++ (tl ++ suffix) := by
              have := drop_shift buf (u16le bs.length) (bs ++ (tl ++ suffix)) off hbuf2
              simpa [u16le] using this
            have hslice : (buf.drop (off + 2)).take bs.length = bs := by
              rw [hdropstr, List.take_left]
            rw [hslice]
            have hdrop : buf.drop (off + 2 + bs.length) = tl ++ suffix := by
              have h1 : buf.drop (off + 2 + bs.length) = (buf.drop (off + 2)).drop bs.length := by
                rw [List.drop_drop]
              rw [h1, hdropstr, List.drop_left]
            obtain ⟨out', hrec, hlook⟩ := unpackCols_of_packCols row bm buf rest (i + 1)
              (off + 2 + bs.length) bm0 _ tl suffix (dictInsert out nm (.vstr bs)) hrec0
              hdrop hbmrest
            refine ⟨out', ?_, ?_⟩
            · rw [hrec]
              congr 1
              rw [hencval]
              simp [u16le]
              omega
            · apply hcol (.vstr bs)
              · rw [hv]
                simp [decodedVal]
              · exact hlook

theorem nullsFrom_lt (row : Row) : ∀ (schema : Schema) (i t : Nat), t < i →
    nullsFrom row schema i t = false
  | [], _, _, _ => rfl
  | (nm, ty) :: rest, i, t, ht => by
    rw [nullsFrom]
    have h1 : (t == i) = false := by
      rw [beq_eq_false_iff_ne]
      omega
    rw [h1, nullsFrom_lt row rest (i + 1) t (by omega)]
    rfl

theorem nullsFrom_getD (row : Row) : ∀ (schema : Schema) (i j : Nat), j < schema.length →
    nullsFrom row schema i (i + j) = isNullVal (rowGet row ((schema.getD j ("", .cint)).1))
  | [], _, _, hj => by simp at hj
  | (nm, ty) :: rest, i, 0, _ => by
    rw [nullsFrom]
    have h1 : (i + 0 == i) = true := by simp
    rw [h1, nullsFrom_lt row rest (i + 1) (i + 0) (by omega)]
    simp
  | (nm, ty) :: rest, i, j + 1, hj => by
    rw [nullsFrom]
    have h1 : (i + (j + 1) == i) = false := by
      rw [beq_eq_false_iff_ne]
      omega
    rw [h1]
    have h2 : i + (j + 1) = i + 1 + j := by omega
    rw [h2, nullsFrom_getD row rest (i + 1) j (by simpa using hj)]
    simp

theorem bitAt_replicate_zero (k t : Nat) : bitAt (List.replicate k 0) t = false := by
  unfold bitAt
  have : (List.replicate k (0 : Byte)).getD (t / 8) 0 = 0 := by
    rw [List.getD_eq_getElem?_getD]
    cases hlt : (List.replicate k (0 : Byte))[t / 8]? with
    | none => rfl
    | some v =>
      have := List.getElem?_mem hlt
      have hv : v = 0 := List.eq_of_mem_replicate this
      rw [hv]
      rfl
  rw [this]
  simp

theorem bmTest_of_lt (bm : List Byte) (t : Nat) (h : t / 8 < bm.length) :
    bmTest bm t = some (bitAt bm t) := by
  unfold bmTest bitAt
  rw [List.get?_eq_getElem?, List.getElem?_eq_getElem h]
  rw [List.getD_eq_getElem?_getD, List.getElem?_eq_getElem h]
  rfl

theorem expectedUpd_not_mem (row : Row) : ∀ (schema : Schema) (f : String → Option Value)
    (name : String), ¬ name ∈ schema.map Prod.fst →
    expectedUpd row schema f name = f name
  | [], _, _, _ => rfl
  | (nm, ty) :: rest, f, name, hmem => by
    rw [List.map_cons, List.mem_cons] at hmem
    push_neg at hmem
    rw [expectedUpd]
    rw [expectedUpd_not_mem row rest _ name hmem.2]
    rw [if_neg hmem.1]

theorem expectedUpd_mem (row : Row) : ∀ (schema : Schema) (f : String → Option Value)
    (name : String),
    (∀ p ∈ schema, colResult row p.1 p.2 = normVal (rowGet row p.1)) →
    name ∈ schema.map Prod.fst →
    expectedUpd row schema f name = some (normVal (rowGet row name))
  | [], _, _, _, hmem => by simp at hmem
  | (nm, ty) :: rest, f, name, hcr, hmem => by
    rw [expectedUpd]
    by_cases hrest : name ∈ rest.map Prod.fst
    · exact expectedUpd_mem row rest _ name (fun p hp => hcr p (by simp [hp])) hrest
    · have hname : name = nm := by
        rw [List.map_cons, List.mem_cons] at hmem
        rcases hmem with h | h
        · exact h
        · exact absurd h hrest
      rw [expectedUpd_not_mem row rest _ name hrest, if_pos hname, hname]
      rw [hcr (nm, ty) (by simp)]

theorem unpack_of_pack (row : Row) (schema : Schema) (bs : List Byte)
    (hpack : pack_row row schema = some bs) :
    ∃ out, unpack_row bs schema = some out ∧
      ∀ name, rowGet out name = expectedUpd row schema (fun _ => none) name := by
  unfold pack_row at hpack
  by_cases hn : schema.length > 65535
  · rw [if_pos hn] at hpack
    exact absurd hpack (by simp)
  · rw [if_neg hn] at hpack
    cases hpc : packCols row schema 0 (List.replicate (nullmapSize schema.length) 0) with
    | none => rw [hpc] at hpack; exact absurd hpack (by simp)
    | some pr =>
      obtain ⟨bmf, pay⟩ := pr
      rw [hpc] at hpack
      simp only [optBind_some, Option.some_inj] at hpack
      have hbs : bs = u16le schema.length ++ bmf ++ pay := hpack.symm
      have hwf : ∀ j, j < schema.length →
          (0 + j) / 8 < (List.replicate (nullmapSize schema.length) (0 : Byte)).length := by
        intro j hj
        rw [List.length_replicate]
        unfold nullmapSize
        omega
      obtain ⟨hbmlen, hbits⟩ := packCols_bm row schema 0
        (List.replicate (nullmapSize schema.length) 0) bmf pay hpc hwf
      rw [List.length_replicate] at hbmlen
      have hdrop2 : bs.drop 2 = bmf ++ pay := by
        have h := drop_shift bs (u16le schema.length) (bmf ++ pay) 0
          (by rw [List.drop_zero, hbs, List.append_assoc])
        simpa [u16le] using h
      have hn2 : unpackFrom2 bs 0 = some schema.length := by
        apply unpackFrom2_of_append bs bmf pay 0 schema.length _ (by omega)
        rw [List.drop_zero, hbs, List.append_assoc]
      have hbufmain : bs.drop (2 + nullmapSize schema.length) = pay ++ [] := by
        have h := drop_shift bs bmf pay 2 hdrop2
        rw [hbmlen] at h
        rw [List.append_nil]
        exact h
      have hbm : ∀ j, j < schema.length →
          bmTest bmf (0 + j) =
            some (isNullVal (rowGet row ((schema.getD j ("", .cint)).1))) := by
        intro j hj
        have hj8 : (0 + j) / 8 < bmf.length := by
          rw [hbmlen]
          unfold nullmapSize
          omega
        rw [bmTest_of_lt bmf (0 + j) hj8, hbits (0 + j), bitAt_replicate_zero]
        have h0j : 0 + j = j := by omega
        rw [h0j]
        have := nullsFrom_getD row schema 0 j hj
        simp only [Nat.zero_add] at this
        rw [this]
        simp
      obtain ⟨out', hunp, hlook⟩ := unpackCols_of_packCols row bmf bs schema 0
        (2 + nullmapSize schema.length) (List.replicate (nullmapSize schema.length) 0)
        bmf pay [] [] hpc hbufmain hbm
      refine ⟨out', ?_, fun name => by rw [hlook name]; rfl⟩
      unfold unpack_row
      rw [hn2]
      simp only [optBind_some]
      rw [if_neg (by omega)]
      have htake : (bs.drop 2).take (nullmapSize schema.length) = bmf := by
        rw [hdrop2, ← hbmlen, List.take_left]
      rw [htake, hunp]
      rfl

theorem normVal_of_not_null (v : Value) (hv : ¬ v = Value.vnull) : normVal (some v) = v := by
  cases v with
  | vnull => exact absurd rfl hv
  | vint n => rfl
  | vfloat b => rfl
  | vstr b => rfl
  | vrid p s => rfl

/-- C4 (amended): for rows whose VARCHAR values fit their declared
byte maximum, unpack of pack recovers, for every schema column, exactly
the value the row assigned it, with absent or null columns normalized to
the null marker. -/
theorem claim_c4_roundtrip (row : Row) (schema : Schema) (bs : List Byte)
    (hpack : pack_row row schema = some bs) (hfit : varcharFits row schema) :
    ∃ out, unpack_row bs schema = some out ∧
      ∀ p ∈ schema, rowGet out p.1 = some (normVal (rowGet row p.1)) := by
  obtain ⟨out, hunp, hlook⟩ := unpack_of_pack row schema bs hpack
  refine ⟨out, hunp, fun p hp => ?_⟩
  rw [hlook p.1]
  have hcr : ∀ q ∈ schema, colResult row q.1 q.2 = normVal (rowGet row q.1) := by
    intro q hq
    unfold colResult
    cases hrv : rowGet row q.1 with
    | none => rfl
    | some v =>
      cases v with
      | vnull => rfl
      | vint n =>
        rw [if_neg (by simp [isNullVal]), normVal_of_not_null _ (by simp)]
        cases q.2 <;> rfl
      | vfloat b =>
        rw [if_neg (by simp [isNullVal]), normVal_of_not_null _ (by simp)]
        cases q.2 <;> rfl
      | vrid pg sl =>
        rw [if_neg (by simp [isNullVal]), normVal_of_not_null _ (by simp)]
        cases q.2 <;> rfl
      | vstr sb =>
        rw [if_neg (by simp [isNullVal]), normVal_of_not_null _ (by simp)]
        cases hq2 : q.2 with
        | cvarchar mx =>
          have hle : sb.length ≤ varcharMax mx := hfit q hq mx sb hq2 hrv
          simp only [Option.getD_some, decodedVal]
          rw [List.take_of_length_le hle]
        | cint => rfl
        | cfloat => rfl
        | cdate => rfl
  exact expectedUpd_mem row schema (fun _ => none) p.1 hcr
    (List.mem_map_of_mem Prod.fst hp)

/-- Witness for C4: a one-column VARCHAR row round-trips. -/
theorem claim_c4_roundtrip_witness :
    ∃ out, unpack_row [1, 0, 0, 1, 0, 97] [("a", .cvarchar 5)] = some out ∧
      ∀ p ∈ ([("a", ColType.cvarchar 5)] : Schema),
        rowGet out p.1 = some (normVal (rowGet [("a", Value.vstr [97])] p.1)) :=
  claim_c4_roundtrip [("a", .vstr [97])] [("a", .cvarchar 5)] [1, 0, 0, 1, 0, 97]
    (by decide)
    (by
      intro p hp mx bs h1 h2
      simp only [List.mem_singleton] at hp
      subst hp
      simp only at h1
      cases h1
      have hr : rowGet [("a", Value.vstr [97])] "a" = some (Value.vstr [97]) := by decide
      rw [hr] at h2
      cases Option.some.inj h2
      decide)

/-- Counterexample for C4 as stated: a VARCHAR(1) value of two bytes is
truncated by pack, so unpack of pack maps the column to the one-byte
truncation, not the assigned value. -/
theorem claim_c4_counterexample :
    unpack_row ((pack_row [("a", Value.vstr [97, 98])] [("a", ColType.cvarchar 1)]).getD [])
        [("a", ColType.cvarchar 1)] = some [("a", Value.vstr [97])] ∧
    rowGet [("a", Value.vstr [97, 98])] "a" = some (Value.vstr [97, 98]) ∧
    (Value.vstr [97] : Value) ≠ Value.vstr [97, 98] := by decide

theorem unpackFrom2_none (buf : List Byte) (off : Nat) (h : buf.length < off + 2) :
    unpackFrom2 buf off = none := by
  unfold unpackFrom2
  rw [if_neg (by omega)]

theorem unpackFrom4_none (buf : List Byte) (off : Nat) (h : buf.length < off + 4) :
    unpackFrom4 buf off = none := by
  unfold unpackFrom4
  rw [if_neg (by omega)]

theorem unpackFrom8_none (buf : List Byte) (off : Nat) (h : buf.length < off + 8) :
    unpackFrom8 buf off = none := by
  unfold unpackFrom8
  rw [if_neg (by omega)]

theorem unpackCols_fail_bm_short (buf bm : List Byte) : ∀ (schema : Schema) (i off : Nat)
    (out : Row), schema ≠ [] → bm.length * 8 ≤ i + schema.length - 1 → buf.length ≤ off →
    unpackCols buf bm schema i off out = none
  | [], _, _, _, hne, _, _ => absurd rfl hne
  | (nm, ty) :: rest, i, off, out, _, hbm, hoff => by
    rw [unpackCols.eq_def]
    simp only []
    cases hget : bm.get? (i / 8) with
    | none => rfl
    | some b =>
      have hi8 : i / 8 < bm.length := by
        rw [List.get?_eq_getElem?] at hget
        exact (List.getElem?_eq_some_iff.mp hget).1
      have hrest : rest ≠ [] := by
        intro hc
        subst hc
        simp at hbm
        omega
      simp only [Option.some_bind]
      by_cases hbit : (b >>> (i % 8)) &&& 1 = 1
      · rw [if_pos hbit]
        apply unpackCols_fail_bm_short buf bm rest (i + 1) off _ hrest (by simp at hbm ⊢; omega)
          hoff
      · rw [if_neg hbit]
        cases ty with
        | cint => rw [unpackFrom4_none buf off (by omega)]; rfl
        | cfloat => rw [unpackFrom8_none buf off (by omega)]; rfl
        | cvarchar mx => rw [unpackFrom2_none buf off (by omega)]; rfl
        | cdate => rw [unpackFrom2_none buf off (by omega)]; rfl

theorem unpackCols_fail_payload (row : Row) (bm buf : List Byte) :
    ∀ (schema : Schema) (i off : Nat) (bm0 bmf pay : List Byte) (out : Row),
    packCols row schema i bm0 = some (bmf, pay) →
    fixedWidth schema →
    (∀ j, j < schema.length →
      bmTest bm (i + j) = some (isNullVal (rowGet row ((schema.getD j ("", .cint)).1)))) →
    off ≤ buf.length →
    buf.length - off < pay.length →
    buf.drop off = pay.take (buf.length - off) →
    unpackCols buf bm schema i off out = none
  | [], i, off, bm0, bmf, pay, out, hp, _, _, _, hlt, _ => by
    simp only [packCols, Option.some_inj, Prod.mk.injEq] at hp
    obtain ⟨_, h2⟩ := hp
    subst h2
    simp at hlt
  | (nm, ty) :: rest, i, off, bm0, bmf, pay, out, hp, hfw, hbm, hoffle, hlt, hbuf => by
    have hbm0 := hbm 0 (by simp)
    simp only [Nat.add_zero, List.getD_cons_zero] at hbm0
    obtain ⟨b, hb, hbit⟩ : ∃ b, bm.get? (i / 8) = some b ∧
        ((b >>> (i % 8)) &&& 1 == 1) = isNullVal (rowGet row nm) := by
      unfold bmTest at hbm0
      cases hget : bm.get? (i / 8) with
      | none => rw [hget] at hbm0; exact absurd hbm0 (by simp)
      | some b =>
        rw [hget] at hbm0
        exact ⟨b, rfl, by simpa using hbm0⟩
    have hbmrest : ∀ j, j < rest.length →
        bmTest bm (i + 1 + j) = some (isNullVal (rowGet row ((rest.getD j ("", .cint)).1))) := by
      intro j hj
      have := hbm (j + 1) (by simp; omega)
      have heq : i + (j + 1) = i + 1 + j := by omega
      rw [heq] at this
      simpa using this
    have hfwrest : fixedWidth rest := fun p hp' => hfw p (by simp [hp'])
    rw [unpackCols.eq_def]
    simp only [hb, Option.some_bind]
    rw [packCols] at hp
    by_cases hnull : isNullVal (rowGet row nm) = true
    · rw [if_pos (by simpa using hnull)] at hp
      rw [if_pos (by rw [← beq_iff_eq (a := (b >>> (i % 8)) &&& 1) (b := 1)]; rw [hbit, hnull])]
      exact unpackCols_fail_payload row bm buf rest (i + 1) off (setNullBit bm0 i) bmf pay
        (dictInsert out nm .vnull) hp hfwrest hbmrest hoffle hlt hbuf
    · have hnull' : isNullVal (rowGet row nm) = false := by
        cases hv : isNullVal (rowGet row nm)
        · rfl
        · exact absurd hv hnull
      rw [if_neg (by simpa using hnull)] at hp
      have hbitneg : ¬ (b >>> (i % 8)) &&& 1 = 1 := by
        rw [← beq_iff_eq (a := (b >>> (i % 8)) &&& 1) (b := 1), hbit, hnull']
        simp
      rw [if_neg hbitneg]
      cases henc : encodeVal ty ((rowGet row nm).getD .vnull) with
      | none => rw [henc] at hp; exact absurd hp (by simp)
      | some enc =>
        rw [henc] at hp
        cases hrec0 : packCols row rest (i + 1) bm0 with
        | none => rw [hrec0] at hp; exact absurd hp (by simp)
        | some pr =>
          obtain ⟨bm1, tl⟩ := pr
          rw [hrec0] at hp
          simp only [Option.some_inj, Prod.mk.injEq] at hp
          obtain ⟨hp1, hp2⟩ := hp
          subst hp2
          subst hp1
          have hty : ty = ColType.cint ∨ ty = ColType.cfloat := hfw (nm, ty) (by simp)
          have hadv : ∀ (w : Nat), enc.length = w → off + w ≤ buf.length →
              buf.length - (off + w) < tl.length ∧
              buf.drop (off + w) = tl.take (buf.length - (off + w)) := by
            intro w hw hwle
            constructor
            · simp [List.length_append] at hlt
              omega
            · have h1 : buf.drop (off + w) = (buf.drop off).drop w := by
                rw [List.drop_drop]
              have h2 : (enc ++ tl).take (buf.length - off) =
                  enc ++ tl.take (buf.length - off - w) := by
                rw [List.take_append_eq_append_take, List.take_of_length_le (by omega), hw]
              rw [h1, hbuf, h2, ← hw, List.drop_left]
              congr 1
              omega
          rcases hty with hty | hty
          · subst hty
            obtain ⟨n, hv, hlo, hhi, hencval⟩ := encodeVal_cint_inv _ enc henc
            have hw : enc.length = 4 := by rw [hencval]; rfl
            by_cases hle : off + 4 ≤ buf.length
            · unfold unpackFrom4
              rw [if_pos hle]
              simp only [optBind_some]
              obtain ⟨hlt', hbuf'⟩ := hadv 4 hw hle
              exact unpackCols_fail_payload row bm buf rest (i + 1) (off + 4) bm0 _ tl
                _ hrec0 hfwrest hbmrest (by omega) hlt' hbuf'
            · rw [unpackFrom4_none buf off (by omega)]
              rfl
          · subst hty
            obtain ⟨fb, hv, hfb, hencval⟩ := encodeVal_cfloat_inv _ enc henc
            have hw : enc.length = 8 := by rw [hencval]; rfl
            by_cases hle : off + 8 ≤ buf.length
            · unfold unpackFrom8
              rw [if_pos hle]
              simp only [optBind_some]
              obtain ⟨hlt', hbuf'⟩ := hadv 8 hw hle
              exact unpackCols_fail_payload row bm buf rest (i + 1) (off + 8) bm0 _ tl
                _ hrec0 hfwrest hbmrest (by omega) hlt' hbuf'
            · rw [unpackFrom8_none buf off (by omega)]
              rfl

/-- C5 (amended): for schemas of fixed-width (INT / FLOAT) columns
only, unpack fails on every strict prefix of a validly encoded row that
still contains the ncols field. -/
theorem claim_c5_truncated (row : Row) (schema : Schema) (bs : List Byte) (L : Nat)
    (hpack : pack_row row schema = some bs) (hfw : fixedWidth schema)
    (h2 : 2 ≤ L) (hlt : L < bs.length) :
    unpack_row (bs.take L) schema = none := by
  unfold pack_row at hpack
  by_cases hn : schema.length > 65535
  · rw [if_pos hn] at hpack
    exact absurd hpack (by simp)
  · rw [if_neg hn] at hpack
    cases hpc : packCols row schema 0 (List.replicate (nullmapSize schema.length) 0) with
    | none => rw [hpc] at hpack; exact absurd hpack (by simp)
    | some pr =>
      obtain ⟨bmf, pay⟩ := pr
      rw [hpc] at hpack
      simp only [optBind_some, Option.some_inj] at hpack
      have hbs : bs = u16le schema.length ++ bmf ++ pay := hpack.symm
      have hwf : ∀ j, j < schema.length →
          (0 + j) / 8 < (List.replicate (nullmapSize schema.length) (0 : Byte)).length := by
        intro j hj
        rw [List.length_replicate]
        unfold nullmapSize
        omega
      obtain ⟨hbmlen, hbits⟩ := packCols_bm row schema 0
        (List.replicate (nullmapSize schema.length) 0) bmf pay hpc hwf
      rw [List.length_replicate] at hbmlen
      have hbslen : bs.length = 2 + nullmapSize schema.length + pay.length := by
        rw [hbs]
        simp [u16le, hbmlen]
        omega
      have htblen : (bs.take L).length = L := by
        rw [List.length_take]
        omega
      have htb : bs.take L = u16le schema.length ++ (bmf ++ pay).take (L - 2) := by
        rw [hbs, List.append_assoc, List.take_append_eq_append_take,
          List.take_of_length_le (l := u16le schema.length) (by simp [u16le]; omega)]
        rfl
      have hn2 : unpackFrom2 (bs.take L) 0 = some schema.length := by
        apply unpackFrom2_of_append (bs.take L) ((bmf ++ pay).take (L - 2)) [] 0 schema.length
          _ (by omega)
        rw [List.drop_zero, htb, List.append_nil]
      have htbdrop2 : (bs.take L).drop 2 = (bmf ++ pay).take (L - 2) := by
        rw [htb]
        have h2l : (u16le schema.length).length = 2 := rfl
        rw [← h2l, List.drop_left]
      unfold unpack_row
      rw [hn2]
      simp only [optBind_some]
      rw [if_neg (by omega)]
      rw [htbdrop2]
      by_cases hcase : L < 2 + nullmapSize schema.length
      · have hn1 : 1 ≤ schema.length := by
          by_contra hc
          have h0 : schema.length = 0 := by omega
          rw [h0] at hcase
          unfold nullmapSize at hcase
          omega
        have hbmT : ((bmf ++ pay).take (L - 2)).take (nullmapSize schema.length) =
            (bmf ++ pay).take (L - 2) := by
          rw [List.take_take]
          congr 1
          omega
        rw [hbmT]
        have hbmTlen : ((bmf ++ pay).take (L - 2)).length = L - 2 := by
          rw [List.length_take, List.length_append, hbmlen]
          omega
        rw [unpackCols_fail_bm_short (bs.take L) _ schema 0
          (2 + nullmapSize schema.length) []
          (by intro hc; rw [hc] at hn1; simp at hn1)
          (by rw [hbmTlen]; unfold nullmapSize at hcase; omega)
          (by rw [htblen]; omega)]
        rfl
      · have hbmT : ((bmf ++ pay).take (L - 2)).take (nullmapSize schema.length) = bmf := by
          rw [List.take_take]
          have hmin : min (nullmapSize schema.length) (L - 2) = nullmapSize schema.length := by
            omega
          rw [hmin, ← hbmlen, List.take_left]
        rw [hbmT]
        have hbm : ∀ j, j < schema.length →
            bmTest bmf (0 + j) =
              some (isNullVal (rowGet row ((schema.getD j ("", .cint)).1))) := by
          intro j hj
          have hj8 : (0 + j) / 8 < bmf.length := by
            rw [hbmlen]
            unfold nullmapSize
            omega
          rw [bmTest_of_lt bmf (0 + j) hj8, hbits (0 + j), bitAt_replicate_zero]
          have h0j : 0 + j = j := by omega
          rw [h0j]
          have := nullsFrom_getD row schema 0 j hj
          simp only [Nat.zero_add] at this
          rw [this]
          simp
        have hdropmain : (bs.take L).drop (2 + nullmapSize schema.length) =
            pay.take ((bs.take L).length - (2 + nullmapSize schema.length)) := by
          have h1 : (bs.take L).drop (2 + nullmapSize schema.length) =
              ((bs.take L).drop 2).drop (nullmapSize schema.length) := by
            rw [List.drop_drop]
          have h2' : (bmf ++ pay).take (L - 2) =
              bmf ++ pay.take (L - 2 - nullmapSize schema.length) := by
            rw [List.take_append_eq_append_take,
              List.take_of_length_le (l := bmf) (by rw [hbmlen]; omega), hbmlen]
          rw [h1, htbdrop2, h2', ← hbmlen, List.drop_left, hbmlen, htblen]
          congr 1
          omega
        have hres := unpackCols_fail_payload row bmf (bs.take L) schema 0
          (2 + nullmapSize schema.length) (List.replicate (nullmapSize schema.length) 0)
          bmf pay [] hpc hfw hbm (by rw [htblen]; omega)
          (by rw [htblen]; omega) hdropmain
        rw [hres]
        rfl

/-- Witness for C5: a 4-byte prefix of a 7-byte INT row fails to
unpack. -/
theorem claim_c5_truncated_witness :
    unpack_row (([1, 0, 0, 0, 0, 0, 0] : List Byte).take 4) [("a", ColType.cint)] = none :=
  claim_c5_truncated [("a", Value.vint 0)] [("a", ColType.cint)] [1, 0, 0, 0, 0, 0, 0] 4
    (by decide) (by intro p hp; simp at hp; subst hp; left; rfl) (by decide) (by decide)

/-- Counterexample for C5 as stated: truncating one byte inside a
VARCHAR payload still unpacks successfully, returning a truncated
string instead of failing. -/
theorem claim_c5_counterexample :
    pack_row [("a", Value.vstr [97, 98])] [("a", ColType.cvarchar 5)] =
      some [1, 0, 0, 2, 0, 97, 98] ∧
    unpack_row (([1, 0, 0, 2, 0, 97, 98] : List Byte).take 6) [("a", ColType.cvarchar 5)] =
      some [("a", Value.vstr [97])] ∧
    (some [("a", Value.vstr [97])] : Option Row) ≠ none := by decide

/-!
Executor theorems.
-/

theorem tryPlace_spec (pg : Page) (blob : List Byte) (pg' : Page) (s : Nat)
    (h : tryPlace pg blob = some (pg', s)) :
    s < pg'.slots.length ∧
    pg'.slots.getD s (0, 0) = (pg.data_end - blob.length, blob.length) ∧
    pg'.blobs.lookup (pg.data_end - blob.length) = some blob := by
  unfold tryPlace at h
  by_cases hfit : freeBytes pg.slots.length pg.data_end (findFreeSlot pg.slots).isSome ≥
      blob.length
  · rw [if_pos hfit] at h
    simp only [Option.some_inj, Prod.mk.injEq] at h
    obtain ⟨hpg, hs⟩ := h
    subst hpg
    subst hs
    have hlookup : ((pg.data_end - blob.length, blob) :: pg.blobs).lookup
        (pg.data_end - blob.length) = some blob := by
      simp [List.lookup_cons]
    set s0 := (findFreeSlot pg.slots).getD pg.slots.length with hs0
    by_cases hlt : s0 < pg.slots.length
    · rw [if_pos hlt]
      refine ⟨by simpa using hlt, ?_, hlookup⟩
      rw [List.getD_eq_getElem?_getD, List.getElem?_set_self (by simpa using hlt)]
      rfl
    · rw [if_neg hlt]
      have hs0' : s0 = pg.slots.length := by
        cases hff : findFreeSlot pg.slots with
        | none => rw [hs0, hff]; rfl
        | some j =>
          exfalso
          apply hlt
          have hj : j < pg.slots.length := by
            unfold findFreeSlot at hff
            have := List.findIdx?_eq_some_iff_findIdx_eq.mp hff
            omega
          rw [hs0, hff]
          simpa using hj
      refine ⟨?_, ?_, hlookup⟩
      · rw [hs0']
        simp
      · rw [hs0', List.getD_eq_getElem?_getD, List.getElem?_concat_length]
        rfl
  · rw [if_neg hfit] at h
    exact absurd h (by simp)

theorem heapInsertBlob_read (st : HeapState) (blob : List Byte) (st' : HeapState) (rid : RID)
    (h : heapInsertBlob st blob = some (st', rid)) :
    ∃ pg off, st'.pages.get? rid.page = some pg ∧ rid.slot < pg.slots.length ∧
      pg.slots.getD rid.slot (0, 0) = (off, blob.length) ∧
      pg.blobs.lookup off = some blob := by
  unfold heapInsertBlob at h
  by_cases hbig : blob.length + HEAP_HDR_SIZE + SLOT_SIZE > PAGE_SIZE
  · rw [if_pos hbig] at h
    exact absurd h (by simp)
  · rw [if_neg hbig] at h
    set pages0 := if st.pages.length = 0 then st.pages ++ [freshPage] else st.pages with hpages0
    dsimp only [] at h
    have hplen : 0 < pages0.length := by
      rw [hpages0]
      by_cases hz : st.pages.length = 0 <;> simp [hz]
      omega
    cases htry : tryPlace (pages0.getD (pages0.length - 1) freshPage) blob with
    | some pr =>
      obtain ⟨pg', s⟩ := pr
      rw [htry] at h
      simp only [Option.some_inj, Prod.mk.injEq] at h
      obtain ⟨hst, hrid⟩ := h
      subst hst
      subst hrid
      obtain ⟨h1, h2, h3⟩ := tryPlace_spec _ blob pg' s htry
      refine ⟨pg', _, ?_, h1, h2, h3⟩
      simp only []
      rw [List.get?_eq_getElem?, List.getElem?_set_self (by omega)]
    | none =>
      rw [htry] at h
      cases htry2 : tryPlace ((pages0 ++ [freshPage]).getD pages0.length freshPage) blob with
      | none => rw [htry2] at h; exact absurd h (by simp)
      | some pr =>
        obtain ⟨pg', s⟩ := pr
        rw [htry2] at h
        simp only [Option.some_inj, Prod.mk.injEq] at h
        obtain ⟨hst, hrid⟩ := h
        subst hst
        subst hrid
        obtain ⟨h1, h2, h3⟩ := tryPlace_spec _ blob pg' s htry2
        refine ⟨pg', _, ?_, h1, h2, h3⟩
        simp only []
        rw [List.get?_eq_getElem?, List.getElem?_set_self (by simp)]

theorem pack_row_length_pos (row : Row) (schema : Schema) (bs : List Byte)
    (h : pack_row row schema = some bs) : bs ≠ [] := by
  unfold pack_row at h
  by_cases hn : schema.length > 65535
  · rw [if_pos hn] at h
    exact absurd h (by simp)
  · rw [if_neg hn] at h
    cases hpc : packCols row schema 0 (List.replicate (nullmapSize schema.length) 0) with
    | none => rw [hpc] at h; exact absurd h (by simp)
    | some pr =>
      rw [hpc] at h
      simp only [optBind_some, Option.some_inj] at h
      rw [← h]
      simp [u16le]

theorem heapRead_of_insert (st : HeapState) (schema : Schema) (row : Row) (st' : HeapState)
    (rid : RID) (h : heapInsert st schema row = some (st', rid)) :
    (heapRead st' schema rid).isSome ∧ slotLive st' rid = true := by
  unfold heapInsert at h
  cases hpk : pack_row row schema with
  | none => rw [hpk] at h; exact absurd h (by simp)
  | some blob =>
    rw [hpk] at h
    simp only [optBind_some] at h
    obtain ⟨pg, off, hpg, hslt, hslot, hlook⟩ := heapInsertBlob_read st blob st' rid h
    have hnz : blob.length ≠ 0 := by
      have := pack_row_length_pos row schema blob hpk
      intro hc
      exact this (List.length_eq_zero.mp hc)
    constructor
    · unfold heapRead
      simp only [hpg]
      rw [if_neg (by omega)]
      simp only [hslot]
      rw [if_neg (by simpa using hnz)]
      simp only [hlook]
      rw [if_pos trivial]
      obtain ⟨out, hout, _⟩ := unpack_of_pack row schema blob hpk
      rw [hout]
      rfl
    · unfold slotLive
      simp only [hpg, hslot]
      simp [hslt, hnz]

theorem pageRids_mem (p : Nat) : ∀ (slots : List (Nat × Nat)) (s0 s : Nat),
    s < slots.length → (slots.getD s (0, 0)).2 ≠ 0 →
    (⟨p, s0 + s⟩ : RID) ∈ pageRids p slots s0
  | [], _, s, hs, _ => by simp at hs
  | sl :: rest, s0, 0, _, hnz => by
    rw [pageRids]
    have : sl.2 ≠ 0 := by simpa using hnz
    rw [if_pos this]
    simp
  | sl :: rest, s0, s + 1, hs, hnz => by
    rw [pageRids]
    have hmem : (⟨p, (s0 + 1) + s⟩ : RID) ∈ pageRids p rest (s0 + 1) :=
      pageRids_mem p rest (s0 + 1) s (by simpa using hs) (by simpa using hnz)
    have heq : s0 + 1 + s = s0 + (s + 1) := by omega
    rw [heq] at hmem
    by_cases hsl : sl.2 ≠ 0
    · rw [if_pos hsl]
      exact List.mem_cons_of_mem _ hmem
    · rw [if_neg hsl]
      exact hmem

theorem iterRidsFrom_mem : ∀ (pages : List Page) (p0 p : Nat) (pg : Page) (s : Nat),
    pages.get? p = some pg → s < pg.slots.length → (pg.slots.getD s (0, 0)).2 ≠ 0 →
    (⟨p0 + p, s⟩ : RID) ∈ iterRidsFrom pages p0
  | [], _, p, _, _, hpg, _, _ => by simp [List.get?_eq_getElem?] at hpg
  | pghd :: rest, p0, 0, pg, s, hpg, hs, hnz => by
    have : pghd = pg := by simpa using hpg
    subst this
    rw [iterRidsFrom]
    apply List.mem_append_left
    have := pageRids_mem p0 pghd.slots 0 s hs hnz
    simpa using this
  | pghd :: rest, p0, p + 1, pg, s, hpg, hs, hnz => by
    rw [iterRidsFrom]
    apply List.mem_append_right
    have hmem := iterRidsFrom_mem rest (p0 + 1) p pg s (by simpa using hpg) hs hnz
    have heq : p0 + 1 + p = p0 + (p + 1) := by omega
    rw [heq] at hmem
    exact hmem

theorem mem_iterRids_of_live (st : HeapState) (rid : RID) (h : slotLive st rid = true) :
    rid ∈ heapIterRids st := by
  unfold slotLive at h
  cases hpg : st.pages.get? rid.page with
  | none => rw [hpg] at h; simp at h
  | some pg =>
    rw [hpg] at h
    simp only [Bool.and_eq_true, decide_eq_true_eq, bne_iff_ne] at h
    have := iterRidsFrom_mem st.pages 0 rid.page pg rid.slot hpg h.1 h.2
    simpa using this

theorem execInsertIdx_err (row : Row) (rid : RID) : ∀ (idxs idxs' : List IndexSt) (err : Bool),
    execInsertIdx row rid idxs = some (idxs', err) →
    (∃ i ∈ idxs, rowGet row i.key_col = none) → err = true
  | [], _, _, _, hex => by simp at hex
  | idx :: rest, idxs', err, hrun, hex => by
    rw [execInsertIdx] at hrun
    cases hkey : rowGet row idx.key_col with
    | none =>
      rw [hkey] at hrun
      simp only [Option.some_inj, Prod.mk.injEq] at hrun
      exact hrun.2.symm
    | some v =>
      rw [hkey] at hrun
      dsimp only [] at hrun
      obtain ⟨i, hi, hnone⟩ := hex
      have hirest : i ∈ rest := by
        rcases List.mem_cons.mp hi with heq | hm
        · subst heq
          rw [hkey] at hnone
          exact absurd hnone (by simp)
        · exact hm
      cases hck : coerceKey v with
      | none => rw [hck] at hrun; exact absurd hrun (by simp)
      | some k =>
        rw [hck] at hrun
        simp only [optBind_some, Option.some_bind] at hrun
        cases hsf : sfInsert idx.sf k rid with
        | none => rw [hsf] at hrun; exact absurd hrun (by simp)
        | some sf' =>
          rw [hsf] at hrun
          simp only [optBind_some, Option.some_bind] at hrun
          cases hrec : execInsertIdx row rid rest with
          | none => rw [hrec] at hrun; exact absurd hrun (by simp)
          | some pr =>
            obtain ⟨rest', err'⟩ := pr
            rw [hrec] at hrun
            have h2 : err' = err := congrArg Prod.snd (Option.some_inj.mp hrun)
            rw [← h2]
            exact execInsertIdx_err row rid rest rest' err' hrec ⟨i, hirest, hnone⟩

/-- C10: when a row lacks the key column of some registered index,
Executor.insert raises the missing-indexed-column error after the heap
write, which is not rolled back: the heap state of the failed call holds
the row, the inserted RID reads back successfully, and it is visible to
iter_rids. -/
theorem claim_c10_exec_partial (es : ExecState) (schema : Schema) (row : Row)
    (h' : HeapState) (rid : RID) (out : ExecState × Except Unit RID)
    (hheap : heapInsert es.heap schema row = some (h', rid))
    (hmiss : ∃ i ∈ es.indexes, rowGet row i.key_col = none)
    (hexec : execInsert es schema row = some out) :
    out.2 = Except.error () ∧ out.1.heap = h' ∧
      (heapRead h' schema rid).isSome ∧ rid ∈ heapIterRids h' := by
  unfold execInsert at hexec
  rw [hheap] at hexec
  simp only [optBind_some] at hexec
  cases hidx : execInsertIdx row rid es.indexes with
  | none => rw [hidx] at hexec; exact absurd hexec (by simp)
  | some pr =>
    obtain ⟨idxs', err⟩ := pr
    rw [hidx] at hexec
    simp only [optBind_some, Option.some_inj] at hexec
    have herr : err = true := execInsertIdx_err row rid es.indexes idxs' err hidx hmiss
    subst herr
    obtain ⟨hread, hlive⟩ := heapRead_of_insert es.heap schema row h' rid hheap
    rw [← hexec]
    exact ⟨rfl, rfl, hread, mem_iterRids_of_live h' rid hlive⟩

/-- Witness for C10: a row with only the nombre column inserted into an
executor with one index on id. -/
theorem claim_c10_exec_partial_witness :
    (execInsert ⟨⟨[]⟩, [⟨"id", sfEmpty⟩]⟩ [("id", .cint), ("nombre", .cvarchar 5)]
        [("nombre", Value.vstr [65])]).isSome ∧
    ∀ out, execInsert ⟨⟨[]⟩, [⟨"id", sfEmpty⟩]⟩ [("id", .cint), ("nombre", .cvarchar 5)]
        [("nombre", Value.vstr [65])] = some out →
      out.2 = Except.error () ∧ (heapRead out.1.heap [("id", .cint), ("nombre", .cvarchar 5)]
        ⟨0, 0⟩).isSome := by
  constructor
  · decide
  · intro out hout
    have hheap : heapInsert (⟨[]⟩ : HeapState) [("id", .cint), ("nombre", .cvarchar 5)]
        [("nombre", Value.vstr [65])] =
        some (⟨[⟨[(4090, 6)], 4090, [(4090, [2, 0, 1, 1, 0, 65])]⟩]⟩, ⟨0, 0⟩) := by decide
    obtain ⟨h1, h2, h3, _⟩ := claim_c10_exec_partial ⟨⟨[]⟩, [⟨"id", sfEmpty⟩]⟩
      [("id", .cint), ("nombre", .cvarchar 5)] [("nombre", Value.vstr [65])]
      _ _ out hheap ⟨⟨"id", sfEmpty⟩, by decide, by decide⟩ hout
    exact ⟨h1, by rw [h2]; exact h3⟩

/-!
Sequential-file chain machinery: paths, chainList, relink, the
canonical state, and the reorganize claims.
-/

/-- readPtr of the end marker fails. -/
theorem readPtr_zero (st : SFState) : readPtr st 0 = none := by norm_num [readPtr]

/-- readPtr of the tombstone marker fails. -/
theorem readPtr_neg_one (st : SFState) : readPtr st (-1) = none := by norm_num [readPtr]

/-- Unfolding of isPathB on a cons cell. -/
theorem isPathB_cons (st : SFState) (p x q : Int) (xs : List Int) :
    isPathB st p (x :: xs) q = true ↔
      p = x ∧ ∃ e, readPtr st p = some e ∧ isPathB st e.next_ptr xs q = true := by
  simp only [isPathB, Bool.and_eq_true, beq_iff_eq]
  constructor
  · rintro ⟨h1, h2⟩
    refine ⟨h1, ?_⟩
    cases hr : readPtr st p with
    | none => rw [hr] at h2; simp at h2
    | some e => rw [hr] at h2; exact ⟨e, rfl, h2⟩
  · rintro ⟨h1, e, he, hp⟩
    rw [he]
    exact ⟨h1, hp⟩

/-- Paths compose along append. -/
theorem isPathB_append_of (st : SFState) (xs : List Int) :
    ∀ (p r q : Int) (ys : List Int), isPathB st p xs r = true →
      isPathB st r ys q = true → isPathB st p (xs ++ ys) q = true := by
  induction xs with
  | nil =>
    intro p r q ys h1 h2
    have : p = r := by simpa [isPathB] using h1
    simpa [this] using h2
  | cons x xs ih =>
    intro p r q ys h1 h2
    rcases (isPathB_cons st p x r xs).mp h1 with ⟨hpx, e, he, hrest⟩
    exact (isPathB_cons st p x q (xs ++ ys)).mpr ⟨hpx, e, he, ih _ _ _ _ hrest h2⟩

/-- Paths decompose along append. -/
theorem isPathB_append_inv (st : SFState) (xs : List Int) :
    ∀ (p q : Int) (ys : List Int), isPathB st p (xs ++ ys) q = true →
      ∃ r, isPathB st p xs r = true ∧ isPathB st r ys q = true := by
  induction xs with
  | nil =>
    intro p q ys h
    exact ⟨p, by simp [isPathB], by simpa using h⟩
  | cons x xs ih =>
    intro p q ys h
    rcases (isPathB_cons st p x q (xs ++ ys)).mp h with ⟨hpx, e, he, hrest⟩
    rcases ih _ _ _ hrest with ⟨r, hr1, hr2⟩
    exact ⟨r, (isPathB_cons st p x r xs).mpr ⟨hpx, e, he, hr1⟩, hr2⟩

/-- A path ending at the end marker is deterministic. -/
theorem isPathB_det (st : SFState) (ps : List Int) :
    ∀ (p : Int) (ps' : List Int), isPathB st p ps 0 = true →
      isPathB st p ps' 0 = true → ps = ps' := by
  induction ps with
  | nil =>
    intro p ps' h1 h2
    have hp : p = 0 := by simpa [isPathB] using h1
    cases ps' with
    | nil => rfl
    | cons y ys =>
      rcases (isPathB_cons st p y 0 ys).mp h2 with ⟨hpy, e, he, _⟩
      rw [hp, readPtr_zero] at he
      cases he
  | cons x xs ih =>
    intro p ps' h1 h2
    rcases (isPathB_cons st p x 0 xs).mp h1 with ⟨hpx, e, he, hrest⟩
    cases ps' with
    | nil =>
      have hp : p = 0 := by simpa [isPathB] using h2
      rw [hp, readPtr_zero] at he
      cases he
    | cons y ys =>
      rcases (isPathB_cons st p y 0 ys).mp h2 with ⟨hpy, e', he', hrest'⟩
      rw [he] at he'
      cases he'
      rw [hpx] at hpy
      rw [hpy, ih _ _ hrest hrest']

/-- Every member of a path to the end marker starts its own path to the
end marker: the suffix from it. -/
theorem isPathB_suffix (st : SFState) (t1 : List Int) :
    ∀ (p x : Int) (t2 : List Int), isPathB st p (t1 ++ x :: t2) 0 = true →
      isPathB st x (x :: t2) 0 = true := by
  intro p x t2 h
  rcases isPathB_append_inv st t1 p 0 (x :: t2) h with ⟨r, _, h2⟩
  rcases (isPathB_cons st r x 0 t2).mp h2 with ⟨hrx, e, he, hrest⟩
  exact (isPathB_cons st x x 0 t2).mpr ⟨rfl, e, by rw [← hrx]; exact he, hrest⟩

/-- A path to the end marker visits no pointer twice. -/
theorem isPathB_nodup (st : SFState) (ps : List Int) :
    ∀ (p : Int), isPathB st p ps 0 = true → ps.Nodup := by
  induction ps with
  | nil => intro p _; exact List.nodup_nil
  | cons x xs ih =>
    intro p h
    rcases (isPathB_cons st p x 0 xs).mp h with ⟨hpx, e, he, hrest⟩
    refine List.nodup_cons.mpr ⟨?_, ih _ hrest⟩
    intro hmem
    rcases List.mem_iff_append.mp hmem with ⟨t1, t2, hsplit⟩
    have hsuf : isPathB st x (x :: t2) 0 = true := by
      apply isPathB_suffix st t1 e.next_ptr x t2
      rw [← hsplit]
      exact hrest
    have hfull : isPathB st x (x :: xs) 0 = true := by
      rw [hpx] at h
      exact h
    have heq : x :: xs = x :: t2 := isPathB_det st (x :: xs) x (x :: t2) hfull hsuf
    have hxs : xs = t2 := by injection heq
    rw [hxs] at hsplit
    have hlen := congrArg List.length hsplit
    simp [List.length_append] at hlen
    omega

/-- Every pointer on a path to the end marker denotes a live entry. -/
theorem isPathB_live (st : SFState) (ps : List Int) :
    ∀ (p : Int), isPathB st p ps 0 = true → ∀ x ∈ ps, isLivePtr st x = true := by
  induction ps with
  | nil => intro p _ x hx; cases hx
  | cons y xs ih =>
    intro p h x hx
    rcases (isPathB_cons st p y 0 xs).mp h with ⟨hpy, e, he, hrest⟩
    rcases List.mem_cons.mp hx with hxy | hxs
    · have hnext : e.next_ptr ≠ -1 := by
        cases xs with
        | nil =>
          have : e.next_ptr = 0 := by simpa [isPathB] using hrest
          rw [this]; decide
        | cons z zs =>
          rcases (isPathB_cons st e.next_ptr z 0 zs).mp hrest with ⟨_, e', he', _⟩
          intro hcon
          rw [hcon, readPtr_neg_one] at he'
          cases he'
      rw [hxy, ← hpy]
      simp [isLivePtr, he, hnext]
    · exact ih _ hrest x hxs

/-- A dereferenceable pointer is a counted-region pointer. -/
theorem readPtr_mem_validPtrs (st : SFState) (p : Int) (e : SFEntry)
    (h : readPtr st p = some e) : p ∈ validPtrs st := by
  unfold readPtr at h
  by_cases hp : p > 0
  · rw [if_pos hp] at h
    have hlt : (p - 1).toNat < st.D.length := List.get?_eq_some.mp h |>.1
    apply List.mem_append_left
    have hrw : p = ((p - 1).toNat : Int) + 1 := by omega
    rw [hrw]
    exact List.mem_map_of_mem (fun i : Nat => ((i : Int) + 1)) (List.mem_range.mpr hlt)
  · rw [if_neg hp] at h
    by_cases hq : p < -1
    · rw [if_pos hq] at h
      have hlt : (-p - 2).toNat < st.A.length := List.get?_eq_some.mp h |>.1
      apply List.mem_append_right
      have hrw : p = -((-p - 2).toNat : Int) - 2 := by omega
      rw [hrw]
      exact List.mem_map_of_mem (fun i : Nat => (-(i : Int) - 2)) (List.mem_range.mpr hlt)
    · rw [if_neg hq] at h
      cases h

/-- There are exactly m + a counted-region pointers. -/
theorem validPtrs_length (st : SFState) :
    (validPtrs st).length = st.D.length + st.A.length := by
  unfold validPtrs
  rw [List.length_append, List.length_map, List.length_map, List.length_range,
    List.length_range]

/-- A path to the end marker has at most m + a pointers. -/
theorem isPathB_length_le (st : SFState) (p : Int) (ps : List Int)
    (h : isPathB st p ps 0 = true) : ps.length ≤ st.D.length + st.A.length := by
  have hnd : ps.Nodup := isPathB_nodup st ps p h
  have hsub : ps ⊆ validPtrs st := by
    intro x hx
    have hl := isPathB_live st ps p h x hx
    unfold isLivePtr at hl
    cases hr : readPtr st x with
    | none => rw [hr] at hl; cases hl
    | some e => exact readPtr_mem_validPtrs st x e hr
  calc ps.length ≤ (validPtrs st).length := (hnd.subperm hsub).length_le
    _ = st.D.length + st.A.length := validPtrs_length st

/-- chainList at the end marker. -/
theorem chainList_zero (st : SFState) (fuel : Nat) : chainList st fuel 0 = some [] := by
  cases fuel <;> rfl

/-- chainList unfolding away from the end marker. -/
theorem chainList_succ (st : SFState) (fuel : Nat) (p : Int) (hp : p ≠ 0) :
    chainList st (fuel + 1) p =
      match readPtr st p with
      | none => none
      | some e => (chainList st fuel e.next_ptr).map (fun ps => p :: ps) := by
  conv_lhs => rw [chainList]
  rw [if_neg hp]

/-- A successful chainList run is a path to the end marker. -/
theorem chainList_sound (st : SFState) (fuel : Nat) :
    ∀ (p : Int) (ps : List Int), chainList st fuel p = some ps →
      isPathB st p ps 0 = true := by
  induction fuel with
  | zero =>
    intro p ps h
    unfold chainList at h
    by_cases hp : p = 0
    · rw [if_pos hp] at h
      cases h
      simp [isPathB, hp]
    · rw [if_neg hp] at h
      cases h
  | succ fuel ih =>
    intro p ps h
    by_cases hp : p = 0
    · rw [hp, chainList_zero] at h
      cases h
      simp [isPathB, hp]
    · rw [chainList_succ st fuel p hp] at h
      cases hr : readPtr st p with
      | none => simp only [hr] at h; cases h
      | some e =>
        simp only [hr] at h
        cases hc : chainList st fuel e.next_ptr with
        | none => rw [hc] at h; simp at h
        | some ps' =>
          rw [hc] at h
          simp at h
          subst h
          exact (isPathB_cons st p p 0 ps').mpr ⟨rfl, e, hr, ih _ _ hc⟩

/-- chainList recovers any path to the end marker, given enough fuel. -/
theorem chainList_complete (st : SFState) (ps : List Int) :
    ∀ (p : Int) (fuel : Nat), isPathB st p ps 0 = true → ps.length ≤ fuel →
      chainList st fuel p = some ps := by
  induction ps with
  | nil =>
    intro p fuel h _
    have hp : p = 0 := by simpa [isPathB] using h
    rw [hp, chainList_zero]
  | cons x xs ih =>
    intro p fuel h hlen
    rcases (isPathB_cons st p x 0 xs).mp h with ⟨hpx, e, he, hrest⟩
    have hp0 : p ≠ 0 := by
      intro hc
      rw [hc, readPtr_zero] at he
      cases he
    cases fuel with
    | zero => simp at hlen
    | succ fuel =>
      rw [chainList_succ st fuel p hp0]
      simp only [he]
      rw [ih _ _ hrest (by simp at hlen; omega)]
      simp [hpx]

/-- Paths only mention the pointers they visit: states agreeing on those
pointers have the same paths. -/
theorem isPathB_congr (st st' : SFState) (ps : List Int) :
    ∀ (p q : Int), (∀ x ∈ ps, readPtr st' x = readPtr st x) →
      isPathB st p ps q = true → isPathB st' p ps q = true := by
  induction ps with
  | nil =>
    intro p q _ h
    simpa [isPathB] using h
  | cons x xs ih =>
    intro p q hfr h
    rcases (isPathB_cons st p x q xs).mp h with ⟨hpx, e, he, hrest⟩
    have hp : p ∈ x :: xs := by
      rw [hpx]
      exact List.mem_cons_self x xs
    refine (isPathB_cons st' p x q xs).mpr ⟨hpx, e, ?_, ?_⟩
    · rw [hfr p hp]
      exact he
    · exact ih _ _ (fun y hy => hfr y (List.mem_cons_of_mem _ hy)) hrest

/-- relink keeps the number of entries. -/
theorem relink_length (ents : List SFEntry) : (relink ents).length = ents.length := by
  unfold relink
  rw [List.length_zipWith, List.length_range, Nat.min_self]

/-- Positional contents of a relinked list. -/
theorem relink_get (ents : List SFEntry) (i : Nat) :
    (relink ents).get? i =
      (ents.get? i).map
        (fun e =>
          { e with next_ptr := if i + 1 < ents.length then ((i : Int) + 2) else 0 }) := by
  unfold relink
  rw [List.get?_eq_getElem?, List.getElem?_zipWith]
  by_cases h : i < ents.length
  · rw [List.getElem?_range h, List.get?_eq_getElem?,
      List.getElem?_eq_getElem h]
    rfl
  · have h1 : (List.range ents.length)[i]? = none := by
      rw [List.getElem?_eq_none]
      rw [List.length_range]
      omega
    have h2 : ents[i]? = none := by
      rw [List.getElem?_eq_none]
      omega
    rw [h1, List.get?_eq_getElem?, h2]
    rfl

/-- relink keeps keys and rids positionally. -/
theorem relink_map_key_rid (ents : List SFEntry) :
    (relink ents).map (fun e => (e.key, e.rid)) = ents.map (fun e => (e.key, e.rid)) := by
  apply List.ext_getElem?
  intro n
  rw [← List.get?_eq_getElem?, ← List.get?_eq_getElem?, List.get?_map, List.get?_map,
    relink_get]
  cases ents.get? n <;> rfl

/-- relink keeps keys positionally. -/
theorem relink_map_key (ents : List SFEntry) :
    (relink ents).map (fun e => e.key) = ents.map (fun e => e.key) := by
  apply List.ext_getElem?
  intro n
  rw [← List.get?_eq_getElem?, ← List.get?_eq_getElem?, List.get?_map, List.get?_map,
    relink_get]
  cases ents.get? n <;> rfl

/-- Relinking twice is relinking once. -/
theorem relink_relink (ents : List SFEntry) : relink (relink ents) = relink ents := by
  apply List.ext_getElem?
  intro n
  rw [← List.get?_eq_getElem?, ← List.get?_eq_getElem?, relink_get, relink_get,
    relink_length]
  cases ents.get? n <;> rfl

/-- entriesOf on an empty pointer list. -/
theorem entriesOf_nil (st : SFState) : entriesOf st [] = [] := rfl

/-- entriesOf on a dereferenceable head pointer. -/
theorem entriesOf_cons (st : SFState) (p : Int) (ps : List Int) (e : SFEntry)
    (he : readPtr st p = some e) : entriesOf st (p :: ps) = e :: entriesOf st ps := by
  simp [entriesOf, he]

/-- The keys of a pointer list are the keys of its entries. -/
theorem keysOf_eq_map (st : SFState) (ps : List Int) :
    keysOf st ps = (entriesOf st ps).map (fun e => e.key) := by
  unfold keysOf entriesOf
  rw [List.map_filterMap]

/-- The collection loop of reorganize follows a path to the end marker
and collects its (live) entries in order. -/
theorem reorgLoop_spec (st : SFState) (cap : Nat) (ps : List Int) :
    ∀ (cur : Int) (seen : Nat) (acc : List SFEntry),
      isPathB st cur ps 0 = true → seen + ps.length ≤ cap →
      reorgLoop st cap cur seen acc = some (acc ++ entriesOf st ps) := by
  induction ps with
  | nil =>
    intro cur seen acc h _
    have hc : cur = 0 := by simpa [isPathB] using h
    unfold reorgLoop
    rw [if_pos hc]
    rw [entriesOf_nil, List.append_nil]
  | cons x xs ih =>
    intro cur seen acc h hlen
    rcases (isPathB_cons st cur x 0 xs).mp h with ⟨hcx, e, he, hrest⟩
    have hc0 : cur ≠ 0 := by
      intro hc
      rw [hc, readPtr_zero] at he
      cases he
    have hseen : ¬ seen ≥ cap := by
      simp [List.length_cons] at hlen
      omega
    have hlive : isLivePtr st cur = true := by
      rw [hcx]
      exact isPathB_live st (x :: xs) cur h x (List.mem_cons_self x xs)
    have hdel : e.deleted = false := by
      unfold isLivePtr at hlive
      rw [he] at hlive
      unfold SFEntry.deleted
      simpa using hlive
    unfold reorgLoop
    rw [if_neg hc0, if_neg hseen]
    simp only [he, hdel, Bool.false_eq_true, if_false]
    rw [ih e.next_ptr (seen + 1) (acc ++ [e]) hrest (by simp at hlen ⊢; omega)]
    rw [entriesOf_cons st x xs e (by rw [← hcx]; exact he)]
    rw [List.append_assoc, List.singleton_append]

/-- reorganize of a state with a chain: the canonical state of the
chain's entries. -/
theorem reorganize_of_chain (st : SFState) (ps : List Int)
    (hpath : isPathB st st.head ps 0 = true) :
    reorganize st = some (canonState (entriesOf st ps)) := by
  by_cases h0 : st.head = 0
  · have hps : ps = [] := by
      cases ps with
      | nil => rfl
      | cons x xs =>
        rcases (isPathB_cons st st.head x 0 xs).mp hpath with ⟨_, e, he, _⟩
        rw [h0, readPtr_zero] at he
        cases he
    subst hps
    unfold reorganize
    rw [if_pos h0]
    rw [entriesOf_nil]
    rfl
  · unfold reorganize
    rw [if_neg h0]
    have hlen := isPathB_length_le st st.head ps hpath
    rw [reorgLoop_spec st (st.D.length + st.A.length + 8) ps st.head 0 [] hpath
      (by omega)]
    rw [optBind_some, List.nil_append]
    rfl

/-- Dereferencing a D pointer in the canonical state reads the relinked
list positionally. -/
theorem readPtr_canon (ents : List SFEntry) (j : Nat) :
    readPtr (canonState ents) ((j : Int) + 1) = (relink ents).get? j := by
  unfold readPtr canonState
  rw [if_pos (by omega : ((j : Int) + 1) > 0)]
  have h : (((j : Int) + 1) - 1).toNat = j := by omega
  rw [h]

/-- The canonical state chains D positionally: from position j + 1 the
walk visits positions j + 1 to newm and ends at 0. -/
theorem canon_suffix_path (ents : List SFEntry) :
    ∀ (c j : Nat), j + c = ents.length →
      isPathB (canonState ents) (if c = 0 then 0 else ((j : Int) + 1))
        ((List.range' (j + 1) c).map (fun i : Nat => (i : Int))) 0 = true := by
  intro c
  induction c with
  | zero =>
    intro j _
    simp [isPathB]
  | succ c ih =>
    intro j hj
    rw [if_neg (by omega)]
    rw [List.range'_succ]
    simp only [List.map_cons]
    have hjlt : j < ents.length := by omega
    have hget : ents.get? j = some (ents.get ⟨j, hjlt⟩) := List.get?_eq_get hjlt
    apply (isPathB_cons (canonState ents) ((j : Int) + 1) ((j + 1 : Nat) : Int) 0
      ((List.range' (j + 1 + 1) c).map (fun i : Nat => (i : Int)))).mpr
    refine ⟨by push_cast; ring, ?_⟩
    refine ⟨{ ents.get ⟨j, hjlt⟩ with
      next_ptr := if j + 1 < ents.length then ((j : Int) + 2) else 0 }, ?_, ?_⟩
    · rw [readPtr_canon, relink_get, hget]
      rfl
    · dsimp only []
      have htail := ih (j + 1) (by omega)
      by_cases hc : c = 0
      · subst hc
        have hnotlt : ¬ j + 1 < ents.length := by omega
        simp only [if_neg, hnotlt, if_false]
        simpa using htail
      · have hlt : j + 1 < ents.length := by omega
        rw [if_pos hlt]
        rw [if_neg hc] at htail
        have : ((j : Int) + 2) = (((j + 1 : Nat) : Int) + 1) := by push_cast; ring
        rw [this]
        simpa using htail

/-- The canonical state's head starts the positional chain. -/
theorem canon_path (ents : List SFEntry) :
    isPathB (canonState ents) (canonState ents).head
      ((List.range' 1 ents.length).map (fun i : Nat => (i : Int))) 0 = true := by
  have h := canon_suffix_path ents ents.length 0 (by omega)
  by_cases hl : ents.length = 0
  · rw [hl] at h ⊢
    rw [if_pos rfl] at h
    have hh : (canonState ents).head = 0 := by
      unfold canonState
      rw [if_neg (by omega)]
    rw [hh]
    simpa using h
  · rw [if_neg hl] at h
    have hh : (canonState ents).head = 1 := by
      unfold canonState
      rw [if_pos (by omega)]
    rw [hh]
    simpa using h

/-- Collecting the positional chain of the canonical state recovers the
relinked entries. -/
theorem entriesOf_canon_suffix (ents : List SFEntry) :
    ∀ (c j : Nat), j + c = ents.length →
      entriesOf (canonState ents) ((List.range' (j + 1) c).map (fun i : Nat => (i : Int))) =
        (relink ents).drop j := by
  intro c
  induction c with
  | zero =>
    intro j hj
    have hjl : (relink ents).length ≤ j := by
      rw [relink_length]
      omega
    rw [List.drop_eq_nil_of_le hjl]
    rfl
  | succ c ih =>
    intro j hj
    have hjlt : j < (relink ents).length := by
      rw [relink_length]
      omega
    rw [List.range'_succ]
    simp only [List.map_cons]
    have hread : readPtr (canonState ents) (((j + 1 : Nat) : Int)) =
        some ((relink ents).get ⟨j, hjlt⟩) := by
      have hcast : (((j + 1 : Nat) : Int)) = ((j : Int) + 1) := by push_cast; ring
      rw [hcast, readPtr_canon]
      exact List.get?_eq_get hjlt
    rw [entriesOf_cons _ _ _ _ hread]
    rw [ih (j + 1) (by omega)]
    rw [List.drop_eq_getElem_cons hjlt]
    rfl

/-- Collecting the whole positional chain of the canonical state yields
exactly the relinked entries. -/
theorem entriesOf_canon (ents : List SFEntry) :
    entriesOf (canonState ents)
      ((List.range' 1 ents.length).map (fun i : Nat => (i : Int))) = relink ents := by
  have h := entriesOf_canon_suffix ents ents.length 0 (by omega)
  simpa using h

/-- reorganize fixes canonical states. -/
theorem reorganize_canonState (ents : List SFEntry) :
    reorganize (canonState ents) = some (canonState ents) := by
  have h := reorganize_of_chain (canonState ents) _ (canon_path ents)
  rw [h, entriesOf_canon]
  unfold canonState
  rw [relink_relink, relink_length]

/-- A tombstone is not live. -/
theorem tomb_not_live (st : SFState) (p : Int) (h : isTomb st p = true) :
    isLivePtr st p = false := by
  unfold isTomb at h
  unfold isLivePtr
  cases hr : readPtr st p with
  | none => rfl
  | some e =>
    rw [hr] at h
    simp at h
    simp [h]

/-- Every pointer on a path to the end marker dereferences. -/
theorem isPathB_mem_readPtr (st : SFState) (ps : List Int) (q p : Int)
    (hpath : isPathB st q ps 0 = true) (hmem : p ∈ ps) :
    ∃ e, readPtr st p = some e := by
  rcases List.mem_iff_append.mp hmem with ⟨t1, t2, hsplit⟩
  subst hsplit
  have hsuf := isPathB_suffix st t1 q p t2 hpath
  rcases (isPathB_cons st p p 0 t2).mp hsuf with ⟨_, e, he, _⟩
  exact ⟨e, he⟩

/-- C6: For every well-formed index state (one whose logical list is a
chain with non-decreasing keys covering every non-tombstone entry),
reorganize completes with aux_count 0, with D holding exactly the live
entries in logical (non-decreasing key) order, with D's next_ptr fields
forming the chain D[1] → D[2] → ... → D[newm] → 0, and with head_ptr
pointing at D[1] when a live entry exists and 0 otherwise (head_ptr = 0
iff the input had no live entries). -/
theorem claim_c6_reorganize (st : SFState) (ps : List Int) (hinv : ChainInv st ps) :
    ∃ st', reorganize st = some st' ∧
      st'.A = [] ∧
      st'.D.map (fun e => (e.key, e.rid)) =
        (entriesOf st ps).map (fun e => (e.key, e.rid)) ∧
      List.Pairwise (fun x y => x ≤ y) (st'.D.map (fun e => e.key)) ∧
      (∀ i, i < st'.D.length →
        (st'.D.getD i dfl).next_ptr =
          (if i + 1 < st'.D.length then ((i : Int) + 2) else 0)) ∧
      st'.head = (if st'.D.length = 0 then 0 else 1) ∧
      ((st'.head = 0) ↔ ∀ p ∈ validPtrs st, isLivePtr st p = false) := by
  obtain ⟨hpath, hsorted, htomb⟩ := hinv
  refine ⟨canonState (entriesOf st ps), reorganize_of_chain st ps hpath, rfl,
    ?_, ?_, ?_, ?_, ?_⟩
  · dsimp only [canonState]
    exact relink_map_key_rid (entriesOf st ps)
  · dsimp only [canonState]
    rw [relink_map_key, ← keysOf_eq_map]
    exact hsorted
  · intro i hi
    dsimp only [canonState] at hi ⊢
    rw [relink_length] at hi
    have h1 : (relink (entriesOf st ps)).get? i =
        some { (entriesOf st ps).get ⟨i, hi⟩ with
          next_ptr := if i + 1 < (entriesOf st ps).length then ((i : Int) + 2) else 0 } := by
      rw [relink_get, List.get?_eq_get hi]
      rfl
    rw [List.getD_eq_getElem?_getD, ← List.get?_eq_getElem?, h1, relink_length]
    rfl
  · dsimp only [canonState]
    rw [relink_length]
    split_ifs <;> omega
  · dsimp only [canonState]
    constructor
    · intro h0 p hp
      have hout : entriesOf st ps = [] := by
        by_cases hl : (entriesOf st ps).length ≥ 1
        · rw [if_pos hl] at h0
          cases h0
        · exact List.length_eq_zero.mp (by omega)
      by_cases hmem : p ∈ ps
      · rcases isPathB_mem_readPtr st ps st.head p hpath hmem with ⟨e, he⟩
        have hm : e ∈ entriesOf st ps := List.mem_filterMap.mpr ⟨p, hmem, he⟩
        rw [hout] at hm
        cases hm
      · exact tomb_not_live st p (htomb p hp hmem)
    · intro hall
      have hps : ps = [] := by
        cases ps with
        | nil => rfl
        | cons x xs =>
          have hlive := isPathB_live st (x :: xs) st.head hpath x
            (List.mem_cons_self x xs)
          rcases (isPathB_cons st st.head x 0 xs).mp hpath with ⟨hx, e, he, _⟩
          rw [hx] at he
          have hval := readPtr_mem_validPtrs st x e he
          have hfalse := hall x hval
          rw [hlive] at hfalse
          cases hfalse
      rw [hps, entriesOf_nil]
      rfl

/-- C6 witness: a one-entry main region with the chain [1]. -/
theorem claim_c6_reorganize_witness :
    ∃ st', reorganize (SFState.mk [SFEntry.mk 5 (RID.mk 0 0) 0] [] 1) = some st' ∧
      st'.A = [] ∧
      st'.D.map (fun e => (e.key, e.rid)) =
        (entriesOf (SFState.mk [SFEntry.mk 5 (RID.mk 0 0) 0] [] 1) [1]).map
          (fun e => (e.key, e.rid)) ∧
      List.Pairwise (fun x y => x ≤ y) (st'.D.map (fun e => e.key)) ∧
      (∀ i, i < st'.D.length →
        (st'.D.getD i dfl).next_ptr =
          (if i + 1 < st'.D.length then ((i : Int) + 2) else 0)) ∧
      st'.head = (if st'.D.length = 0 then 0 else 1) ∧
      ((st'.head = 0) ↔
        ∀ p ∈ validPtrs (SFState.mk [SFEntry.mk 5 (RID.mk 0 0) 0] [] 1),
          isLivePtr (SFState.mk [SFEntry.mk 5 (RID.mk 0 0) 0] [] 1) p = false) :=
  claim_c6_reorganize (SFState.mk [SFEntry.mk 5 (RID.mk 0 0) 0] [] 1) [1]
    ⟨by decide, by decide, by decide⟩

/-- C9: reorganize is idempotent on every well-formed index state: the
state reorganize produces is a fixed point of reorganize, so running it
twice gives the same header and counted-region contents as once. -/
theorem claim_c9_reorganize_idem (st : SFState) (ps : List Int) (hinv : ChainInv st ps) :
    ∃ st', reorganize st = some st' ∧ reorganize st' = some st' := by
  obtain ⟨hpath, _, _⟩ := hinv
  exact ⟨canonState (entriesOf st ps), reorganize_of_chain st ps hpath,
    reorganize_canonState (entriesOf st ps)⟩

/-- C9 witness: a one-entry aux region with the chain [-2]. -/
theorem claim_c9_reorganize_idem_witness :
    ∃ st', reorganize (SFState.mk [] [SFEntry.mk 7 (RID.mk 1 2) 0] (-2)) = some st' ∧
      reorganize st' = some st' :=
  claim_c9_reorganize_idem (SFState.mk [] [SFEntry.mk 7 (RID.mk 1 2) 0] (-2)) [-2]
    ⟨by decide, by decide, by decide⟩

/-!
Invariant preservation for the sequential file: frame lemmas for the
write primitives, binary-search and scan specifications, the insert
splice, the delete walk, and the reachability induction for C3.
-/

/-- Appending to the aux region preserves existing reads. -/
theorem readPtr_appendA (st : SFState) (e0 : SFEntry) (p : Int) (e : SFEntry)
    (h : readPtr st p = some e) :
    readPtr { st with A := st.A ++ [e0] } p = some e := by
  unfold readPtr at h ⊢
  by_cases hp : p > 0
  · rw [if_pos hp] at h ⊢
    exact h
  · rw [if_neg hp] at h ⊢
    by_cases hq : p < -1
    · rw [if_pos hq] at h ⊢
      have hlt : (-p - 2).toNat < st.A.length := List.get?_eq_some.mp h |>.1
      rw [List.get?_eq_getElem?] at h ⊢
      dsimp only []
      rw [List.getElem?_append, if_pos hlt]
      exact h
    · rw [if_neg hq] at h
      cases h

/-- The appended aux entry reads back at the fresh aux pointer. -/
theorem readPtr_appendA_new (st : SFState) (e0 : SFEntry) :
    readPtr { st with A := st.A ++ [e0] } (-((st.A.length : Int) + 2)) = some e0 := by
  unfold readPtr
  rw [if_neg (by omega), if_pos (by omega)]
  have h : (-(-((st.A.length : Int) + 2)) - 2).toNat = st.A.length := by omega
  rw [h, List.get?_eq_getElem?]
  rw [List.getElem?_append_right (by omega)]
  simp

/-- Changing the header does not change entry reads. -/
theorem readPtr_set_head (st : SFState) (h p : Int) :
    readPtr { st with head := h } p = readPtr st p := rfl

/-- validPtrs depends only on the region lengths. -/
theorem validPtrs_congr (st st' : SFState) (hD : st'.D.length = st.D.length)
    (hA : st'.A.length = st.A.length) : validPtrs st' = validPtrs st := by
  unfold validPtrs
  rw [hD, hA]

/-- A write to a dereferenceable pointer succeeds. -/
theorem writePtr_isSome (st : SFState) (p : Int) (e e' : SFEntry)
    (h : readPtr st p = some e) : ∃ st', writePtr st p e' = some st' := by
  unfold readPtr at h
  unfold writePtr
  by_cases hp : p > 0
  · rw [if_pos hp] at h ⊢
    exact ⟨_, by rw [if_pos (List.get?_eq_some.mp h |>.1)]⟩
  · rw [if_neg hp] at h ⊢
    by_cases hq : p < -1
    · rw [if_pos hq] at h ⊢
      exact ⟨_, by rw [if_pos (List.get?_eq_some.mp h |>.1)]⟩
    · rw [if_neg hq] at h
      cases h

/-- A successful write reads back at the written pointer. -/
theorem writePtr_read_self (st : SFState) (p : Int) (e' : SFEntry) (st' : SFState)
    (hw : writePtr st p e' = some st') : readPtr st' p = some e' := by
  unfold writePtr at hw
  unfold readPtr
  by_cases hp : p > 0
  · rw [if_pos hp] at hw ⊢
    by_cases hlt : (p - 1).toNat < st.D.length
    · rw [if_pos hlt] at hw
      cases hw
      rw [List.get?_eq_getElem?]
      dsimp only []
      rw [List.getElem?_set_self hlt]
    · rw [if_neg hlt] at hw
      cases hw
  · rw [if_neg hp] at hw ⊢
    by_cases hq : p < -1
    · rw [if_pos hq] at hw ⊢
      by_cases hlt : (-p - 2).toNat < st.A.length
      · rw [if_pos hlt] at hw
        cases hw
        rw [List.get?_eq_getElem?]
        dsimp only []
        rw [List.getElem?_set_self hlt]
      · rw [if_neg hlt] at hw
        cases hw
    · rw [if_neg hq] at hw
      cases hw

/-- A successful write leaves every other pointer's read unchanged. -/
theorem writePtr_frame (st : SFState) (p : Int) (e' : SFEntry) (st' : SFState)
    (hw : writePtr st p e' = some st') (q : Int) (hq : q ≠ p) :
    readPtr st' q = readPtr st q := by
  unfold writePtr at hw
  unfold readPtr
  by_cases hp : p > 0
  · rw [if_pos hp] at hw
    by_cases hlt : (p - 1).toNat < st.D.length
    · rw [if_pos hlt] at hw
      cases hw
      dsimp only []
      by_cases hqp : q > 0
      · rw [if_pos hqp, if_pos hqp]
        rw [List.get?_eq_getElem?, List.get?_eq_getElem?]
        rw [List.getElem?_set_ne (by omega)]
      · rw [if_neg hqp, if_neg hqp]
    · rw [if_neg hlt] at hw
      cases hw
  · rw [if_neg hp] at hw
    by_cases hpq : p < -1
    · rw [if_pos hpq] at hw
      by_cases hlt : (-p - 2).toNat < st.A.length
      · rw [if_pos hlt] at hw
        cases hw
        dsimp only []
        by_cases hqp : q > 0
        · rw [if_pos hqp, if_pos hqp]
        · rw [if_neg hqp, if_neg hqp]
          by_cases hqq : q < -1
          · rw [if_pos hqq, if_pos hqq]
            rw [List.get?_eq_getElem?, List.get?_eq_getElem?]
            rw [List.getElem?_set_ne (by omega)]
          · rw [if_neg hqq, if_neg hqq]
      · rw [if_neg hlt] at hw
        cases hw
    · rw [if_neg hpq] at hw
      cases hw

/-- A successful write keeps the header. -/
theorem writePtr_head (st : SFState) (p : Int) (e' : SFEntry) (st' : SFState)
    (hw : writePtr st p e' = some st') : st'.head = st.head := by
  unfold writePtr at hw
  by_cases hp : p > 0
  · rw [if_pos hp] at hw
    by_cases hlt : (p - 1).toNat < st.D.length
    · rw [if_pos hlt] at hw
      cases hw
      rfl
    · rw [if_neg hlt] at hw
      cases hw
  · rw [if_neg hp] at hw
    by_cases hpq : p < -1
    · rw [if_pos hpq] at hw
      by_cases hlt : (-p - 2).toNat < st.A.length
      · rw [if_pos hlt] at hw
        cases hw
        rfl
      · rw [if_neg hlt] at hw
        cases hw
    · rw [if_neg hpq] at hw
      cases hw

/-- A successful write keeps both region lengths. -/
theorem writePtr_lengths (st : SFState) (p : Int) (e' : SFEntry) (st' : SFState)
    (hw : writePtr st p e' = some st') :
    st'.D.length = st.D.length ∧ st'.A.length = st.A.length := by
  unfold writePtr at hw
  by_cases hp : p > 0
  · rw [if_pos hp] at hw
    by_cases hlt : (p - 1).toNat < st.D.length
    · rw [if_pos hlt] at hw
      cases hw
      constructor
      · exact List.length_set st.D _ _
      · rfl
    · rw [if_neg hlt] at hw
      cases hw
  · rw [if_neg hp] at hw
    by_cases hpq : p < -1
    · rw [if_pos hpq] at hw
      by_cases hlt : (-p - 2).toNat < st.A.length
      · rw [if_pos hlt] at hw
        cases hw
        constructor
        · rfl
        · exact List.length_set st.A _ _
      · rw [if_neg hlt] at hw
        cases hw
    · rw [if_neg hpq] at hw
      cases hw

/-- A write whose entry keeps the old key preserves the positional keys
of D. -/
theorem writePtr_D_keys (st : SFState) (p : Int) (e e' : SFEntry) (st' : SFState)
    (hr : readPtr st p = some e) (hw : writePtr st p e' = some st')
    (hk : e'.key = e.key) :
    st'.D.map (fun x => x.key) = st.D.map (fun x => x.key) := by
  unfold readPtr at hr
  unfold writePtr at hw
  by_cases hp : p > 0
  · rw [if_pos hp] at hr hw
    have hlt : (p - 1).toNat < st.D.length := List.get?_eq_some.mp hr |>.1
    rw [if_pos hlt] at hw
    cases hw
    dsimp only []
    apply List.ext_getElem?
    intro n
    rw [List.getElem?_map, List.getElem?_map]
    by_cases hn : n = (p - 1).toNat
    · subst hn
      rw [List.getElem?_set_self hlt]
      rw [List.get?_eq_getElem?] at hr
      rw [hr]
      simp [hk]
    · rw [List.getElem?_set_ne (by omega)]
  · rw [if_neg hp] at hr hw
    by_cases hpq : p < -1
    · rw [if_pos hpq] at hr hw
      have hlt : (-p - 2).toNat < st.A.length := List.get?_eq_some.mp hr |>.1
      rw [if_pos hlt] at hw
      cases hw
      rfl
    · rw [if_neg hpq] at hr
      cases hr

/-- Every counted pointer of a canonical state lies on its positional
chain. -/
theorem canon_valid_mem (ents : List SFEntry) (p : Int)
    (hp : p ∈ validPtrs (canonState ents)) :
    p ∈ (List.range' 1 ents.length).map (fun i : Nat => (i : Int)) := by
  unfold validPtrs canonState at hp
  dsimp only [] at hp
  rw [relink_length] at hp
  rcases List.mem_append.mp hp with hl | hr
  · rcases List.mem_map.mp hl with ⟨i, hi, rfl⟩
    have hilt := List.mem_range.mp hi
    apply List.mem_map.mpr
    refine ⟨i + 1, ?_, by push_cast; ring⟩
    exact List.mem_range'_1.mpr ⟨by omega, by omega⟩
  · rcases List.mem_map.mp hr with ⟨i, hi, rfl⟩
    exact absurd (List.mem_range.mp hi) (by simp)

/-- A canonical state built from key-sorted entries satisfies the index
invariant. -/
theorem canonState_INV (ents : List SFEntry)
    (hs : List.Pairwise (fun x y => x ≤ y) (ents.map (fun e => e.key))) :
    INV (canonState ents) := by
  constructor
  · refine ⟨(List.range' 1 ents.length).map (fun i : Nat => (i : Int)),
      canon_path ents, ?_, ?_⟩
    · rw [keysOf_eq_map, entriesOf_canon, relink_map_key]
      exact hs
    · intro p hp hnp
      exact absurd (canon_valid_mem ents p hp) hnp
  · show List.Pairwise _ ((canonState ents).D.map _)
    dsimp only [canonState]
    rw [relink_map_key]
    exact hs

/-- reorganize preserves the index invariant. -/
theorem reorganize_INV (st st' : SFState) (hinv : INV st)
    (h : reorganize st = some st') : INV st' := by
  obtain ⟨⟨ps, hpath, hsort, _⟩, _⟩ := hinv
  have hr := reorganize_of_chain st ps hpath
  rw [h] at hr
  have hst : st' = canonState (entriesOf st ps) := by injection hr
  subst hst
  apply canonState_INV
  rw [← keysOf_eq_map]
  exact hsort

/-- maybeReorg succeeds on invariant states and preserves the
invariant. -/
theorem maybeReorg_INV (st : SFState) (hinv : INV st) :
    ∃ st', maybeReorg st = some st' ∧ INV st' := by
  unfold maybeReorg
  by_cases hc : st.A.length > reorgThreshold st.D.length
  · rw [if_pos hc]
    obtain ⟨⟨ps, hpath, _, _⟩, _⟩ := hinv.imp id id
    exact ⟨_, reorganize_of_chain st ps hpath,
      reorganize_INV st _ hinv (reorganize_of_chain st ps hpath)⟩
  · rw [if_neg hc]
    exact ⟨st, rfl, hinv⟩

/-- Positional monotonicity of keys in a sorted region. -/
theorem getD_key_mono (D : List SFEntry)
    (hD : List.Pairwise (fun x y => x ≤ y) (D.map (fun e => e.key)))
    (a b : Nat) (hab : a ≤ b) (hb : b < D.length) :
    (D.getD a dfl).key ≤ (D.getD b dfl).key := by
  have ha : a < D.length := by omega
  rcases Nat.eq_or_lt_of_le hab with rfl | hlt
  · exact le_refl _
  · have hm := List.pairwise_iff_getElem.mp hD a b
      (by rw [List.length_map]; omega) (by rw [List.length_map]; omega) hlt
    rw [List.getElem_map, List.getElem_map] at hm
    rw [List.getD_eq_getElem?_getD, List.getD_eq_getElem?_getD,
      List.getElem?_eq_getElem ha, List.getElem?_eq_getElem hb]
    exact hm

/-- The binary-search invariant: every 1-based position strictly below
the returned lower bound holds a key below the target. -/
theorem lbAux_spec (D : List SFEntry) (key : Int)
    (hD : List.Pairwise (fun x y => x ≤ y) (D.map (fun e => e.key))) :
    ∀ (l r ans : Nat), 1 ≤ l → r + 1 = ans → ans ≤ D.length + 1 → 1 ≤ ans →
      (∀ i, 1 ≤ i → i < l → (D.getD (i - 1) dfl).key < key) →
      ((∀ i, 1 ≤ i → i < lbAux D key l r ans → (D.getD (i - 1) dfl).key < key) ∧
        1 ≤ lbAux D key l r ans ∧ lbAux D key l r ans ≤ D.length + 1) := by
  intro l r ans
  induction l, r, ans using lbAux.induct D key with
  | case1 l r ans hlr mid e hge ih =>
    intro h1 hr hans hans1 hlo
    unfold lbAux
    rw [dif_pos hlr]
    simp only []
    rw [if_pos hge]
    exact ih h1 (by omega) (by omega) (by omega) hlo
  | case2 l r ans hlr mid e hge ih =>
    intro h1 hr hans hans1 hlo
    unfold lbAux
    rw [dif_pos hlr]
    simp only []
    rw [if_neg hge]
    have hm : mid = (l + r) / 2 := rfl
    have he : e = D.getD (mid - 1) dfl := rfl
    apply ih (by omega) hr hans hans1
    intro i hi1 hi
    by_cases hil : i < l
    · exact hlo i hi1 hil
    · have hmid1 : 1 ≤ mid := by omega
      have hmidle : mid ≤ r := by omega
      have hmidlt : mid - 1 < D.length := by omega
      have hmono := getD_key_mono D hD (i - 1) (mid - 1) (by omega) hmidlt
      rw [← he] at hmono
      omega
  | case3 l r ans hnlr =>
    intro h1 hr hans hans1 hlo
    unfold lbAux
    rw [dif_neg hnlr]
    refine ⟨?_, hans1, hans⟩
    intro i hi1 hi
    exact hlo i hi1 (by omega)

/-- lb: positions strictly below the result hold keys below the
target. -/
theorem lb_spec (st : SFState) (key : Int)
    (hD : List.Pairwise (fun x y => x ≤ y) (st.D.map (fun e => e.key))) :
    (∀ i, 1 ≤ i → i < lb st key → (st.D.getD (i - 1) dfl).key < key) ∧
      1 ≤ lb st key ∧ lb st key ≤ st.D.length + 1 := by
  unfold lb
  exact lbAux_spec st.D key hD 1 st.D.length (st.D.length + 1) (by omega) rfl
    (by omega) (by omega) (by omega)

/-- scanBack never moves forward. -/
theorem scanBack_le (D : List SFEntry) : ∀ s, scanBack D s ≤ s := by
  intro s
  induction s with
  | zero => exact le_refl _
  | succ s ih =>
    unfold scanBack
    cases hg : D.get? s with
    | none =>
      show (0 : Nat) ≤ s + 1
      omega
    | some e =>
      show (if e.deleted = true then scanBack D s else s + 1) ≤ s + 1
      by_cases hd : e.deleted = true
      · rw [if_pos hd]
        omega
      · rw [if_neg hd]

/-- A positive scanBack result denotes a live entry. -/
theorem scanBack_live (D : List SFEntry) :
    ∀ s, 1 ≤ scanBack D s →
      ∃ e, D.get? (scanBack D s - 1) = some e ∧ e.deleted = false := by
  intro s
  induction s with
  | zero =>
    intro h
    unfold scanBack at h
    omega
  | succ s ih =>
    intro h
    unfold scanBack at h ⊢
    cases hg : D.get? s with
    | none =>
      rw [hg] at h
      have h0 : (1 : Nat) ≤ 0 := h
      omega
    | some e =>
      rw [hg] at h
      have h' : 1 ≤ (if e.deleted = true then scanBack D s else s + 1) := h
      show ∃ e', D.get? ((if e.deleted = true then scanBack D s else s + 1) - 1) =
        some e' ∧ e'.deleted = false
      by_cases hd : e.deleted = true
      · rw [if_pos hd] at h' ⊢
        exact ih h'
      · rw [if_neg hd] at h' ⊢
        have hdf : e.deleted = false := by
          cases hde : e.deleted
          · rfl
          · exact absurd hde hd
        refine ⟨e, ?_, hdf⟩
        simpa using hg

/-- Unfolding characterization of isTomb. -/
theorem isTomb_iff (st : SFState) (p : Int) :
    isTomb st p = true ↔ ∃ e, readPtr st p = some e ∧ e.next_ptr = -1 := by
  unfold isTomb
  cases hr : readPtr st p with
  | none => simp
  | some e => simp

/-- Unfolding characterization of isLivePtr. -/
theorem isLivePtr_iff (st : SFState) (p : Int) :
    isLivePtr st p = true ↔ ∃ e, readPtr st p = some e ∧ e.next_ptr ≠ -1 := by
  unfold isLivePtr
  cases hr : readPtr st p with
  | none => simp
  | some e => simp

/-- keysOf depends only on the keys the pointers read. -/
theorem keysOf_congr_key (st st' : SFState) (ps : List Int)
    (h : ∀ p ∈ ps, (readPtr st' p).map (fun e => e.key) =
      (readPtr st p).map (fun e => e.key)) :
    keysOf st' ps = keysOf st ps := by
  unfold keysOf
  exact List.filterMap_congr (fun x hx => h x hx)

/-- The walk of insert splits its chain suffix at the first key at least
the target: it returns the last pointer strictly below the target (or
the start marker) and the pointer where the split begins. -/
theorem insWalk_spec (st : SFState) (key : Int) :
    ∀ (suf : List Int) (fuel : Nat) (prev0 cur0 : Int),
      isPathB st cur0 suf 0 = true → suf.length < fuel →
      ∃ qs1 qs2, suf = qs1 ++ qs2 ∧
        (∀ p ∈ qs1, ∃ e, readPtr st p = some e ∧ e.key < key) ∧
        (∀ x, qs2.head? = some x → ∃ e, readPtr st x = some e ∧ ¬ e.key < key) ∧
        insWalk st key fuel prev0 cur0 = some (qs1.getLastD prev0, headPtr qs2) := by
  intro suf
  induction suf with
  | nil =>
    intro fuel prev0 cur0 h hlen
    have hc : cur0 = 0 := by simpa [isPathB] using h
    cases fuel with
    | zero => simp at hlen
    | succ fuel =>
      refine ⟨[], [], rfl, by simp, by simp, ?_⟩
      unfold insWalk
      rw [if_pos hc, hc]
      rfl
  | cons x xs ih =>
    intro fuel prev0 cur0 h hlen
    rcases (isPathB_cons st cur0 x 0 xs).mp h with ⟨hcx, e, he, hrest⟩
    have hc0 : cur0 ≠ 0 := by
      intro hc
      rw [hc, readPtr_zero] at he
      cases he
    have hlive : isLivePtr st cur0 = true := by
      rw [hcx]
      exact isPathB_live st (x :: xs) cur0 h x (List.mem_cons_self x xs)
    have hdel : e.deleted = false := by
      rcases (isLivePtr_iff st cur0).mp hlive with ⟨e', he', hne⟩
      rw [he] at he'
      cases he'
      unfold SFEntry.deleted
      simpa using hne
    cases fuel with
    | zero => simp at hlen
    | succ fuel =>
      unfold insWalk
      rw [if_neg hc0]
      simp only [he, hdel, Bool.false_eq_true, if_false]
      by_cases hk : e.key < key
      · rw [if_pos hk]
        rcases ih fuel cur0 e.next_ptr hrest (by simp at hlen; omega) with
          ⟨qs1, qs2, hsplit, h1, h2, hrun⟩
        refine ⟨x :: qs1, qs2, by rw [hsplit, List.cons_append], ?_, h2, ?_⟩
        · intro p hp
          rcases List.mem_cons.mp hp with rfl | hp'
          · exact ⟨e, by rw [← hcx]; exact he, hk⟩
          · exact h1 p hp'
        · rw [hrun, List.getLastD_cons, hcx]
      · rw [if_neg hk]
        refine ⟨[], x :: xs, rfl, by simp, ?_, ?_⟩
        · intro y hy
          simp only [List.head?_cons, Option.some_inj] at hy
          subst hy
          exact ⟨e, by rw [← hcx]; exact he, hk⟩
        · rw [hcx]
          rfl

/-- Retargeting the last pointer of a path: overwriting only the next
field of the final node redirects the path's endpoint, provided the
other nodes read unchanged. -/
theorem isPathB_retarget (st st' : SFState) (P : List Int) :
    ∀ (p c c' w : Int),
      isPathB st p P c = true → P.getLast? = some w → P.Nodup →
      (∀ x ∈ P, x ≠ w → readPtr st' x = readPtr st x) →
      (∀ e, readPtr st w = some e → readPtr st' w = some { e with next_ptr := c' }) →
      isPathB st' p P c' = true := by
  induction P with
  | nil =>
    intro p c c' w hpath hlast _ _ _
    cases hlast
  | cons x xs ih =>
    intro p c c' w hpath hlast hnd hfr hw
    rcases (isPathB_cons st p x c xs).mp hpath with ⟨hpx, e, he, hrest⟩
    cases xs with
    | nil =>
      have hwx : w = x := by
        simp only [List.getLast?_singleton, Option.some_inj] at hlast
        omega
      apply (isPathB_cons st' p x c' []).mpr
      refine ⟨hpx, { e with next_ptr := c' }, ?_, by simp [isPathB]⟩
      rw [hpx, ← hwx]
      apply hw
      rw [hwx, ← hpx]
      exact he
    | cons y ys =>
      have hlast' : (y :: ys).getLast? = some w := by
        rwa [List.getLast?_cons_cons] at hlast
      have hwmem : w ∈ y :: ys := List.mem_of_mem_getLast? hlast'
      have hxw : x ≠ w := by
        intro hcon
        subst hcon
        exact (List.nodup_cons.mp hnd).1 hwmem
      apply (isPathB_cons st' p x c' (y :: ys)).mpr
      refine ⟨hpx, e, ?_, ?_⟩
      · rw [hpx, hfr x (List.mem_cons_self x (y :: ys)) hxw, ← hpx]
        exact he
      · exact ih e.next_ptr c c' w hrest hlast' (List.nodup_cons.mp hnd).2
          (fun z hz hzw => hfr z (List.mem_cons_of_mem x hz) hzw) hw

/-- keysOf distributes over append. -/
theorem keysOf_append (st : SFState) (xs ys : List Int) :
    keysOf st (xs ++ ys) = keysOf st xs ++ keysOf st ys := by
  unfold keysOf
  exact List.filterMap_append xs ys _

/-- Members of keysOf come from a pointer of the list. -/
theorem mem_keysOf (st : SFState) (ps : List Int) (k : Int)
    (h : k ∈ keysOf st ps) : ∃ p ∈ ps, ∃ e, readPtr st p = some e ∧ e.key = k := by
  unfold keysOf at h
  rcases List.mem_filterMap.mp h with ⟨p, hp, he⟩
  cases hr : readPtr st p with
  | none => rw [hr] at he; cases he
  | some e =>
    rw [hr] at he
    simp at he
    exact ⟨p, hp, e, hr, he⟩

/-- A write to an aux pointer leaves D untouched. -/
theorem writePtr_D_eq (st : SFState) (p : Int) (e' : SFEntry) (st' : SFState)
    (hp : ¬ p > 0) (hw : writePtr st p e' = some st') : st'.D = st.D := by
  unfold writePtr at hw
  rw [if_neg hp] at hw
  by_cases hq : p < -1
  · rw [if_pos hq] at hw
    by_cases hlt : (-p - 2).toNat < st.A.length
    · rw [if_pos hlt] at hw
      cases hw
      rfl
    · rw [if_neg hlt] at hw
      cases hw
  · rw [if_neg hq] at hw
    cases hw

/-- Splitting a path to the end marker at an append boundary: the second
leg starts at the head pointer of the second part. -/
theorem isPathB_split_headPtr (st : SFState) (qs1 qs2 : List Int) (c0 : Int)
    (h : isPathB st c0 (qs1 ++ qs2) 0 = true) :
    isPathB st c0 qs1 (headPtr qs2) = true ∧ isPathB st (headPtr qs2) qs2 0 = true := by
  rcases isPathB_append_inv st qs1 c0 0 qs2 h with ⟨mid, h1, h2⟩
  have hmid : mid = headPtr qs2 := by
    cases qs2 with
    | nil => simpa [isPathB] using h2
    | cons y ys => exact ((isPathB_cons st mid y 0 ys).mp h2).1
  rw [hmid] at h1 h2
  exact ⟨h1, h2⟩

/-- The default-last of a nonempty list is a member. -/
theorem getLastD_mem (l : List Int) (d : Int) (h : l ≠ []) : l.getLastD d ∈ l := by
  rw [List.getLastD_eq_getLast?]
  cases hg : l.getLast? with
  | none => exact absurd (List.getLast?_eq_none_iff.mp hg) h
  | some a =>
    simp only [Option.getD_some]
    exact List.mem_of_mem_getLast? hg

/-- The default-last of a nonempty list is its optional last. -/
theorem getLastD_eq_getLast? (l : List Int) (d : Int) (h : l ≠ []) :
    l.getLast? = some (l.getLastD d) := by
  rw [List.getLastD_eq_getLast?]
  cases hg : l.getLast? with
  | none => exact absurd (List.getLast?_eq_none_iff.mp hg) h
  | some a => rfl

/-- In a non-decreasing list, the head bounds every member. -/
theorem sorted_head_le (k : Int) (ks : List Int)
    (h : List.Pairwise (fun x y => x ≤ y) (k :: ks)) : ∀ b ∈ ks, k ≤ b :=
  (List.pairwise_cons.mp h).1

/-- keysOf of a chain suffix starting at a live node with key at least
the target consists of keys at least the target. -/
theorem keysOf_cons_entry (st : SFState) (p : Int) (ps : List Int) (e : SFEntry)
    (he : readPtr st p = some e) :
    keysOf st (p :: ps) = e.key :: keysOf st ps := by
  unfold keysOf
  simp [he]

/-- All keys read from live entries below the target stay below it. -/
theorem keysOf_all_lt (st : SFState) (key : Int) (P : List Int)
    (hPkey : ∀ p ∈ P, ∃ e, readPtr st p = some e ∧ e.key < key) :
    ∀ a ∈ keysOf st P, a < key := by
  intro a ha
  rcases mem_keysOf st P a ha with ⟨p, hp, e, he, hek⟩
  rcases hPkey p hp with ⟨e', he', hk⟩
  rw [he] at he'
  injection he' with heq
  rw [← heq] at hk
  omega

/-- If a sorted suffix starts at or above the target, all its keys are at
or above the target. -/
theorem keysOf_suffix_ge (st : SFState) (key : Int) (qs2 : List Int)
    (hq2 : ∀ x, qs2.head? = some x → ∃ e, readPtr st x = some e ∧ ¬ e.key < key)
    (hpair : List.Pairwise (fun x y => x ≤ y) (keysOf st qs2)) :
    ∀ b ∈ keysOf st qs2, key ≤ b := by
  cases qs2 with
  | nil =>
    intro b hb
    simp [keysOf] at hb
  | cons y ys =>
    rcases hq2 y rfl with ⟨ey, hey, hkey⟩
    rw [keysOf_cons_entry st y ys ey hey] at hpair ⊢
    intro b hb
    rcases List.mem_cons.mp hb with rfl | hb'
    · omega
    · have := sorted_head_le ey.key _ hpair b hb'
      omega

/-- The splice phase of insert (walk, write the new node, link it in)
preserves the index invariant, for any start point that splits the chain
with every key before it below the new key. -/
theorem insertLinkFrom_inv (st1 : SFState) (key : Int) (r : RID)
    (newp prev0 cur0 : Int) (P suf : List Int) (ne : SFEntry)
    (hP : isPathB st1 st1.head P cur0 = true)
    (hsuf : isPathB st1 cur0 suf 0 = true)
    (hprev : (prev0 = 0 ∧ P = []) ∨ (prev0 ≠ 0 ∧ P.getLast? = some prev0))
    (hPkey : ∀ p ∈ P, ∃ e, readPtr st1 p = some e ∧ e.key < key)
    (hsorted : List.Pairwise (fun x y => x ≤ y) (keysOf st1 (P ++ suf)))
    (htomb : ∀ p ∈ validPtrs st1, p ∉ P ++ suf → p ≠ newp → isTomb st1 p = true)
    (hnew : readPtr st1 newp = some ne)
    (hnewneg : newp < -1)
    (hnp : newp ∉ P ++ suf)
    (hDs : List.Pairwise (fun x y => x ≤ y) (st1.D.map (fun e => e.key))) :
    ∃ st', insertLinkFrom st1 key r newp prev0 cur0 = some st' ∧ INV st' := by
  have hfull : isPathB st1 st1.head (P ++ suf) 0 = true :=
    isPathB_append_of st1 P st1.head cur0 0 suf hP hsuf
  have hsuflen : suf.length < sfFuel st1 := by
    have := isPathB_length_le st1 cur0 suf hsuf
    unfold sfFuel
    omega
  obtain ⟨qs1, qs2, hsplit, hq1, hq2, hrun⟩ :=
    insWalk_spec st1 key suf (sfFuel st1) prev0 cur0 hsuf hsuflen
  subst hsplit
  obtain ⟨hq1path, hq2path⟩ := isPathB_split_headPtr st1 qs1 qs2 cur0 hsuf
  have hP'path : isPathB st1 st1.head (P ++ qs1) (headPtr qs2) = true :=
    isPathB_append_of st1 P st1.head cur0 (headPtr qs2) qs1 hP hq1path
  have hQold : P ++ (qs1 ++ qs2) = (P ++ qs1) ++ qs2 := by
    rw [List.append_assoc]
  have hnodup : ((P ++ qs1) ++ qs2).Nodup := by
    rw [← hQold]
    exact isPathB_nodup st1 _ _ hfull
  have hsorted' : List.Pairwise (fun x y => x ≤ y)
      (keysOf st1 ((P ++ qs1) ++ qs2)) := by
    rw [← hQold]
    exact hsorted
  have hnp' : newp ∉ (P ++ qs1) ++ qs2 := by
    rw [← hQold]
    exact hnp
  have hP'key : ∀ p ∈ P ++ qs1, ∃ e, readPtr st1 p = some e ∧ e.key < key := by
    intro p hp
    rcases List.mem_append.mp hp with h | h
    · exact hPkey p h
    · exact hq1 p h
  have hprev' : (qs1.getLastD prev0 = 0 ∧ P ++ qs1 = []) ∨
      (qs1.getLastD prev0 ≠ 0 ∧ (P ++ qs1).getLast? = some (qs1.getLastD prev0)) := by
    cases hqs1 : qs1 with
    | nil =>
      simp only [List.getLastD_nil, List.append_nil]
      exact hprev
    | cons y ys =>
      right
      have hne : qs1 ≠ [] := by rw [hqs1]; exact List.cons_ne_nil y ys
      rw [← hqs1]
      constructor
      · have hmem := getLastD_mem qs1 prev0 hne
        rcases hP'key (qs1.getLastD prev0) (List.mem_append_right P hmem) with ⟨e, he, _⟩
        intro hcon
        rw [hcon, readPtr_zero] at he
        cases he
      · rw [List.getLast?_append, getLastD_eq_getLast? qs1 prev0 hne]
        rfl
  -- the suffix keys are at or above the new key
  have hq2pair : List.Pairwise (fun x y => x ≤ y) (keysOf st1 qs2) := by
    rw [keysOf_append] at hsorted'
    exact (List.pairwise_append.mp hsorted').2.1
  have hq2ge := keysOf_suffix_ge st1 key qs2 hq2 hq2pair
  have hP'lt := keysOf_all_lt st1 key (P ++ qs1) hP'key
  -- run the walk and the first write
  unfold insertLinkFrom
  rw [hrun, optBind_some]
  dsimp only []
  obtain ⟨st2, hw2⟩ := writePtr_isSome st1 newp ne ⟨key, r, headPtr qs2⟩ hnew
  rw [hw2]
  simp only [optBind_some]
  have hnewnotpos : ¬ newp > 0 := by omega
  have hst2read : readPtr st2 newp = some ⟨key, r, headPtr qs2⟩ :=
    writePtr_read_self st1 newp _ st2 hw2
  have hst2frame : ∀ q, q ≠ newp → readPtr st2 q = readPtr st1 q :=
    fun q hq => writePtr_frame st1 newp _ st2 hw2 q hq
  have hst2D : st2.D = st1.D := writePtr_D_eq st1 newp _ st2 hnewnotpos hw2
  have hst2head : st2.head = st1.head := writePtr_head st1 newp _ st2 hw2
  have hst2len := writePtr_lengths st1 newp _ st2 hw2
  by_cases hprev0 : qs1.getLastD prev0 = 0
  · -- new head: the new node becomes the first of the chain
    rw [if_pos hprev0]
    rcases hprev' with ⟨-, hP'nil⟩ | ⟨hne0, -⟩
    swap
    · exact absurd hprev0 hne0
    have hPnil : P = [] := (List.append_eq_nil.mp hP'nil).1
    have hq1nil : qs1 = [] := (List.append_eq_nil.mp hP'nil).2
    -- the state whose invariant we establish
    have hinvF : INV { st2 with head := newp } := by
      constructor
      · refine ⟨newp :: qs2, ?_, ?_, ?_⟩
        · apply (isPathB_cons _ newp newp 0 qs2).mpr
          refine ⟨rfl, ⟨key, r, headPtr qs2⟩, hst2read, ?_⟩
          apply isPathB_congr st1 _ qs2 (headPtr qs2) 0
          · intro x hx
            rw [readPtr_set_head]
            apply hst2frame
            intro hcon
            exact hnp' (hcon ▸ List.mem_append_right _ hx)
          · exact hq2path
        · have hkeys : keysOf { st2 with head := newp } (newp :: qs2) =
              key :: keysOf st1 qs2 := by
            have hreadF : readPtr { st2 with head := newp } newp =
                some ⟨key, r, headPtr qs2⟩ := by
              rw [readPtr_set_head]
              exact hst2read
            rw [keysOf_cons_entry _ newp qs2 ⟨key, r, headPtr qs2⟩ hreadF]
            have : keysOf { st2 with head := newp } qs2 = keysOf st1 qs2 := by
              apply keysOf_congr_key
              intro p hp
              rw [readPtr_set_head, hst2frame p
                (fun hcon => hnp' (hcon ▸ List.mem_append_right _ hp))]
            rw [this]
          rw [hkeys]
          exact List.pairwise_cons.mpr ⟨hq2ge, hq2pair⟩
        · intro p hp hpq
          have hpval : p ∈ validPtrs st1 := by
            have hvv : validPtrs { st2 with head := newp } = validPtrs st1 := by
              apply validPtrs_congr
              · show st2.D.length = st1.D.length
                exact hst2len.1
              · show st2.A.length = st1.A.length
                exact hst2len.2
            rw [hvv] at hp
            exact hp
          have hpnew : p ≠ newp := by
            intro hcon
            rw [hcon] at hpq
            exact hpq (List.mem_cons_self _ _)
          have hpq2 : p ∉ qs2 := fun hcon => hpq (List.mem_cons_of_mem _ hcon)
          have hpold : p ∉ P ++ (qs1 ++ qs2) := by
            rw [hPnil, hq1nil]
            simpa using hpq2
          have ht := htomb p hpval hpold hpnew
          rcases (isTomb_iff st1 p).mp ht with ⟨e, he, hdel⟩
          apply (isTomb_iff _ p).mpr
          refine ⟨e, ?_, hdel⟩
          rw [readPtr_set_head, hst2frame p hpnew]
          exact he
      · show List.Pairwise _ ({ st2 with head := newp }.D.map _)
        dsimp only []
        rw [hst2D]
        exact hDs
    obtain ⟨st', hmr, hinv'⟩ := maybeReorg_INV _ hinvF
    exact ⟨st', hmr, hinv'⟩
  · -- splice behind prev
    rw [if_neg hprev0]
    rcases hprev' with ⟨h0, -⟩ | ⟨-, hlastP'⟩
    · exact absurd h0 hprev0
    have hprevmem : qs1.getLastD prev0 ∈ P ++ qs1 :=
      List.mem_of_mem_getLast? hlastP'
    have hprevchain : qs1.getLastD prev0 ∈ P ++ (qs1 ++ qs2) := by
      rw [hQold]
      exact List.mem_append_left _ hprevmem
    have hprevne : qs1.getLastD prev0 ≠ newp := fun hcon => hnp (hcon ▸ hprevchain)
    obtain ⟨pe1, hpe1⟩ := isPathB_mem_readPtr st1 _ st1.head (qs1.getLastD prev0)
      hfull hprevchain
    have hpe2 : readPtr st2 (qs1.getLastD prev0) = some pe1 := by
      rw [hst2frame _ hprevne]
      exact hpe1
    rw [hpe2, optBind_some]
    obtain ⟨st3, hw3⟩ := writePtr_isSome st2 (qs1.getLastD prev0) pe1
      { pe1 with next_ptr := newp } hpe2
    rw [hw3]
    simp only [optBind_some]
    have hst3read : readPtr st3 (qs1.getLastD prev0) =
        some { pe1 with next_ptr := newp } :=
      writePtr_read_self st2 _ _ st3 hw3
    have hst3frame : ∀ q, q ≠ qs1.getLastD prev0 → q ≠ newp →
        readPtr st3 q = readPtr st1 q := by
      intro q hq1' hq2'
      rw [writePtr_frame st2 _ _ st3 hw3 q hq1', hst2frame q hq2']
    have hst3newp : readPtr st3 newp = some ⟨key, r, headPtr qs2⟩ := by
      rw [writePtr_frame st2 _ _ st3 hw3 newp (fun hcon => hprevne hcon.symm)]
      exact hst2read
    have hst3head : st3.head = st1.head := by
      rw [writePtr_head st2 _ _ st3 hw3, hst2head]
    have hst3len := writePtr_lengths st2 _ _ st3 hw3
    have hst3Dkeys : st3.D.map (fun e => e.key) = st1.D.map (fun e => e.key) := by
      rw [writePtr_D_keys st2 _ pe1 _ st3 hpe2 hw3 rfl, hst2D]
    -- nodup pieces
    have hndP' : (P ++ qs1).Nodup := (List.nodup_append.mp hnodup).1
    have hdisj : ∀ x ∈ qs2, x ∉ P ++ qs1 := by
      intro x hx hcon
      exact (List.nodup_append.mp hnodup).2.2 hcon hx
    -- invariant of st3
    have hinvF : INV st3 := by
      constructor
      · refine ⟨(P ++ qs1) ++ newp :: qs2, ?_, ?_, ?_⟩
        · -- the path
          have hP'new : isPathB st3 st1.head (P ++ qs1) newp = true := by
            apply isPathB_retarget st1 st3 (P ++ qs1) st1.head (headPtr qs2) newp
              (qs1.getLastD prev0) hP'path hlastP' hndP'
            · intro x hx hxw
              apply hst3frame x hxw
              intro hcon
              exact hnp' (hcon ▸ List.mem_append_left _ hx)
            · intro e he
              rw [hpe1] at he
              injection he with heq
              rw [← heq]
              exact hst3read
          have hq2new : isPathB st3 (headPtr qs2) qs2 0 = true := by
            apply isPathB_congr st1 st3 qs2 (headPtr qs2) 0
            · intro x hx
              apply hst3frame x
              · intro hcon
                exact hdisj x hx (hcon ▸ hprevmem)
              · intro hcon
                exact hnp' (hcon ▸ List.mem_append_right _ hx)
            · exact hq2path
          have hcons : isPathB st3 newp (newp :: qs2) 0 = true := by
            apply (isPathB_cons st3 newp newp 0 qs2).mpr
            exact ⟨rfl, ⟨key, r, headPtr qs2⟩, hst3newp, hq2new⟩
          rw [hst3head]
          exact isPathB_append_of st3 (P ++ qs1) st1.head newp 0 (newp :: qs2)
            hP'new hcons
        · -- sortedness
          have hkP' : keysOf st3 (P ++ qs1) = keysOf st1 (P ++ qs1) := by
            apply keysOf_congr_key
            intro p hp
            by_cases hpw : p = qs1.getLastD prev0
            · rw [hpw, hst3read, hpe1]
              rfl
            · rw [hst3frame p hpw
                (fun hcon => hnp' (hcon ▸ List.mem_append_left _ hp))]
          have hkq2 : keysOf st3 qs2 = keysOf st1 qs2 := by
            apply keysOf_congr_key
            intro p hp
            rw [hst3frame p (fun hcon => hdisj p hp (hcon ▸ hprevmem))
              (fun hcon => hnp' (hcon ▸ List.mem_append_right _ hp))]
          rw [keysOf_append, keysOf_cons_entry st3 newp qs2 _ hst3newp, hkP', hkq2]
          apply List.pairwise_append.mpr
          refine ⟨?_, ?_, ?_⟩
          · rw [keysOf_append] at hsorted'
            exact (List.pairwise_append.mp hsorted').1
          · exact List.pairwise_cons.mpr ⟨hq2ge, hq2pair⟩
          · intro a ha b hb
            have halt := hP'lt a ha
            rcases List.mem_cons.mp hb with rfl | hb'
            · omega
            · have := hq2ge b hb'
              omega
        · -- tombstones
          intro p hp hpq
          have hpval : p ∈ validPtrs st1 := by
            have hvv : validPtrs st3 = validPtrs st1 := by
              apply validPtrs_congr
              · rw [hst3len.1, hst2D]
              · rw [hst3len.2, hst2len.2]
            rw [hvv] at hp
            exact hp
          have hpnew : p ≠ newp := by
            intro hcon
            rw [hcon] at hpq
            exact hpq (List.mem_append_right _ (List.mem_cons_self _ _))
          have hpP' : p ∉ P ++ qs1 := fun hcon => hpq (List.mem_append_left _ hcon)
          have hpq2 : p ∉ qs2 := by
            intro hcon
            exact hpq (List.mem_append_right _ (List.mem_cons_of_mem _ hcon))
          have hpold : p ∉ P ++ (qs1 ++ qs2) := by
            rw [hQold]
            intro hcon
            rcases List.mem_append.mp hcon with h | h
            · exact hpP' h
            · exact hpq2 h
          have hpprev : p ≠ qs1.getLastD prev0 := by
            intro hcon
            exact hpP' (hcon ▸ hprevmem)
          have ht := htomb p hpval hpold hpnew
          rcases (isTomb_iff st1 p).mp ht with ⟨e, he, hdel⟩
          apply (isTomb_iff st3 p).mpr
          refine ⟨e, ?_, hdel⟩
          rw [hst3frame p hpprev hpnew]
          exact he
      · rw [hst3Dkeys]
        exact hDs
    obtain ⟨st', hmr, hinv'⟩ := maybeReorg_INV _ hinvF
    exact ⟨st', hmr, hinv'⟩

/-- The key of a chain member's entry appears in keysOf. -/
theorem key_mem_keysOf (st : SFState) (ps : List Int) (p : Int) (e : SFEntry)
    (hp : p ∈ ps) (he : readPtr st p = some e) : e.key ∈ keysOf st ps := by
  unfold keysOf
  apply List.mem_filterMap.mpr
  exact ⟨p, hp, by rw [he]; rfl⟩

/-- The fresh aux pointer is not a counted pointer of the old state. -/
theorem newp_not_valid (st : SFState) :
    -((st.A.length : Int) + 2) ∉ validPtrs st := by
  unfold validPtrs
  intro h
  rcases List.mem_append.mp h with hl | hr
  · rcases List.mem_map.mp hl with ⟨i, _, heq⟩
    omega
  · rcases List.mem_map.mp hr with ⟨i, hi, heq⟩
    have := List.mem_range.mp hi
    omega

/-- Counted pointers after an aux append: the fresh pointer or an old
counted pointer. -/
theorem validPtrs_appendA (st : SFState) (e0 : SFEntry) (p : Int)
    (h : p ∈ validPtrs { st with A := st.A ++ [e0] }) :
    p = -((st.A.length : Int) + 2) ∨ p ∈ validPtrs st := by
  unfold validPtrs at h ⊢
  dsimp only [] at h
  rw [List.length_append, List.length_singleton] at h
  rcases List.mem_append.mp h with hl | hr
  · right
    exact List.mem_append_left _ hl
  · rcases List.mem_map.mp hr with ⟨i, hi, heq⟩
    have hilt := List.mem_range.mp hi
    by_cases hia : i = st.A.length
    · left
      omega
    · right
      apply List.mem_append_right
      apply List.mem_map.mpr
      exact ⟨i, List.mem_range.mpr (by omega), heq⟩

/-- Splitting a chain at a member whose entry is known: the prefix up to
and including it is a path to its next pointer, the rest a path to the
end marker. -/
theorem chain_split_at (st : SFState) (ps : List Int)
    (hpath : isPathB st st.head ps 0 = true) (jp : Int) (hj : jp ∈ ps)
    (ej : SFEntry) (hread : readPtr st jp = some ej) :
    ∃ t1 t2, ps = t1 ++ jp :: t2 ∧
      isPathB st st.head (t1 ++ [jp]) ej.next_ptr = true ∧
      isPathB st ej.next_ptr t2 0 = true := by
  rcases List.mem_iff_append.mp hj with ⟨t1, t2, rfl⟩
  have hassoc : t1 ++ jp :: t2 = (t1 ++ [jp]) ++ t2 := by simp
  rw [hassoc] at hpath
  rcases isPathB_append_inv st (t1 ++ [jp]) st.head 0 t2 hpath with ⟨mid, h1, h2⟩
  rcases isPathB_append_inv st t1 st.head mid [jp] h1 with ⟨r1, _, h12⟩
  rcases (isPathB_cons st r1 jp mid []).mp h12 with ⟨hr1, e', he', hnil⟩
  have hmid : e'.next_ptr = mid := by simpa [isPathB] using hnil
  rw [hr1, hread] at he'
  injection he' with heq
  rw [← heq] at hmid
  rw [← hmid] at h1 h2
  exact ⟨t1, t2, rfl, h1, h2⟩

/-- Every pointer of a chain from the head is a counted pointer. -/
theorem chain_sub_valid (st : SFState) (ps : List Int)
    (hpath : isPathB st st.head ps 0 = true) (p : Int) (hp : p ∈ ps) :
    p ∈ validPtrs st := by
  rcases isPathB_mem_readPtr st ps st.head p hpath hp with ⟨e, he⟩
  exact readPtr_mem_validPtrs st p e he

/-- readPtr at a positive pointer reads region D. -/
theorem readPtr_pos_j (st : SFState) (j : Nat) (hj : 1 ≤ j) :
    readPtr st (j : Int) = st.D.get? (j - 1) := by
  unfold readPtr
  rw [if_pos (by omega : (j : Int) > 0)]
  have h : ((j : Int) - 1).toNat = j - 1 := by omega
  rw [h]

/-- insert succeeds on every invariant state and preserves the
invariant. -/
theorem sfInsert_INV (st : SFState) (key : Int) (r : RID) (hinv : INV st) :
    ∃ st', sfInsert st key r = some st' ∧ INV st' := by
  obtain ⟨⟨ps, hpath, hsort, htomb⟩, hDs⟩ := hinv
  unfold sfInsert
  dsimp only []
  set st1 : SFState := { st with A := st.A ++ [⟨key, r, 0⟩] } with hst1def
  have hD1 : st1.D = st.D := rfl
  have hhead1 : st1.head = st.head := rfl
  have hA1len : st1.A.length = st.A.length + 1 := by
    rw [hst1def]
    dsimp only []
    rw [List.length_append, List.length_singleton]
  have hreadeq : ∀ x ∈ ps, readPtr st1 x = readPtr st x := by
    intro x hx
    rcases isPathB_mem_readPtr st ps st.head x hpath hx with ⟨e, he⟩
    rw [hst1def, readPtr_appendA st _ x e he, he]
  have hpath1 : isPathB st1 st1.head ps 0 = true := by
    rw [hhead1]
    exact isPathB_congr st st1 ps st.head 0 hreadeq hpath
  have hkeys1 : keysOf st1 ps = keysOf st ps :=
    keysOf_congr_key st st1 ps (fun p hp => by rw [hreadeq p hp])
  have hsort1 : List.Pairwise (fun x y => x ≤ y) (keysOf st1 ps) := by
    rw [hkeys1]
    exact hsort
  have hDs1 : List.Pairwise (fun x y => x ≤ y) (st1.D.map (fun e => e.key)) := by
    rw [hD1]
    exact hDs
  have hnewread : readPtr st1 (-((st.A.length : Int) + 2)) = some ⟨key, r, 0⟩ := by
    rw [hst1def]
    exact readPtr_appendA_new st _
  have hnpchain : -((st.A.length : Int) + 2) ∉ ps := fun hc =>
    newp_not_valid st (chain_sub_valid st ps hpath _ hc)
  have htomb1 : ∀ p ∈ validPtrs st1, p ∉ ps → p ≠ -((st.A.length : Int) + 2) →
      isTomb st1 p = true := by
    intro p hp hps hpn
    have hp' : p ∈ validPtrs st := by
      rw [hst1def] at hp
      rcases validPtrs_appendA st _ p hp with h | h
      · exact absurd h hpn
      · exact h
    rcases (isTomb_iff st p).mp (htomb p hp' hps) with ⟨e, he, hd⟩
    apply (isTomb_iff st1 p).mpr
    refine ⟨e, ?_, hd⟩
    rw [hst1def]
    exact readPtr_appendA st _ p e he
  have hnewneg : -((st.A.length : Int) + 2) < -1 := by omega
  by_cases hh0 : st.head = 0
  · rw [if_pos hh0]
    have hps0 : ps = [] := by
      cases ps with
      | nil => rfl
      | cons x xs =>
        rcases (isPathB_cons st st.head x 0 xs).mp hpath with ⟨_, e, he, _⟩
        rw [hh0, readPtr_zero] at he
        cases he
    have hinvF : INV { st1 with head := -((st.A.length : Int) + 2) } := by
      constructor
      · refine ⟨[-((st.A.length : Int) + 2)], ?_, ?_, ?_⟩
        · apply (isPathB_cons _ _ _ 0 []).mpr
          refine ⟨rfl, ⟨key, r, 0⟩, ?_, by simp [isPathB]⟩
          rw [readPtr_set_head]
          exact hnewread
        · have hk : keysOf { st1 with head := -((st.A.length : Int) + 2) }
              [-((st.A.length : Int) + 2)] = [key] := by
            apply keysOf_cons_entry _ _ [] ⟨key, r, 0⟩
            rw [readPtr_set_head]
            exact hnewread
          rw [hk]
          exact List.pairwise_singleton _ _
        · intro p hp hpq
          have hpn : p ≠ -((st.A.length : Int) + 2) := by
            intro hc
            exact hpq (by rw [hc]; exact List.mem_singleton.mpr rfl)
          have hp1 : p ∈ validPtrs st1 := by
            rw [validPtrs_congr st1
              { st1 with head := -((st.A.length : Int) + 2) } rfl rfl] at hp
            exact hp
          have ht := htomb1 p hp1 (by rw [hps0]; exact List.not_mem_nil p) hpn
          rcases (isTomb_iff st1 p).mp ht with ⟨e, he, hd⟩
          apply (isTomb_iff _ p).mpr
          refine ⟨e, ?_, hd⟩
          rw [readPtr_set_head]
          exact he
      · show List.Pairwise _ (st1.D.map _)
        exact hDs1
    obtain ⟨st', hmr, hinv'⟩ := maybeReorg_INV _ hinvF
    exact ⟨st', hmr, hinv'⟩
  · rw [if_neg hh0]
    by_cases hj1 : scanBack st1.D (min (lb st1 key - 1) st.D.length) ≥ 1
    · rw [if_pos hj1]
      set jv := scanBack st1.D (min (lb st1 key - 1) st.D.length) with hjdef
      have hjle : jv ≤ min (lb st1 key - 1) st.D.length := scanBack_le _ _
      obtain ⟨hlbl, hlb1, hlbm⟩ := lb_spec st1 key hDs1
      obtain ⟨ej, hjget, hjdel⟩ := scanBack_live st1.D _ hj1
      rw [hD1] at hjget
      have hjlt : jv < lb st1 key := by omega
      have hjkey : ej.key < key := by
        have := hlbl jv hj1 hjlt
        rw [hD1] at this
        have hgd : st.D.getD (jv - 1) dfl = ej := by
          rw [List.getD_eq_getElem?_getD, ← List.get?_eq_getElem?, hjget]
          rfl
        rw [hgd] at this
        exact this
      have hjread : readPtr st (jv : Int) = some ej := by
        rw [readPtr_pos_j st jv hj1]
        exact hjget
      have hjlive : isLivePtr st (jv : Int) = true := by
        apply (isLivePtr_iff st _).mpr
        refine ⟨ej, hjread, ?_⟩
        unfold SFEntry.deleted at hjdel
        simpa using hjdel
      have hjmem : (jv : Int) ∈ ps := by
        by_contra hcon
        have ht := htomb (jv : Int) (readPtr_mem_validPtrs st _ ej hjread) hcon
        have := tomb_not_live st _ ht
        rw [hjlive] at this
        cases this
      obtain ⟨t1, t2, hpssplit, hpre, hsuf2⟩ :=
        chain_split_at st ps hpath (jv : Int) hjmem ej hjread
      have hsubP : ∀ x ∈ t1 ++ [(jv : Int)], x ∈ ps := by
        intro x hx
        rw [hpssplit]
        rcases List.mem_append.mp hx with h | h
        · exact List.mem_append_left _ h
        · rw [List.mem_singleton.mp h]
          exact List.mem_append_right _ (List.mem_cons_self _ _)
      have hsubT : ∀ x ∈ t2, x ∈ ps := by
        intro x hx
        rw [hpssplit]
        exact List.mem_append_right _ (List.mem_cons_of_mem _ hx)
      have hpre1 : isPathB st1 st1.head (t1 ++ [(jv : Int)]) ej.next_ptr = true := by
        rw [hhead1]
        exact isPathB_congr st st1 _ st.head ej.next_ptr
          (fun x hx => hreadeq x (hsubP x hx)) hpre
      have hsuf1 : isPathB st1 ej.next_ptr t2 0 = true :=
        isPathB_congr st st1 t2 ej.next_ptr 0
          (fun x hx => hreadeq x (hsubT x hx)) hsuf2
      have hkeyps : keysOf st ps = keysOf st t1 ++ ej.key :: keysOf st t2 := by
        rw [hpssplit, keysOf_append, keysOf_cons_entry st _ t2 ej hjread]
      have hPkey : ∀ p ∈ t1 ++ [(jv : Int)],
          ∃ e, readPtr st1 p = some e ∧ e.key < key := by
        intro p hp
        rcases isPathB_mem_readPtr st ps st.head p hpath (hsubP p hp) with ⟨ep, hep⟩
        refine ⟨ep, by rw [hreadeq p (hsubP p hp)]; exact hep, ?_⟩
        rcases List.mem_append.mp hp with hmem | hmem
        · have hk : ep.key ∈ keysOf st t1 := key_mem_keysOf st t1 p ep hmem hep
          have hle : ep.key ≤ ej.key := by
            rw [hkeyps] at hsort
            exact (List.pairwise_append.mp hsort).2.2 ep.key hk ej.key
              (List.mem_cons_self _ _)
          omega
        · rw [List.mem_singleton.mp hmem, hjread] at hep
          injection hep with heq
          rw [← heq]
          exact hjkey
      have hsorted1 : List.Pairwise (fun x y => x ≤ y)
          (keysOf st1 ((t1 ++ [(jv : Int)]) ++ t2)) := by
        have : (t1 ++ [(jv : Int)]) ++ t2 = ps := by
          rw [hpssplit]
          simp
        rw [this]
        exact hsort1
      have htombP : ∀ p ∈ validPtrs st1, p ∉ (t1 ++ [(jv : Int)]) ++ t2 →
          p ≠ -((st.A.length : Int) + 2) → isTomb st1 p = true := by
        intro p hp hps hpn
        apply htomb1 p hp _ hpn
        rw [hpssplit]
        intro hcon
        apply hps
        rcases List.mem_append.mp hcon with h | h
        · exact List.mem_append_left _ (List.mem_append_left _ h)
        · rcases List.mem_cons.mp h with h' | h'
          · rw [h']
            exact List.mem_append_left _
              (List.mem_append_right _ (List.mem_cons_self _ _))
          · exact List.mem_append_right _ h'
      have hnp1 : -((st.A.length : Int) + 2) ∉ (t1 ++ [(jv : Int)]) ++ t2 := by
        intro hcon
        apply hnpchain
        rcases List.mem_append.mp hcon with h | h
        · exact hsubP _ h
        · exact hsubT _ h
      obtain ⟨st', hrun, hinv'⟩ := insertLinkFrom_inv st1 key r
        (-((st.A.length : Int) + 2)) (jv : Int) ej.next_ptr
        (t1 ++ [(jv : Int)]) t2 ⟨key, r, 0⟩ hpre1 hsuf1
        (Or.inr ⟨by omega, by rw [List.getLast?_append]; rfl⟩)
        hPkey hsorted1 htombP hnewread hnewneg hnp1 hDs1
      have hgd : st1.D.getD (jv - 1) dfl = ej := by
        rw [hD1, List.getD_eq_getElem?_getD, ← List.get?_eq_getElem?, hjget]
        rfl
      rw [hgd]
      exact ⟨st', hrun, hinv'⟩
    · rw [if_neg hj1]
      obtain ⟨rest, hE, hpseq, hheadread, hrestpath⟩ :
          ∃ rest hE, ps = st.head :: rest ∧ readPtr st st.head = some hE ∧
            isPathB st hE.next_ptr rest 0 = true := by
        cases hps : ps with
        | nil =>
          rw [hps] at hpath
          have : st.head = 0 := by simpa [isPathB] using hpath
          exact absurd this hh0
        | cons x xs =>
          rw [hps] at hpath
          rcases (isPathB_cons st st.head x 0 xs).mp hpath with ⟨hx, e, he, hrest⟩
          exact ⟨xs, e, by rw [hx], he, hrest⟩
      have hheadread1 : readPtr st1 st.head = some hE := by
        rw [hreadeq st.head (by rw [hpseq]; exact List.mem_cons_self _ _)]
        exact hheadread
      simp only [hheadread1]
      by_cases hkle : key ≤ hE.key
      · rw [if_pos hkle]
        obtain ⟨st2, hw2⟩ := writePtr_isSome st1 (-((st.A.length : Int) + 2))
          ⟨key, r, 0⟩ ⟨key, r, st.head⟩ hnewread
        rw [hw2]
        simp only [optBind_some]
        have hst2read : readPtr st2 (-((st.A.length : Int) + 2)) =
            some ⟨key, r, st.head⟩ := writePtr_read_self st1 _ _ st2 hw2
        have hst2frame : ∀ q, q ≠ -((st.A.length : Int) + 2) →
            readPtr st2 q = readPtr st1 q :=
          fun q hq => writePtr_frame st1 _ _ st2 hw2 q hq
        have hst2D : st2.D = st1.D :=
          writePtr_D_eq st1 _ _ st2 (by omega) hw2
        have hst2len := writePtr_lengths st1 _ _ st2 hw2
        have hinvF : INV { st2 with head := -((st.A.length : Int) + 2) } := by
          constructor
          · refine ⟨-((st.A.length : Int) + 2) :: ps, ?_, ?_, ?_⟩
            · apply (isPathB_cons _ _ _ 0 ps).mpr
              refine ⟨rfl, ⟨key, r, st.head⟩, ?_, ?_⟩
              · rw [readPtr_set_head]
                exact hst2read
              · apply isPathB_congr st1 _ ps st.head 0
                · intro x hx
                  rw [readPtr_set_head]
                  exact hst2frame x (fun hc => hnpchain (hc ▸ hx))
                · rw [← hhead1]
                  exact hpath1
            · have hk : keysOf { st2 with head := -((st.A.length : Int) + 2) }
                  (-((st.A.length : Int) + 2) :: ps) = key :: keysOf st ps := by
                rw [keysOf_cons_entry _ _ ps ⟨key, r, st.head⟩
                  (by rw [readPtr_set_head]; exact hst2read)]
                have hcg : keysOf { st2 with head := -((st.A.length : Int) + 2) } ps =
                    keysOf st ps := by
                  apply keysOf_congr_key
                  intro p hp
                  rw [readPtr_set_head, hst2frame p (fun hc => hnpchain (hc ▸ hp)),
                    hreadeq p hp]
                rw [hcg]
              rw [hk]
              apply List.pairwise_cons.mpr
              refine ⟨?_, hsort⟩
              intro b hb
              rw [hpseq, keysOf_cons_entry st _ rest hE hheadread] at hb
              rcases List.mem_cons.mp hb with rfl | hb'
              · exact hkle
              · have hhd : hE.key ≤ b := by
                  rw [hpseq, keysOf_cons_entry st _ rest hE hheadread] at hsort
                  exact sorted_head_le hE.key _ hsort b hb'
                omega
            · intro p hp hpq
              have hpn : p ≠ -((st.A.length : Int) + 2) := by
                intro hc
                exact hpq (by rw [hc]; exact List.mem_cons_self _ _)
              have hp1 : p ∈ validPtrs st1 := by
                have hvv : validPtrs { st2 with head := -((st.A.length : Int) + 2) } =
                    validPtrs st1 := by
                  apply validPtrs_congr
                  · show st2.D.length = st1.D.length
                    exact hst2len.1
                  · show st2.A.length = st1.A.length
                    exact hst2len.2
                rw [hvv] at hp
                exact hp
              have hpps : p ∉ ps := fun hc => hpq (List.mem_cons_of_mem _ hc)
              rcases (isTomb_iff st1 p).mp (htomb1 p hp1 hpps hpn) with ⟨e, he, hd⟩
              apply (isTomb_iff _ p).mpr
              refine ⟨e, ?_, hd⟩
              rw [readPtr_set_head, hst2frame p hpn]
              exact he
          · show List.Pairwise _ (st2.D.map _)
            rw [hst2D]
            exact hDs1
        obtain ⟨st', hmr, hinv'⟩ := maybeReorg_INV _ hinvF
        exact ⟨st', hmr, hinv'⟩
      · rw [if_neg hkle]
        have hP0 : isPathB st1 st1.head ([] : List Int) st.head = true := by
          simp [isPathB, hhead1]
        have hsuf0 : isPathB st1 st.head ps 0 = true := by
          rw [← hhead1]
          exact hpath1
        obtain ⟨st', hrun, hinv'⟩ := insertLinkFrom_inv st1 key r
          (-((st.A.length : Int) + 2)) 0 st.head ([] : List Int) ps ⟨key, r, 0⟩
          hP0 hsuf0 (Or.inl ⟨rfl, rfl⟩) (by intro p hp; cases hp)
          (by rw [List.nil_append]; exact hsort1)
          (by intro p hp hps hpn; rw [List.nil_append] at hps;
              exact htomb1 p hp hps hpn)
          hnewread hnewneg (by rw [List.nil_append]; exact hnpchain) hDs1
        exact ⟨st', hrun, hinv'⟩

/-- Assembling the invariant for a state whose header is about to be
written: a chain from the pending head with sorted keys covering all
non-tombstones. -/
theorem INV_of_chain_set_head (st : SFState) (h : Int) (Q : List Int)
    (hpath : isPathB st h Q 0 = true)
    (hsorted : List.Pairwise (fun x y => x ≤ y) (keysOf st Q))
    (htomb : ∀ p ∈ validPtrs st, p ∉ Q → isTomb st p = true)
    (hDs : List.Pairwise (fun x y => x ≤ y) (st.D.map (fun e => e.key))) :
    INV { st with head := h } := by
  constructor
  · refine ⟨Q, ?_, ?_, ?_⟩
    · show isPathB _ h Q 0 = true
      exact isPathB_congr st _ Q h 0 (fun x _ => readPtr_set_head st h x) hpath
    · have hk : keysOf { st with head := h } Q = keysOf st Q :=
        keysOf_congr_key st { st with head := h } Q
          (fun p _ => by rw [readPtr_set_head])
      rw [hk]
      exact hsorted
    · intro p hp hpq
      have hp' : p ∈ validPtrs st := by
        rw [validPtrs_congr st { st with head := h } rfl rfl] at hp
        exact hp
      rcases (isTomb_iff st p).mp (htomb p hp' hpq) with ⟨e, he, hd⟩
      apply (isTomb_iff _ p).mpr
      refine ⟨e, ?_, hd⟩
      rw [readPtr_set_head]
      exact he
  · show List.Pairwise _ (st.D.map _)
    exact hDs

/-- The tail of the removal step of delete_key: tombstone the current
node and either stop or continue the walk.  Stated against the state in
which the predecessor has already been re-linked. -/
theorem delWalk_finish (key : Int) (rid? : Option RID) (fuel : Nat)
    (stA : SFState) (prev cur hA : Int) (removed : Nat)
    (pre sufT : List Int) (node : SFEntry)
    (ih : ∀ (st : SFState) (prev cur h : Int) (removed : Nat)
      (pre suf : List Int),
      isPathB st h pre cur = true →
      isPathB st cur suf 0 = true →
      ((prev = 0 ∧ pre = []) ∨ (prev ≠ 0 ∧ pre.getLast? = some prev)) →
      List.Pairwise (fun x y => x ≤ y) (keysOf st (pre ++ suf)) →
      (∀ p ∈ validPtrs st, p ∉ pre ++ suf → isTomb st p = true) →
      List.Pairwise (fun x y => x ≤ y) (st.D.map (fun e => e.key)) →
      suf.length < fuel →
      ∃ res, delWalk st key rid? fuel prev cur h removed = some res ∧
        INV { res.1 with head := res.2.1 })
    (hpreA : isPathB stA hA pre node.next_ptr = true)
    (hsufA : isPathB stA node.next_ptr sufT 0 = true)
    (hreadA : readPtr stA cur = some node)
    (hprev : (prev = 0 ∧ pre = []) ∨ (prev ≠ 0 ∧ pre.getLast? = some prev))
    (hsortA : List.Pairwise (fun x y => x ≤ y) (keysOf stA (pre ++ sufT)))
    (htombA : ∀ p ∈ validPtrs stA, p ∉ pre ++ cur :: sufT → isTomb stA p = true)
    (hDsA : List.Pairwise (fun x y => x ≤ y) (stA.D.map (fun e => e.key)))
    (hcurpre : cur ∉ pre) (hcurT : cur ∉ sufT)
    (hlenT : sufT.length < fuel) :
    ∃ res,
      (do
        let stB ← writePtr stA cur { node with next_ptr := -1 }
        if rid?.isSome = true then some (stB, hA, removed + 1)
        else delWalk stB key rid? fuel prev node.next_ptr hA (removed + 1)) =
          some res ∧
      INV { res.1 with head := res.2.1 } := by
  obtain ⟨stB, hwB⟩ := writePtr_isSome stA cur node { node with next_ptr := -1 } hreadA
  rw [hwB, optBind_some]
  have hreadB : readPtr stB cur = some { node with next_ptr := -1 } :=
    writePtr_read_self stA cur _ stB hwB
  have hframeB : ∀ q, q ≠ cur → readPtr stB q = readPtr stA q :=
    fun q hq => writePtr_frame stA cur _ stB hwB q hq
  have hlenB := writePtr_lengths stA cur _ stB hwB
  have hpreB : isPathB stB hA pre node.next_ptr = true := by
    apply isPathB_congr stA stB pre hA node.next_ptr
    · intro x hx
      exact hframeB x (fun hc => hcurpre (hc ▸ hx))
    · exact hpreA
  have hsufB : isPathB stB node.next_ptr sufT 0 = true := by
    apply isPathB_congr stA stB sufT node.next_ptr 0
    · intro x hx
      exact hframeB x (fun hc => hcurT (hc ▸ hx))
    · exact hsufA
  have hsortB : List.Pairwise (fun x y => x ≤ y) (keysOf stB (pre ++ sufT)) := by
    have hk : keysOf stB (pre ++ sufT) = keysOf stA (pre ++ sufT) := by
      apply keysOf_congr_key
      intro p hp
      have hpc : p ≠ cur := by
        intro hc
        rcases List.mem_append.mp hp with hm | hm
        · exact hcurpre (hc ▸ hm)
        · exact hcurT (hc ▸ hm)
      rw [hframeB p hpc]
    rw [hk]
    exact hsortA
  have htombB : ∀ p ∈ validPtrs stB, p ∉ pre ++ sufT → isTomb stB p = true := by
    intro p hp hpq
    have hpval : p ∈ validPtrs stA := by
      have hvv : validPtrs stB = validPtrs stA := by
        apply validPtrs_congr
        · exact hlenB.1
        · exact hlenB.2
      rw [hvv] at hp
      exact hp
    by_cases hpc : p = cur
    · apply (isTomb_iff stB p).mpr
      rw [hpc]
      exact ⟨{ node with next_ptr := -1 }, hreadB, rfl⟩
    · have hpold : p ∉ pre ++ cur :: sufT := by
        intro hc
        rcases List.mem_append.mp hc with hm | hm
        · exact hpq (List.mem_append_left _ hm)
        · rcases List.mem_cons.mp hm with hm' | hm'
          · exact hpc hm'
          · exact hpq (List.mem_append_right _ hm')
      rcases (isTomb_iff stA p).mp (htombA p hpval hpold) with ⟨e, he, hd⟩
      apply (isTomb_iff stB p).mpr
      refine ⟨e, ?_, hd⟩
      rw [hframeB p hpc]
      exact he
  have hDsB : List.Pairwise (fun x y => x ≤ y) (stB.D.map (fun e => e.key)) := by
    rw [writePtr_D_keys stA cur node _ stB hreadA hwB rfl]
    exact hDsA
  by_cases hrid : rid?.isSome = true
  · rw [if_pos hrid]
    refine ⟨(stB, hA, removed + 1), rfl, ?_⟩
    exact INV_of_chain_set_head stB hA (pre ++ sufT)
      (isPathB_append_of stB pre hA node.next_ptr 0 sufT hpreB hsufB)
      hsortB htombB hDsB
  · rw [if_neg hrid]
    exact ih stB prev node.next_ptr hA (removed + 1) pre sufT hpreB hsufB
      hprev hsortB htombB hDsB hlenT

/-- The walk of delete_key preserves the chain structure: it terminates
with a state and pending head whose chain is the prefix walked so far
followed by what remains of the suffix, with all removed nodes
tombstoned.  The final header write restores the full invariant. -/
theorem delWalk_inv (key : Int) (rid? : Option RID) :
    ∀ (fuel : Nat) (st : SFState) (prev cur h : Int) (removed : Nat)
      (pre suf : List Int),
      isPathB st h pre cur = true →
      isPathB st cur suf 0 = true →
      ((prev = 0 ∧ pre = []) ∨ (prev ≠ 0 ∧ pre.getLast? = some prev)) →
      List.Pairwise (fun x y => x ≤ y) (keysOf st (pre ++ suf)) →
      (∀ p ∈ validPtrs st, p ∉ pre ++ suf → isTomb st p = true) →
      List.Pairwise (fun x y => x ≤ y) (st.D.map (fun e => e.key)) →
      suf.length < fuel →
      ∃ res, delWalk st key rid? fuel prev cur h removed = some res ∧
        INV { res.1 with head := res.2.1 } := by
  intro fuel
  induction fuel with
  | zero =>
    intro st prev cur h removed pre suf _ _ _ _ _ _ hlen
    omega
  | succ fuel ih =>
    intro st prev cur h removed pre suf hpre hsuf hprev hsorted htomb hDs hlen
    unfold delWalk
    by_cases hcur0 : cur = 0
    · rw [if_pos hcur0]
      refine ⟨(st, h, removed), rfl, ?_⟩
      have hsufnil : suf = [] := by
        cases hs : suf with
        | nil => rfl
        | cons x xs =>
          rw [hs] at hsuf
          rcases (isPathB_cons st cur x 0 xs).mp hsuf with ⟨_, e, he, _⟩
          rw [hcur0, readPtr_zero] at he
          cases he
      rw [hsufnil, List.append_nil] at hsorted htomb
      apply INV_of_chain_set_head st h pre _ hsorted htomb hDs
      rw [← hcur0]
      exact hpre
    · obtain ⟨sufT, node, hsufeq, hread, hrest⟩ :
          ∃ sufT node, suf = cur :: sufT ∧ readPtr st cur = some node ∧
            isPathB st node.next_ptr sufT 0 = true := by
        cases hs : suf with
        | nil =>
          rw [hs] at hsuf
          have : cur = 0 := by simpa [isPathB] using hsuf
          exact absurd this hcur0
        | cons x xs =>
          rw [hs] at hsuf
          rcases (isPathB_cons st cur x 0 xs).mp hsuf with ⟨hx, e, he, hrest⟩
          exact ⟨xs, e, by rw [← hx], he, hrest⟩
      subst hsufeq
      rw [if_neg hcur0]
      simp only [hread]
      have hfull : isPathB st h (pre ++ cur :: sufT) 0 = true :=
        isPathB_append_of st pre h cur 0 (cur :: sufT) hpre hsuf
      have hnd : (pre ++ cur :: sufT).Nodup := isPathB_nodup st _ h hfull
      have hcurpre : cur ∉ pre := by
        intro hc
        rcases List.nodup_append.mp hnd with ⟨-, -, hdisj⟩
        exact hdisj hc (List.mem_cons_self _ _)
      have hcurT : cur ∉ sufT := by
        rcases List.nodup_append.mp hnd with ⟨-, hndc, -⟩
        exact (List.nodup_cons.mp hndc).1
      have hlenT : sufT.length < fuel := by
        simp at hlen
        omega
      have hsortT : List.Pairwise (fun x y => x ≤ y)
          (keysOf st (pre ++ sufT)) := by
        have horig : keysOf st (pre ++ cur :: sufT) =
            keysOf st pre ++ node.key :: keysOf st sufT := by
          rw [keysOf_append, keysOf_cons_entry st cur sufT node hread]
        rw [horig] at hsorted
        rw [keysOf_append]
        rcases List.pairwise_append.mp hsorted with ⟨h1, h2, h3⟩
        apply List.pairwise_append.mpr
        exact ⟨h1, (List.pairwise_cons.mp h2).2,
          fun a ha b hb => h3 a ha b (List.mem_cons_of_mem _ hb)⟩
      by_cases hgt : node.key > key
      · rw [if_pos hgt]
        refine ⟨(st, h, removed), rfl, ?_⟩
        exact INV_of_chain_set_head st h (pre ++ cur :: sufT) hfull hsorted htomb hDs
      · rw [if_neg hgt]
        by_cases hmatch : node.key = key ∧ ridMatch rid? node = true
        · rw [if_pos hmatch]
          by_cases hprev0 : prev = 0
          · rw [if_pos hprev0]
            simp only [optBind_some]
            have hprenil : pre = [] := by
              rcases hprev with ⟨-, hp⟩ | ⟨hne, -⟩
              · exact hp
              · exact absurd hprev0 hne
            apply delWalk_finish key rid? fuel st prev cur node.next_ptr removed
              pre sufT node ih _ hrest hread hprev _ htomb hDs hcurpre hcurT hlenT
            · rw [hprenil]
              simp [isPathB]
            · exact hsortT
          · rw [if_neg hprev0]
            rcases hprev with ⟨hp, -⟩ | ⟨-, hlast⟩
            · exact absurd hp hprev0
            have hprevmem : prev ∈ pre := List.mem_of_mem_getLast? hlast
            obtain ⟨pe, hpe⟩ := isPathB_mem_readPtr st _ h prev hfull
              (List.mem_append_left _ hprevmem)
            rw [hpe, optBind_some]
            obtain ⟨stw, hww⟩ := writePtr_isSome st prev pe
              { pe with next_ptr := node.next_ptr } hpe
            rw [hww, optBind_some]
            simp only [optBind_some]
            have hframeW : ∀ q, q ≠ prev → readPtr stw q = readPtr st q :=
              fun q hq => writePtr_frame st prev _ stw hww q hq
            have hprevT : prev ∉ cur :: sufT := by
              rcases List.nodup_append.mp hnd with ⟨-, -, hdisj⟩
              exact fun hc => hdisj hprevmem hc
            apply delWalk_finish key rid? fuel stw prev cur h removed
              pre sufT node ih ?_ ?_ ?_ (Or.inr ⟨hprev0, hlast⟩) ?_ ?_ ?_
              hcurpre hcurT hlenT
            · apply isPathB_retarget st stw pre h cur node.next_ptr prev hpre
                hlast (List.nodup_append.mp hnd).1
              · intro x _ hxw
                exact hframeW x hxw
              · intro e he
                rw [hpe] at he
                injection he with heq
                rw [← heq]
                exact writePtr_read_self st prev _ stw hww
            · apply isPathB_congr st stw sufT node.next_ptr 0
              · intro x hx
                exact hframeW x
                  (fun hc => hprevT (hc ▸ List.mem_cons_of_mem _ hx))
              · exact hrest
            · rw [hframeW cur (fun hc => hprevT (hc ▸ List.mem_cons_self _ _))]
              exact hread
            · have hk : keysOf stw (pre ++ sufT) = keysOf st (pre ++ sufT) := by
                apply keysOf_congr_key
                intro p hp
                by_cases hpp : p = prev
                · rw [hpp, writePtr_read_self st prev _ stw hww, hpe]
                  rfl
                · rw [hframeW p hpp]
              rw [hk]
              exact hsortT
            · intro p hp hpq
              have hpval : p ∈ validPtrs st := by
                have hlw := writePtr_lengths st prev _ stw hww
                have hvv : validPtrs stw = validPtrs st := by
                  apply validPtrs_congr
                  · exact hlw.1
                  · exact hlw.2
                rw [hvv] at hp
                exact hp
              have hpprev : p ≠ prev := by
                intro hc
                exact hpq (List.mem_append_left _ (hc ▸ hprevmem))
              rcases (isTomb_iff st p).mp (htomb p hpval hpq) with ⟨e, he, hd⟩
              apply (isTomb_iff stw p).mpr
              refine ⟨e, ?_, hd⟩
              rw [hframeW p hpprev]
              exact he
            · rw [writePtr_D_keys st prev pe _ stw hpe hww rfl]
              exact hDs
        · rw [if_neg hmatch]
          have hpreN : isPathB st h (pre ++ [cur]) node.next_ptr = true := by
            apply isPathB_append_of st pre h cur node.next_ptr [cur] hpre
            apply (isPathB_cons st cur cur node.next_ptr []).mpr
            exact ⟨rfl, node, hread, by simp [isPathB]⟩
          have hassoc : (pre ++ [cur]) ++ sufT = pre ++ cur :: sufT := by simp
          apply ih st cur node.next_ptr h removed (pre ++ [cur]) sufT hpreN hrest
          · right
            refine ⟨hcur0, ?_⟩
            rw [List.getLast?_append]
            rfl
          · rw [hassoc]
            exact hsorted
          · rw [hassoc]
            exact htomb
          · exact hDs
          · exact hlenT

/-- delete_key succeeds on every invariant state and preserves the
invariant. -/
theorem sfDeleteKey_INV (st : SFState) (key : Int) (rid? : Option RID)
    (hinv : INV st) :
    ∃ st' n, sfDeleteKey st key rid? = some (st', n) ∧ INV st' := by
  obtain ⟨⟨ps, hpath, hsort, htomb⟩, hDs⟩ := hinv
  unfold sfDeleteKey
  dsimp only []
  by_cases hh0 : st.head = 0
  · rw [if_pos hh0]
    exact ⟨st, 0, rfl, ⟨⟨ps, hpath, hsort, htomb⟩, hDs⟩⟩
  · rw [if_neg hh0]
    by_cases hj1 : scanBack st.D (min (lb st key - 1) st.D.length) ≥ 1
    · rw [if_pos hj1, if_pos hj1]
      set jv := scanBack st.D (min (lb st key - 1) st.D.length) with hjdef
      obtain ⟨ej, hjget, hjdel⟩ := scanBack_live st.D _ hj1
      have hjread : readPtr st (jv : Int) = some ej := by
        rw [readPtr_pos_j st jv hj1]
        exact hjget
      have hjlive : isLivePtr st (jv : Int) = true := by
        apply (isLivePtr_iff st _).mpr
        refine ⟨ej, hjread, ?_⟩
        unfold SFEntry.deleted at hjdel
        simpa using hjdel
      have hjmem : (jv : Int) ∈ ps := by
        by_contra hcon
        have ht := htomb (jv : Int) (readPtr_mem_validPtrs st _ ej hjread) hcon
        have := tomb_not_live st _ ht
        rw [hjlive] at this
        cases this
      obtain ⟨t1, t2, hpssplit, hpre, hsuf2⟩ :=
        chain_split_at st ps hpath (jv : Int) hjmem ej hjread
      have hgd : st.D.getD (jv - 1) dfl = ej := by
        rw [List.getD_eq_getElem?_getD, ← List.get?_eq_getElem?, hjget]
        rfl
      rw [hgd]
      have hassoc : (t1 ++ [(jv : Int)]) ++ t2 = ps := by
        rw [hpssplit]
        simp
      have hfuel : t2.length < sfFuel st := by
        have := isPathB_length_le st ej.next_ptr t2 hsuf2
        unfold sfFuel
        omega
      obtain ⟨res, hrun, hinvF⟩ := delWalk_inv key rid? (sfFuel st) st (jv : Int)
        ej.next_ptr st.head 0 (t1 ++ [(jv : Int)]) t2 hpre hsuf2
        (Or.inr ⟨by omega, by rw [List.getLast?_append]; rfl⟩)
        (by rw [hassoc]; exact hsort)
        (by rw [hassoc]; exact htomb) hDs hfuel
      rcases res with ⟨st', h', removed⟩
      rw [hrun]
      exact ⟨{ st' with head := h' }, removed, rfl, hinvF⟩
    · rw [if_neg hj1, if_neg hj1]
      have hpre0 : isPathB st st.head ([] : List Int) st.head = true := by
        simp [isPathB]
      have hfuel : ps.length < sfFuel st := by
        have := isPathB_length_le st st.head ps hpath
        unfold sfFuel
        omega
      obtain ⟨res, hrun, hinvF⟩ := delWalk_inv key rid? (sfFuel st) st 0
        st.head st.head 0 ([] : List Int) ps hpre0 hpath (Or.inl ⟨rfl, rfl⟩)
        (by rw [List.nil_append]; exact hsort)
        (by rw [List.nil_append]; exact htomb) hDs hfuel
      rcases res with ⟨st', h', removed⟩
      rw [hrun]
      exact ⟨{ st' with head := h' }, removed, rfl, hinvF⟩

/-- The empty index satisfies the invariant. -/
theorem sfEmpty_INV : INV sfEmpty := by
  constructor
  · refine ⟨[], by simp [isPathB, sfEmpty], by simp [keysOf], ?_⟩
    intro p hp _
    simp [validPtrs, sfEmpty] at hp
  · simp [sfEmpty]

/-- Every reachable index state satisfies the invariant. -/
theorem Reachable_INV (st : SFState) (h : Reachable st) : INV st := by
  induction h with
  | empty => exact sfEmpty_INV
  | ins st0 k r st' _ hins ih =>
    obtain ⟨st'', hrun, hinv⟩ := sfInsert_INV st0 k r ih
    rw [hins] at hrun
    injection hrun with heq
    rw [heq]
    exact hinv
  | del st0 k rid? st' n _ hdel ih =>
    obtain ⟨st'', n', hrun, hinv⟩ := sfDeleteKey_INV st0 k rid? ih
    rw [hdel] at hrun
    injection hrun with heq
    injection heq with h1 h2
    rw [h1]
    exact hinv
  | reorg st0 st' _ hre ih =>
    exact reorganize_INV st0 st' ih hre

/-- C3: in every index state reachable from the empty file by insert,
delete_key and reorganize, following next_ptr from head_ptr enumerates a
pointer list whose keys are non-decreasing, which visits no entry twice,
which consists exactly of the live (non-tombstone) entries of the
counted regions, and which never lands on a tombstone; preservation by
each of the three operations is the induction over Reachable. -/
theorem claim_c3_chain_invariant (st : SFState) (h : Reachable st) :
    ∃ ps, isPathB st st.head ps 0 = true ∧
      List.Pairwise (fun x y => x ≤ y) (keysOf st ps) ∧
      ps.Nodup ∧
      (∀ p ∈ ps, isLivePtr st p = true) ∧
      (∀ p ∈ validPtrs st, isLivePtr st p = true → p ∈ ps) := by
  obtain ⟨⟨ps, hpath, hsort, htomb⟩, -⟩ := Reachable_INV st h
  refine ⟨ps, hpath, hsort, isPathB_nodup st ps _ hpath,
    isPathB_live st ps _ hpath, ?_⟩
  intro p hp hlive
  by_contra hcon
  have := tomb_not_live st p (htomb p hp hcon)
  rw [hlive] at this
  cases this

/-- C3 witness: the state reached by one insert into the empty index. -/
theorem claim_c3_chain_invariant_witness :
    ∃ ps,
      isPathB (SFState.mk [SFEntry.mk 5 (RID.mk 0 0) 0] [] 1)
        (SFState.mk [SFEntry.mk 5 (RID.mk 0 0) 0] [] 1).head ps 0 = true ∧
      List.Pairwise (fun x y => x ≤ y)
        (keysOf (SFState.mk [SFEntry.mk 5 (RID.mk 0 0) 0] [] 1) ps) ∧
      ps.Nodup ∧
      (∀ p ∈ ps, isLivePtr (SFState.mk [SFEntry.mk 5 (RID.mk 0 0) 0] [] 1) p = true) ∧
      (∀ p ∈ validPtrs (SFState.mk [SFEntry.mk 5 (RID.mk 0 0) 0] [] 1),
        isLivePtr (SFState.mk [SFEntry.mk 5 (RID.mk 0 0) 0] [] 1) p = true →
          p ∈ ps) :=
  claim_c3_chain_invariant (SFState.mk [SFEntry.mk 5 (RID.mk 0 0) 0] [] 1)
    (Reachable.ins sfEmpty 5 (RID.mk 0 0) _ Reachable.empty
      (sfInsert_empty 5 (RID.mk 0 0)))

